import Mathlib

/-!
Verification of the `ix` library cores (concurrent hash table `sht`,
expiring priority queue `pq`, hashed timer wheel `timer_wheel`) against
their design document.

The C sources are shallowly embedded as pure Lean functions over explicit
state records.  Concurrency collapses to the sequential semantics: every
mutex/rwlock/spinlock acquisition in the sources succeeds immediately in a
single-threaded execution, so locks are erased from the state; where a
claim is about the locking discipline itself (the EPQ global mutex), the
embedded operations additionally report how many times they locked and
unlocked the mutex on the taken path.

Machine integers are modelled as `Nat` with explicit reductions `% 2 ^ 64`
(resp. `% 2 ^ 32`) at the arithmetic operations where the C code can wrap.
Pointers to heap-allocated objects are modelled as indices into an
allocation arena (`List`), which preserves aliasing: two array slots
holding the same handle pointer are two list entries holding the same
index.  `free` is a no-op on the arena (reads of freed memory return the
last stored value; the C code has undefined behaviour there, and the spots
where that happens are called out in the theorems).
-/

namespace Ix

/-! ## Expiring priority queue (src/pqueue.c)

`struct pq_item` carries an index into the heap array, an expiration and
an opaque value.  Handles live in an arena `mem : List PqItem`; a handle
pointer is its arena index.  The heap array `items` of the C code is the
list `heap` of arena indices (only the live `size` prefix is modelled;
`capacity` is kept as a number). -/

structure PqItem where
  idx : Nat
  expire : Nat
  value : Nat
deriving Repr, DecidableEq

structure Pq where
  heap : List Nat
  mem : List PqItem
  capacity : Nat
  cpt_insert : Nat
  cpt_expire : Nat
  cpt_resched : Nat
  cpt_remove : Nat
  cpt_double_size : Nat
  cpt_double_size_fail : Nat
deriving Repr, DecidableEq

/-- Result of a public EPQ operation: new state, C return value, the
sequence of expire-callback invocations `(handle, value)` performed by the
operation, and the number of `pthread_mutex_lock` / `pthread_mutex_unlock`
calls executed on the taken path. -/
structure PqRet where
  q : Pq
  ret : Int
  fired : List (Nat × Nat)
  locks : Nat
  unlocks : Nat
deriving Repr, DecidableEq

/-- Dereference a handle (arena read). -/
def getItem (mem : List PqItem) (id : Nat) : PqItem :=
  mem.getD id ⟨0, 0, 0⟩

/-- Store through a handle (arena write). -/
def setItem (mem : List PqItem) (id : Nat) (it : PqItem) : List PqItem :=
  mem.set id it

/-- `item->expire` read through the heap array. -/
def expireOf (mem : List PqItem) (id : Nat) : Nat :=
  (getItem mem id).expire

/-- `swap_items(&q->items[i], &q->items[j])`: the two array cells swap
pointers; the pointed-to items (in particular their `idx` fields) are not
touched. -/
def swap_items (l : List Nat) (i j : Nat) : List Nat :=
  (l.set i (l.getD j 0)).set j (l.getD i 0)

theorem length_swap_items (l : List Nat) (i j : Nat) :
    (swap_items l i j).length = l.length := by
  simp [swap_items]

/-- `heapify_up(q, idx)` from pqueue.c, with an explicit structural fuel
so that the kernel can evaluate it.  Each recursive call strictly
decreases `idx`, so `fuel = idx` always suffices (see `heapify_up`). -/
def heapify_up_go (mem : List PqItem) : Nat → List Nat → Nat → List Nat
  | 0, l, _ => l
  | fuel + 1, l, idx =>
    if idx = 0 then l
    else
      let parent_idx := (idx - 1) / 2
      if expireOf mem (l.getD idx 0) < expireOf mem (l.getD parent_idx 0) then
        heapify_up_go mem fuel (swap_items l idx parent_idx) parent_idx
      else l

/-- `heapify_up(q, idx)` from pqueue.c. -/
def heapify_up (mem : List PqItem) (l : List Nat) (idx : Nat) : List Nat :=
  heapify_up_go mem idx l idx

/-- First step of `heapify_down(q, idx)`'s `smallest` computation: the
left child if it exists and has the strictly smaller expiration. -/
def hd_s1 (mem : List PqItem) (l : List Nat) (idx : Nat) : Nat :=
  if 2 * idx + 1 < l.length ∧
      expireOf mem (l.getD (2 * idx + 1) 0) < expireOf mem (l.getD idx 0) then
    2 * idx + 1
  else idx

/-- The `smallest` computed by the body of `heapify_down(q, idx)`:
`idx`, or whichever existing child has the strictly smaller expiration
(the two `if`s of the C body). -/
def hd_smallest (mem : List PqItem) (l : List Nat) (idx : Nat) : Nat :=
  if 2 * idx + 2 < l.length ∧
      expireOf mem (l.getD (2 * idx + 2) 0) <
        expireOf mem (l.getD (hd_s1 mem l idx) 0) then
    2 * idx + 2
  else hd_s1 mem l idx

theorem hd_s1_spec (mem : List PqItem) (l : List Nat) (idx : Nat) :
    hd_s1 mem l idx = idx ∨
      (idx < hd_s1 mem l idx ∧ hd_s1 mem l idx < l.length) := by
  unfold hd_s1
  split <;> omega

theorem hd_smallest_spec (mem : List PqItem) (l : List Nat) (idx : Nat) :
    hd_smallest mem l idx = idx ∨
      (idx < hd_smallest mem l idx ∧ hd_smallest mem l idx < l.length) := by
  rcases hd_s1_spec mem l idx with h | h <;>
    · unfold hd_smallest
      split <;> omega

/-- `heapify_down(q, idx)` from pqueue.c, with an explicit structural
fuel; each recursive call strictly increases `idx` and keeps it below
`l.length`, so `fuel = l.length - idx` always suffices (see
`heapify_down`).  `q->size` is `l.length`. -/
def heapify_down_go (mem : List PqItem) : Nat → List Nat → Nat → List Nat
  | 0, l, _ => l
  | fuel + 1, l, idx =>
    let smallest := hd_smallest mem l idx
    if smallest ≠ idx then
      heapify_down_go mem fuel (swap_items l idx smallest) smallest
    else l

/-- `heapify_down(q, idx)` from pqueue.c. -/
def heapify_down (mem : List PqItem) (l : List Nat) (idx : Nat) : List Nat :=
  heapify_down_go mem (l.length - idx) l idx

theorem length_heapify_down_go (mem : List PqItem) (fuel : Nat)
    (l : List Nat) (idx : Nat) :
    (heapify_down_go mem fuel l idx).length = l.length := by
  induction fuel generalizing l idx with
  | zero => rfl
  | succ fuel ih =>
    rw [heapify_down_go]
    split
    · rw [ih, length_swap_items]
    · rfl

theorem length_heapify_down (mem : List PqItem) (l : List Nat) (idx : Nat) :
    (heapify_down mem l idx).length = l.length :=
  length_heapify_down_go ..

theorem length_heapify_up_go (mem : List PqItem) (fuel : Nat)
    (l : List Nat) (idx : Nat) :
    (heapify_up_go mem fuel l idx).length = l.length := by
  induction fuel generalizing l idx with
  | zero => rfl
  | succ fuel ih =>
    rw [heapify_up_go]
    split
    · rfl
    · dsimp only
      split
      · rw [ih, length_swap_items]
      · rfl

theorem length_heapify_up (mem : List PqItem) (l : List Nat) (idx : Nat) :
    (heapify_up mem l idx).length = l.length :=
  length_heapify_up_go ..

/-- `pq_create_custom` (allocation succeeds; locks erased). -/
def pq_create (size : Int) : Pq :=
  let capacity : Nat := if size ≤ 0 then 64 else size.toNat
  ⟨[], [], capacity, 0, 0, 0, 0, 0, 0⟩

/-- `pq_item_create(q, expire, value)`: allocates a fresh handle; the
compound literal zero-initialises `idx`.  Returns the new arena and the
handle (its arena index). -/
def pq_item_create (q : Pq) (expire value : Nat) : Pq × Nat :=
  ({ q with mem := q.mem ++ [⟨0, expire % 2 ^ 64, value⟩] }, q.mem.length)

/-- `pq_double_size(q)`: called with the queue locked.  `reallocOk` is the
behaviour of the user allocator's `realloc` hook at this call (C semantics:
on failure the old array pointer stays valid and unchanged). -/
def pq_double_size (q : Pq) (reallocOk : Bool) : Pq × Int :=
  let q := { q with cpt_double_size := q.cpt_double_size + 1 }
  if reallocOk then
    ({ q with capacity := q.capacity * 2 }, 0)
  else
    ({ q with cpt_double_size_fail := q.cpt_double_size_fail + 1 }, -1)

/-- Tail of `pq_item_insert` after the capacity check:
`item->idx = q->size; q->items[q->size] = item; q->size++;
heapify_up(q, q->size - 1); q->cpt_insert++;` then unlock. -/
def pq_item_insert_tail (q : Pq) (id : Nat) : PqRet :=
  let mem := setItem q.mem id { getItem q.mem id with idx := q.heap.length }
  let heap := q.heap ++ [id]
  let heap := heapify_up mem heap (heap.length - 1)
  ⟨{ q with mem := mem, heap := heap, cpt_insert := q.cpt_insert + 1 }, 0, [], 1, 1⟩

/-- `pq_item_insert(q, item)`.  Note the early `return rv` on the failed
`pq_double_size` path returns without unlocking the mutex. -/
def pq_item_insert (q : Pq) (id : Nat) (reallocOk : Bool) : PqRet :=
  if q.heap.length = q.capacity then
    let r := pq_double_size q reallocOk
    if r.2 ≠ 0 then
      ⟨r.1, r.2, [], 1, 0⟩
    else
      pq_item_insert_tail r.1 id
  else
    pq_item_insert_tail q id

/-- `pq_item_remove(q, item)`: reads the handle's (possibly stale) `idx`
field to find the slot to vacate. -/
def pq_item_remove (q : Pq) (id : Nat) : PqRet :=
  let idx := (getItem q.mem id).idx
  let heap :=
    if idx = q.heap.length - 1 then
      q.heap.dropLast
    else
      let heap := (q.heap.set idx (q.heap.getD (q.heap.length - 1) 0)).dropLast
      let parent_idx := (idx - 1) / 2
      if 0 < idx ∧
          expireOf q.mem (heap.getD idx 0) < expireOf q.mem (heap.getD parent_idx 0) then
        heapify_up q.mem heap idx
      else
        heapify_down q.mem heap idx
  ⟨{ q with heap := heap, cpt_remove := q.cpt_remove + 1 }, 0, [], 1, 1⟩

/-- `pq_item_resched(q, now, item, new_ttl)` = remove, set
`item->expire = now + new_ttl` (uint64 wrap), re-insert. -/
def pq_item_resched (q : Pq) (now id new_ttl : Nat) (reallocOk : Bool) : PqRet :=
  let r1 := pq_item_remove q id
  if r1.ret ≠ 0 then r1
  else
    let q1 := r1.q
    let mem := setItem q1.mem id
      { getItem q1.mem id with expire := (now + new_ttl) % 2 ^ 64 }
    let q1 := { q1 with mem := mem, cpt_resched := q1.cpt_resched + 1 }
    let r2 := pq_item_insert q1 id reallocOk
    ⟨r2.q, r2.ret, r1.fired ++ r2.fired, r1.locks + r2.locks, r1.unlocks + r2.unlocks⟩

/-- `pq_insert(q, now, value, ttl)` (handle allocation succeeds). -/
def pq_insert (q : Pq) (now value ttl : Nat) (reallocOk : Bool) : PqRet :=
  let p := pq_item_create q (now + ttl) value
  pq_item_insert p.1 p.2 reallocOk

/-- The pop step of `pq_expire`'s loop:
`q->items[0] = q->items[q->size - 1]; q->size--; heapify_down(q, 0);`. -/
def pq_pop_root (mem : List PqItem) (l : List Nat) : List Nat :=
  heapify_down mem ((l.set 0 (l.getD (l.length - 1) 0)).dropLast) 0

/-- The `while (cpt < num)` loop of `pq_expire`.  `cpt` is never
incremented by the C loop, so for `num > 0` the guard `cpt < num` is
always true and the loop is bounded only by its two `break`s: queue
drained (which also unlocks the mutex before breaking) or head not yet
expired.  Returns the remaining heap, the callback invocations, and
whether the drained-`break` (with its extra unlock) was taken. -/
def pq_expire_loop_go (mem : List PqItem) (now : Nat) :
    Nat → List Nat → List Nat × List (Nat × Nat) × Bool
  | _, [] => ([], [], true)
  | 0, heap => (heap, [], false)
  | fuel + 1, id0 :: rest =>
    if now < expireOf mem id0 then (id0 :: rest, [], false)
    else
      ((pq_expire_loop_go mem now fuel (pq_pop_root mem (id0 :: rest))).1,
        (id0, (getItem mem id0).value) ::
          (pq_expire_loop_go mem now fuel (pq_pop_root mem (id0 :: rest))).2.1,
        (pq_expire_loop_go mem now fuel (pq_pop_root mem (id0 :: rest))).2.2)

/-- The `while (cpt < num)` loop of `pq_expire`: each iteration shrinks
`q->size` by one, so `fuel = heap.length` always suffices. -/
def pq_expire_loop (mem : List PqItem) (now : Nat) (heap : List Nat) :
    List Nat × List (Nat × Nat) × Bool :=
  pq_expire_loop_go mem now heap.length heap

/-- `pq_expire(q, now, num)`: returns `cpt`, which is still `0`, and adds
`cpt = 0` to the `cpt_expire` statistics counter. -/
def pq_expire (q : Pq) (now : Nat) (num : Int) : PqRet :=
  if num ≤ 0 then ⟨q, 0, [], 0, 0⟩
  else
    let r := pq_expire_loop q.mem now q.heap
    ⟨{ q with heap := r.1, cpt_expire := q.cpt_expire + 0 }, 0, r.2.1, 1,
      if r.2.2 then 2 else 1⟩

/-- `pq_expire_all(q, now)` = `pq_expire(q, now, INT32_MAX)`. -/
def pq_expire_all (q : Pq) (now : Nat) : PqRet :=
  pq_expire q now 2147483647

/-! ### Concrete EPQ runs used by several claims -/

/-- `q = pq_create(0)`, then `pq_item_create(10, 100)` + insert (handle 0),
then `pq_item_create(5, 200)` + insert (handle 1).  The second insert sifts
handle 1 to the root by `swap_items`, which does not update the `idx`
fields: afterwards the heap array is `[1, 0]` while handle 1 still records
`idx = 1` and handle 0 records `idx = 0`. -/
def pqTwoInserts : Pq :=
  let q0 := pq_create 0
  let p1 := pq_item_create q0 10 100
  let q1 := (pq_item_insert p1.1 p1.2 true).q
  let p2 := pq_item_create q1 5 200
  (pq_item_insert p2.1 p2.2 true).q

/-- `pq_item_resched(q, 20, handle0, 20)` on `pqTwoInserts` followed by
`pq_expire_all(q, 100)`.  The remove inside the resched trusts handle 0's
stale `idx = 0`, so it evicts handle 1 from the root instead, and the
re-insert leaves handle 0 stored in both remaining slots. -/
def pqReschedRun : PqRet :=
  let r5 := pq_item_resched pqTwoInserts 20 0 20 true
  pq_expire_all r5.q 100

/-- `pq_create(1)` with one expired item inserted: `size == capacity`, so
the next insert must call `pq_double_size`. -/
def pqFullQueue : Pq :=
  let q0 := pq_create 1
  let p1 := pq_item_create q0 3 7
  (pq_item_insert p1.1 p1.2 true).q

/-- `pq_create(0)` with two items of expirations 1 and 2 (both ≤ 10). -/
def pqTwoExpired : Pq :=
  let q0 := pq_create 0
  let r1 := pq_insert q0 0 11 1 true
  (pq_insert r1.q 0 22 2 true).q

/-- C3: the claimed invariant "every handle stored in the heap array at
index `i` has its `idx` field equal to `i`" is already violated after two
public `pq_insert`-style operations: `swap_items` (used by `heapify_up`
and `heapify_down`) swaps the array cells without updating the handles'
`idx` fields.  After inserting expirations 10 then 5, the array is
`[handle1, handle0]` but handle 1 (stored at index 0) still has
`idx = 1`. -/
theorem pq_idx_invariant_violated :
    pqTwoInserts.heap = [1, 0] ∧
    (getItem pqTwoInserts.mem 1).idx = 1 ∧
    (getItem pqTwoInserts.mem 0).idx = 0 ∧
    ¬ ∀ i < pqTwoInserts.heap.length,
        (getItem pqTwoInserts.mem (pqTwoInserts.heap.getD i 0)).idx = i := by
  decide

/-- C4: rescheduling handle 0 in the two-element queue `pqTwoInserts`
(where its `idx` field is stale) makes the remove step evict handle 1
instead; after the re-insert the heap array holds handle 0 twice, and the
following `pq_expire_all(now + new_ttl)` invokes the expire callback for
handle 0's value twice (the claim says exactly once), while handle 1 is
lost without its callback ever firing.  (In C the second pop reads and
frees an already-freed item — undefined behaviour; the arena model reads
the last stored value.) -/
theorem pq_resched_double_fire :
    pqReschedRun.fired = [(0, 100), (0, 100)] ∧
    (pqReschedRun.fired.filter (fun p => p.1 == 0)).length = 2 ∧
    (pqReschedRun.fired.filter (fun p => p.1 == 1)).length = 0 := by
  decide

/-- C9: if `pq_double_size` fails (realloc returns null) inside
`pq_item_insert`, the insert returns `-1` and the queue's stored items,
their order, size and capacity are exactly as before the call (only the
`cpt_double_size` / `cpt_double_size_fail` statistics move). -/
theorem pq_insert_realloc_fail_preserves (q : Pq) (id : Nat)
    (h : q.heap.length = q.capacity) :
    (pq_item_insert q id false).ret = -1 ∧
    (pq_item_insert q id false).q.heap = q.heap ∧
    (pq_item_insert q id false).q.mem = q.mem ∧
    (pq_item_insert q id false).q.capacity = q.capacity := by
  simp [pq_item_insert, pq_double_size, h]

/-- Witness for `pq_insert_realloc_fail_preserves` at the concrete full
queue `pqFullQueue` (capacity 1, one stored item). -/
theorem pq_insert_realloc_fail_preserves_witness :
    pqFullQueue.heap.length = pqFullQueue.capacity ∧
    ((pq_item_insert pqFullQueue 0 false).ret = -1 ∧
      (pq_item_insert pqFullQueue 0 false).q.heap = pqFullQueue.heap ∧
      (pq_item_insert pqFullQueue 0 false).q.mem = pqFullQueue.mem ∧
      (pq_item_insert pqFullQueue 0 false).q.capacity = pqFullQueue.capacity) :=
  ⟨by decide, pq_insert_realloc_fail_preserves pqFullQueue 0 (by decide)⟩

/-- C10: the EPQ global mutex is not balanced on every path.  On the
failed-`pq_double_size` path `pq_item_insert` returns with the mutex still
locked (1 lock, 0 unlocks), and when `pq_expire` drains the queue to empty
it unlocks inside the loop and again after it (1 lock, 2 unlocks). -/
theorem pq_mutex_imbalance :
    ((pq_item_insert pqFullQueue 0 false).locks = 1 ∧
      (pq_item_insert pqFullQueue 0 false).unlocks = 0) ∧
    ((pq_expire pqFullQueue 10 5).locks = 1 ∧
      (pq_expire pqFullQueue 10 5).unlocks = 2) := by
  decide

/-- C1 counterexample: on a queue holding two items with expirations 1 and
2, `pq_expire(q, 10, 1)` removes **both** items (the loop counter `cpt` is
never incremented, so `max` does not bound the loop) and returns 0, where
the claim requires removing `min(1, 2) = 1` item and returning 1. -/
theorem pq_expire_ignores_max :
    (pq_expire pqTwoExpired 10 1).ret = 0 ∧
    (pq_expire pqTwoExpired 10 1).q.heap = [] ∧
    (pq_expire pqTwoExpired 10 1).fired = [(0, 11), (1, 22)] := by
  decide

/-! ### Min-heap facts about pqueue.c's sift operations

These lemmas establish that `heapify_down` restores the binary min-heap
property after the root has been replaced by the last element, which is
what `pq_expire`'s pop loop relies on.  Indices follow the C layout: the
children of `i` are `2*i+1` and `2*i+2`, the parent is `(i-1)/2`. -/

def parentIdx (i : Nat) : Nat := (i - 1) / 2

/-- Expiration of the handle stored at heap index `i`. -/
def keyAt (mem : List PqItem) (l : List Nat) (i : Nat) : Nat :=
  expireOf mem (l.getD i 0)

/-- The binary min-heap property of the C heap array. -/
def IsHeap (mem : List PqItem) (l : List Nat) : Prop :=
  ∀ i < l.length, 0 < i → keyAt mem l (parentIdx i) ≤ keyAt mem l i

instance (mem : List PqItem) (l : List Nat) : Decidable (IsHeap mem l) := by
  unfold IsHeap
  infer_instance

/-- The heap property on all parent edges except those out of `j`. -/
def AlmostHeap (mem : List PqItem) (l : List Nat) (j : Nat) : Prop :=
  ∀ i < l.length, 0 < i → parentIdx i ≠ j →
    keyAt mem l (parentIdx i) ≤ keyAt mem l i

/-- `j`'s parent (when it exists) is already ≤ `j`'s children. -/
def GrandOk (mem : List PqItem) (l : List Nat) (j : Nat) : Prop :=
  ∀ i < l.length, 0 < i → parentIdx i = j → 0 < j →
    keyAt mem l (parentIdx j) ≤ keyAt mem l i

theorem parentIdx_lt {i : Nat} (h : 0 < i) : parentIdx i < i := by
  unfold parentIdx; omega

theorem parentIdx_eq_iff {i j : Nat} (h : 0 < i) :
    parentIdx i = j ↔ i = 2 * j + 1 ∨ i = 2 * j + 2 := by
  unfold parentIdx; omega

theorem getD_swap_items (l : List Nat) (i j k : Nat)
    (hi : i < l.length) (hj : j < l.length) :
    (swap_items l i j).getD k 0 =
      if k = j then l.getD i 0
      else if k = i then l.getD j 0
      else l.getD k 0 := by
  unfold swap_items
  simp only [List.getD_eq_getElem?_getD, List.getElem?_set, List.length_set]
  by_cases hkj : k = j
  · subst hkj
    simp [hj]
  · have hjk : ¬ j = k := fun h => hkj h.symm
    simp only [hjk, if_false, ite_false, hkj]
    by_cases hki : k = i
    · subst hki
      simp [hi, hkj]
    · have hik : ¬ i = k := fun h => hki h.symm
      simp [hik, hki, hkj]

theorem keyAt_swap_items (mem : List PqItem) (l : List Nat) (i j k : Nat)
    (hi : i < l.length) (hj : j < l.length) :
    keyAt mem (swap_items l i j) k =
      if k = j then keyAt mem l i
      else if k = i then keyAt mem l j
      else keyAt mem l k := by
  unfold keyAt
  rw [getD_swap_items l i j k hi hj]
  split <;> [rfl; split <;> rfl]

/-- Replacing a list element and pulling the old one to the front is a
permutation. -/
theorem getD_cons_set_perm (t : List Nat) :
    ∀ (m : Nat) (x : Nat), m < t.length →
      (t.getD m 0 :: t.set m x).Perm (x :: t) := by
  induction t with
  | nil => intro m x h; simp at h
  | cons y s ih =>
    intro m x h
    cases m with
    | zero =>
      simp only [List.getD_cons_zero, List.set_cons_zero]
      exact List.Perm.swap x y s
    | succ m =>
      have hm : m < s.length := by simpa using h
      have e1 : (y :: s).getD (m + 1) 0 :: (y :: s).set (m + 1) x
          = s.getD m 0 :: y :: s.set m x := by simp
      rw [e1]
      exact (List.Perm.swap y (s.getD m 0) (s.set m x)).trans
        (((ih m x hm).cons y).trans (List.Perm.swap x y s))

theorem swap_items_comm (l : List Nat) (i j : Nat) :
    swap_items l i j = swap_items l j i := by
  by_cases hij : i = j
  · rw [hij]
  · unfold swap_items
    rw [List.set_comm _ _ _ hij]

theorem swap_items_perm (l : List Nat) (i j : Nat)
    (hi : i < l.length) (hj : j < l.length) :
    (swap_items l i j).Perm l := by
  induction l generalizing i j with
  | nil => simp at hi
  | cons x t ih =>
    cases i with
    | zero =>
      cases j with
      | zero =>
        simp [swap_items]
      | succ m =>
        have hm : m < t.length := by simpa using hj
        have : swap_items (x :: t) 0 (m + 1) =
            t.getD m 0 :: t.set m x := by
          simp [swap_items]
        rw [this]
        exact getD_cons_set_perm t m x hm
    | succ k =>
      cases j with
      | zero =>
        rw [swap_items_comm]
        have hk : k < t.length := by simpa using hi
        have : swap_items (x :: t) 0 (k + 1) =
            t.getD k 0 :: t.set k x := by
          simp [swap_items]
        rw [this]
        exact getD_cons_set_perm t k x hk
      | succ m =>
        have hk : k < t.length := by simpa using hi
        have hm : m < t.length := by simpa using hj
        have : swap_items (x :: t) (k + 1) (m + 1) =
            x :: swap_items t k m := by
          simp [swap_items]
        rw [this]
        exact (ih k m hk hm).cons x

theorem heapify_down_go_perm (mem : List PqItem) (fuel : Nat)
    (l : List Nat) (idx : Nat) :
    (heapify_down_go mem fuel l idx).Perm l := by
  induction fuel generalizing l idx with
  | zero => exact List.Perm.refl l
  | succ fuel ih =>
    rw [heapify_down_go]
    split
    · next hne =>
      rcases hd_smallest_spec mem l idx with h | h
      · exact absurd h hne
      · exact (ih _ _).trans
          (swap_items_perm l idx (hd_smallest mem l idx) (by omega) h.2)
    · exact List.Perm.refl l

theorem heapify_down_perm (mem : List PqItem) (l : List Nat) (idx : Nat) :
    (heapify_down mem l idx).Perm l :=
  heapify_down_go_perm ..

/-- When `heapify_down`'s `smallest` is `idx` itself, both existing
children are ≥ `idx`. -/
theorem hd_smallest_eq_self (mem : List PqItem) (l : List Nat) (j : Nat)
    (h : hd_smallest mem l j = j) :
    (2 * j + 1 < l.length → keyAt mem l j ≤ keyAt mem l (2 * j + 1)) ∧
    (2 * j + 2 < l.length → keyAt mem l j ≤ keyAt mem l (2 * j + 2)) := by
  unfold hd_smallest hd_s1 at h
  unfold keyAt
  split_ifs at h <;> omega

/-- When `heapify_down`'s `smallest` differs from `idx`, it is the
existing child with the minimal expiration, strictly below `idx`'s. -/
theorem hd_smallest_ne_self (mem : List PqItem) (l : List Nat) (j : Nat)
    (h : hd_smallest mem l j ≠ j) :
    (hd_smallest mem l j = 2 * j + 1 ∨ hd_smallest mem l j = 2 * j + 2) ∧
    hd_smallest mem l j < l.length ∧
    keyAt mem l (hd_smallest mem l j) < keyAt mem l j ∧
    (2 * j + 1 < l.length →
      keyAt mem l (hd_smallest mem l j) ≤ keyAt mem l (2 * j + 1)) ∧
    (2 * j + 2 < l.length →
      keyAt mem l (hd_smallest mem l j) ≤ keyAt mem l (2 * j + 2)) := by
  unfold hd_smallest hd_s1 at h ⊢
  unfold keyAt
  split_ifs at h <;> split_ifs <;> omega

/-- Main heapify lemma: if all parent edges hold except possibly those
out of `j`, and `j`'s parent is already below `j`'s children, then
`heapify_down` starting at `j` produces a heap. -/
theorem heapify_down_go_isHeap (mem : List PqItem) (fuel : Nat)
    (l : List Nat) (j : Nat) (hfuel : l.length - j ≤ fuel)
    (ha : AlmostHeap mem l j) (hg : GrandOk mem l j) :
    IsHeap mem (heapify_down_go mem fuel l j) := by
  induction fuel generalizing l j with
  | zero =>
    -- `fuel = 0` forces `l.length ≤ j`: every valid parent index is `< j`.
    intro i hi h0i
    have hi' : i < l.length := hi
    exact ha i hi' h0i (by have := parentIdx_lt h0i; omega)
  | succ fuel ih =>
    rw [heapify_down_go]
    split
    · next hne =>
      -- recursive case: swap `j` with its smallest child `s` and descend
      obtain ⟨hchild, hslt, hkey, hmin1, hmin2⟩ := hd_smallest_ne_self mem l j hne
      set s := hd_smallest mem l j with hs
      have hjs : j < s := by
        rcases hchild with h | h <;> omega
      have hjlt : j < l.length := lt_trans hjs hslt
      have hklem : ∀ k, keyAt mem (swap_items l j s) k =
          if k = s then keyAt mem l j
          else if k = j then keyAt mem l s
          else keyAt mem l k :=
        fun k => keyAt_swap_items mem l j s k hjlt hslt
      have kS : keyAt mem (swap_items l j s) s = keyAt mem l j := by
        rw [hklem s, if_pos rfl]
      have kJ : keyAt mem (swap_items l j s) j = keyAt mem l s := by
        rw [hklem j, if_neg (by omega), if_pos rfl]
      have kO : ∀ k, ¬ k = s → ¬ k = j →
          keyAt mem (swap_items l j s) k = keyAt mem l k := by
        intro k h1 h2
        rw [hklem k, if_neg h1, if_neg h2]
      have hps : parentIdx s = j := by
        rw [parentIdx_eq_iff (by omega)]; tauto
      apply ih
      · rw [length_swap_items]; omega
      · -- AlmostHeap of the swapped list at `s`
        intro i hi h0i hpi
        rw [length_swap_items] at hi
        by_cases his : i = s
        · subst his
          rw [hps, kS, kJ]
          exact le_of_lt hkey
        · by_cases hij : i = j
          · subst hij
            have hplt : parentIdx i < i := parentIdx_lt h0i
            rw [kJ, kO (parentIdx i) (by omega) (by omega)]
            exact hg s hslt (by omega) hps (by omega)
          · by_cases hpij : parentIdx i = j
            · -- i is the sibling child of s
              have hchildi : i = 2 * j + 1 ∨ i = 2 * j + 2 :=
                (parentIdx_eq_iff h0i).mp hpij
              rw [hpij, kJ, kO i his hij]
              rcases hchildi with h | h
              · rw [h]; exact hmin1 (h ▸ hi)
              · rw [h]; exact hmin2 (h ▸ hi)
            · -- untouched edge
              rw [kO i his hij, kO (parentIdx i) hpi hpij]
              exact ha i hi h0i hpij
      · -- GrandOk of the swapped list at `s`
        intro i hi h0i hpi hs0
        rw [length_swap_items] at hi
        have hsi : s < i := by
          have := (parentIdx_eq_iff h0i).mp hpi
          omega
        rw [hps, kJ, kO i (by omega) (by omega)]
        have hres := ha i hi h0i (by omega)
        rw [hpi] at hres
        exact hres
    · next hne =>
      -- `smallest = idx`: the array is already a heap
      have heq : hd_smallest mem l j = j := by
        by_contra h; exact hne h
      obtain ⟨hle1, hle2⟩ := hd_smallest_eq_self mem l j heq
      intro i hi h0i
      by_cases hpij : parentIdx i = j
      · have hchildi : i = 2 * j + 1 ∨ i = 2 * j + 2 :=
          (parentIdx_eq_iff h0i).mp hpij
        rw [hpij]
        rcases hchildi with h | h
        · rw [h]; exact hle1 (h ▸ hi)
        · rw [h]; exact hle2 (h ▸ hi)
      · exact ha i hi h0i hpij

theorem isHeap_nil (mem : List PqItem) : IsHeap mem [] := by
  intro i hi
  simp at hi

/-- In a min-heap the root carries the minimal expiration. -/
theorem isHeap_root_le (mem : List PqItem) (l : List Nat)
    (hh : IsHeap mem l) : ∀ i < l.length, keyAt mem l 0 ≤ keyAt mem l i := by
  intro i
  induction i using Nat.strong_induction_on with
  | _ i ih =>
    intro hi
    rcases Nat.eq_zero_or_pos i with rfl | h0
    · exact le_refl _
    · exact le_trans
        (ih (parentIdx i) (parentIdx_lt h0) (lt_trans (parentIdx_lt h0) hi))
        (hh i hi h0)

/-- Member form of `isHeap_root_le`. -/
theorem isHeap_head_le (mem : List PqItem) (a : Nat) (t : List Nat)
    (hh : IsHeap mem (a :: t)) :
    ∀ x ∈ t, expireOf mem a ≤ expireOf mem x := by
  intro x hx
  obtain ⟨i, hi, hset⟩ := List.mem_iff_getElem.mp hx
  have hroot := isHeap_root_le mem (a :: t) hh (i + 1) (by simp; omega)
  have h2 : keyAt mem (a :: t) (i + 1) = expireOf mem x := by
    unfold keyAt
    rw [List.getD_cons_succ, List.getD_eq_getElem?_getD,
      List.getElem?_eq_getElem hi]
    simp [hset]
  rw [h2] at hroot
  exact hroot

theorem grandOk_zero (mem : List PqItem) (l : List Nat) : GrandOk mem l 0 := by
  intro i hi h0i hpi h00
  exact absurd h00 (lt_irrefl 0)

/-- Replacing the root by the last element and truncating preserves the
heap property everywhere except at the root's out-edges. -/
theorem pop_root_almostHeap (mem : List PqItem) (l : List Nat)
    (hh : IsHeap mem l) :
    AlmostHeap mem ((l.set 0 (l.getD (l.length - 1) 0)).dropLast) 0 := by
  intro i hi h0i hpi
  have hlen : ((l.set 0 (l.getD (l.length - 1) 0)).dropLast).length
      = l.length - 1 := by simp
  rw [hlen] at hi
  have hval : ∀ k, 0 < k → k < l.length - 1 →
      keyAt mem ((l.set 0 (l.getD (l.length - 1) 0)).dropLast) k
        = keyAt mem l k := by
    intro k h0k hk
    unfold keyAt
    generalize l.getD (l.length - 1) 0 = x
    have hv : (l.set 0 x).dropLast.getD k 0 = l.getD k 0 := by
      rw [List.getD_eq_getElem?_getD, List.getD_eq_getElem?_getD,
        List.getElem?_eq_getElem
          (by simp; omega : k < ((l.set 0 x).dropLast).length),
        List.getElem?_eq_getElem (by omega : k < l.length)]
      simp only [List.getElem_dropLast, List.getElem_set]
      rw [if_neg (by omega)]
    rw [hv]
  have hp0 : 0 < parentIdx i := Nat.pos_of_ne_zero hpi
  have hpl : parentIdx i < i := parentIdx_lt h0i
  rw [hval i h0i hi, hval (parentIdx i) hp0 (by omega)]
  exact hh i (by omega) h0i

/-- Pulling the last element of a non-empty list in front of its
`dropLast` is a permutation of the list. -/
theorem cons_last_dropLast_perm (t : List Nat) (h : t ≠ []) :
    (t.getD (t.length - 1) 0 :: t.dropLast).Perm t := by
  have hd : t.getD (t.length - 1) 0 = t.getLast h := by
    rw [List.getLast_eq_getElem, List.getD_eq_getElem?_getD,
      List.getElem?_eq_getElem (by have := List.length_pos.mpr h; omega :
        t.length - 1 < t.length)]
    rfl
  rw [hd]
  have e : t.dropLast ++ [t.getLast h] = t := List.dropLast_append_getLast h
  have hp := (List.perm_append_singleton (t.getLast h) t.dropLast).symm
  rw [e] at hp
  exact hp

/-- The pop transformation keeps exactly the non-root elements. -/
theorem pop_root_set_perm (id0 : Nat) (rest : List Nat) :
    ((((id0 :: rest).set 0
        ((id0 :: rest).getD ((id0 :: rest).length - 1) 0)).dropLast)).Perm
      rest := by
  rcases eq_or_ne rest [] with rfl | hne
  · simp
  · have hpos : 0 < rest.length := List.length_pos.mpr hne
    have h1 : (id0 :: rest).getD ((id0 :: rest).length - 1) 0
        = rest.getD (rest.length - 1) 0 := by
      have hl : (id0 :: rest).length - 1 = (rest.length - 1) + 1 := by
        simp; omega
      rw [hl, List.getD_cons_succ]
    rw [h1, List.set_cons_zero]
    have h2 : (rest.getD (rest.length - 1) 0 :: rest).dropLast
        = rest.getD (rest.length - 1) 0 :: rest.dropLast := by
      cases rest with
      | nil => exact absurd rfl hne
      | cons c s => rfl
    rw [h2]
    exact cons_last_dropLast_perm rest hne

theorem pq_pop_root_perm (mem : List PqItem) (id0 : Nat) (rest : List Nat) :
    (pq_pop_root mem (id0 :: rest)).Perm rest :=
  (heapify_down_perm ..).trans (pop_root_set_perm id0 rest)

theorem pq_pop_root_isHeap (mem : List PqItem) (l : List Nat)
    (hh : IsHeap mem l) : IsHeap mem (pq_pop_root mem l) := by
  unfold pq_pop_root heapify_down
  exact heapify_down_go_isHeap mem _ _ 0 (le_refl _)
    (pop_root_almostHeap mem l hh) (grandOk_zero mem _)

/-- Full behaviour of `pq_expire`'s loop on a well-formed heap: it pops
exactly the expired handles (all of them — `num` does not bound it), in
non-decreasing expiration order, pairing each with its stored value; the
survivors are exactly the non-expired handles and still form a heap; the
drained flag is set iff the queue ends empty. -/
theorem pq_expire_loop_go_spec (mem : List PqItem) (now : Nat) :
    ∀ (fuel : Nat) (heap : List Nat), heap.length ≤ fuel → IsHeap mem heap →
    ((pq_expire_loop_go mem now fuel heap).1.Perm
        (heap.filter fun id => decide (now < expireOf mem id))) ∧
    (((pq_expire_loop_go mem now fuel heap).2.1.map Prod.fst).Perm
        (heap.filter fun id => decide (expireOf mem id ≤ now))) ∧
    List.Sorted (· ≤ ·)
        ((pq_expire_loop_go mem now fuel heap).2.1.map fun p =>
          expireOf mem p.1) ∧
    (∀ p ∈ (pq_expire_loop_go mem now fuel heap).2.1,
        p.2 = (getItem mem p.1).value) ∧
    IsHeap mem (pq_expire_loop_go mem now fuel heap).1 ∧
    ((pq_expire_loop_go mem now fuel heap).2.2 = true ↔
        (pq_expire_loop_go mem now fuel heap).1 = []) := by
  intro fuel
  induction fuel with
  | zero =>
    intro heap hle hh
    have hnil : heap = [] := List.length_eq_zero.mp (Nat.le_zero.mp hle)
    subst hnil
    refine ⟨?_, ?_, ?_, ?_, isHeap_nil mem, ?_⟩ <;> simp [pq_expire_loop_go]
  | succ fuel ih =>
    intro heap hle hh
    cases heap with
    | nil =>
      refine ⟨?_, ?_, ?_, ?_, isHeap_nil mem, ?_⟩ <;> simp [pq_expire_loop_go]
    | cons id0 rest =>
      rw [pq_expire_loop_go]
      by_cases hlt : now < expireOf mem id0
      · -- head not yet expired: nothing is removed
        simp only [hlt, if_pos, ite_true]
        have hall : ∀ x ∈ id0 :: rest, decide (now < expireOf mem x) = true := by
          intro x hx
          rcases List.mem_cons.mp hx with rfl | hx
          · exact decide_eq_true hlt
          · exact decide_eq_true
              (lt_of_lt_of_le hlt (isHeap_head_le mem id0 rest hh x hx))
        have hnone : (id0 :: rest).filter
            (fun id => decide (expireOf mem id ≤ now)) = [] := by
          rw [List.filter_eq_nil_iff]
          intro x hx
          have := of_decide_eq_true (hall x hx)
          simp
          omega
        refine ⟨?_, ?_, ?_, ?_, hh, ?_⟩
        · rw [List.filter_eq_self.mpr hall]
        · rw [hnone]
          exact List.Perm.refl _
        · exact List.sorted_nil
        · intro p hp
          simp at hp
        · simp
      · -- head expired: pop it and continue
        simp only [hlt, if_neg, ite_false]
        have hexp : expireOf mem id0 ≤ now := not_lt.mp hlt
        have hperm : (pq_pop_root mem (id0 :: rest)).Perm rest :=
          pq_pop_root_perm mem id0 rest
        have hlen2 : (pq_pop_root mem (id0 :: rest)).length ≤ fuel := by
          rw [hperm.length_eq]
          simpa using Nat.le_of_succ_le_succ hle
        have hh2 : IsHeap mem (pq_pop_root mem (id0 :: rest)) :=
          pq_pop_root_isHeap mem (id0 :: rest) hh
        obtain ⟨ih1, ih2, ih3, ih4, ih5, ih6⟩ :=
          ih (pq_pop_root mem (id0 :: rest)) hlen2 hh2
        have hfl : (id0 :: rest).filter
            (fun id => decide (now < expireOf mem id))
            = rest.filter (fun id => decide (now < expireOf mem id)) := by
          simp [List.filter_cons, hlt]
        have hfc : (id0 :: rest).filter
            (fun id => decide (expireOf mem id ≤ now))
            = id0 :: rest.filter (fun id => decide (expireOf mem id ≤ now)) := by
          simp [List.filter_cons, hexp]
        refine ⟨?_, ?_, ?_, ?_, ih5, ?_⟩
        · rw [hfl]
          exact ih1.trans (hperm.filter _)
        · rw [hfc]
          simp only [List.map_cons]
          exact (ih2.trans (hperm.filter _)).cons id0
        · simp only [List.map_cons]
          refine List.sorted_cons.mpr ⟨?_, ih3⟩
          intro b hb
          obtain ⟨p, hp, rfl⟩ := List.mem_map.mp hb
          have hmem1 : p.1 ∈ (pq_expire_loop_go mem now fuel
              (pq_pop_root mem (id0 :: rest))).2.1.map Prod.fst :=
            List.mem_map_of_mem Prod.fst hp
          have hmem2 : p.1 ∈ (pq_pop_root mem (id0 :: rest)).filter
              (fun id => decide (expireOf mem id ≤ now)) :=
            ih2.mem_iff.mp hmem1
          have hmem3 : p.1 ∈ pq_pop_root mem (id0 :: rest) :=
            List.mem_of_mem_filter hmem2
          have hmem4 : p.1 ∈ rest := hperm.mem_iff.mp hmem3
          exact isHeap_head_le mem id0 rest hh p.1 hmem4
        · intro p hp
          rcases List.mem_cons.mp hp with rfl | hp
          · rfl
          · exact ih4 p hp
        · exact ih6

/-- C1 (amended): on every queue whose array satisfies the min-heap
invariant, `pq_expire(q, now, max)` with `max > 0` removes **all** queued
items with expiration ≤ `now` — the `max` bound is not enforced, because
the loop counter `cpt` is never incremented — in non-decreasing
expiration order, invoking the expire callback on each removed value, and
returns 0 (the unincremented `cpt`), not the number of items removed; for
`max ≤ 0` it removes nothing and returns 0. -/
theorem pq_expire_expires_all (q : Pq) (now : Nat) (num : Int)
    (hh : IsHeap q.mem q.heap) :
    (num ≤ 0 → (pq_expire q now num).q = q ∧ (pq_expire q now num).ret = 0 ∧
      (pq_expire q now num).fired = []) ∧
    (0 < num →
      (pq_expire q now num).ret = 0 ∧
      (pq_expire q now num).q.mem = q.mem ∧
      ((pq_expire q now num).q.heap.Perm
        (q.heap.filter fun id => decide (now < expireOf q.mem id))) ∧
      (((pq_expire q now num).fired.map Prod.fst).Perm
        (q.heap.filter fun id => decide (expireOf q.mem id ≤ now))) ∧
      List.Sorted (· ≤ ·)
        ((pq_expire q now num).fired.map fun p => expireOf q.mem p.1) ∧
      (∀ p ∈ (pq_expire q now num).fired, p.2 = (getItem q.mem p.1).value) ∧
      IsHeap (pq_expire q now num).q.mem (pq_expire q now num).q.heap) := by
  constructor
  · intro hle
    rw [pq_expire, if_pos hle]
    exact ⟨rfl, rfl, rfl⟩
  · intro hpos
    have hnle : ¬ num ≤ 0 := not_le.mpr hpos
    obtain ⟨s1, s2, s3, s4, s5, s6⟩ :=
      pq_expire_loop_go_spec q.mem now q.heap.length q.heap (le_refl _) hh
    rw [pq_expire, if_neg hnle]
    exact ⟨rfl, rfl, s1, s2, s3, s4, s5⟩

/-- Witness for `pq_expire_expires_all` on the concrete queue
`pqTwoExpired` with `now = 10`, `max = 3`. -/
theorem pq_expire_expires_all_witness :
    IsHeap pqTwoExpired.mem pqTwoExpired.heap ∧
    ((3 : Int) ≤ 0 → (pq_expire pqTwoExpired 10 3).q = pqTwoExpired ∧
      (pq_expire pqTwoExpired 10 3).ret = 0 ∧
      (pq_expire pqTwoExpired 10 3).fired = []) ∧
    ((0 : Int) < 3 →
      (pq_expire pqTwoExpired 10 3).ret = 0 ∧
      (pq_expire pqTwoExpired 10 3).q.mem = pqTwoExpired.mem ∧
      ((pq_expire pqTwoExpired 10 3).q.heap.Perm
        (pqTwoExpired.heap.filter fun id =>
          decide (10 < expireOf pqTwoExpired.mem id))) ∧
      (((pq_expire pqTwoExpired 10 3).fired.map Prod.fst).Perm
        (pqTwoExpired.heap.filter fun id =>
          decide (expireOf pqTwoExpired.mem id ≤ 10))) ∧
      List.Sorted (· ≤ ·)
        ((pq_expire pqTwoExpired 10 3).fired.map fun p =>
          expireOf pqTwoExpired.mem p.1) ∧
      (∀ p ∈ (pq_expire pqTwoExpired 10 3).fired,
          p.2 = (getItem pqTwoExpired.mem p.1).value) ∧
      IsHeap (pq_expire pqTwoExpired 10 3).q.mem
        (pq_expire pqTwoExpired 10 3).q.heap) :=
  ⟨by decide, pq_expire_expires_all pqTwoExpired 10 3 (by decide)⟩

/-! ## Hashed timer wheel (src/timer-wheel.c)

A timer node carries its absolute expiry in nanoseconds and an opaque
value; nodes additionally carry an `id` (their allocation order), which
models pointer identity and lets the theorems count how often one
particular timer fires.  A slot's circular doubly-linked list, always
traversed from `head` and extended by `list_add` just before `head`
(i.e. at the tail), is modelled as a plain list with append-at-tail and
traversal from the front.  Callback invocations and re-insertions of
not-yet-expired timers (each paired in the C code with a
`cpt_timer_loop` increment) are reported as an event list.
`current_tick` and the statistics counters are kept as unbounded `Nat`
(they only ever grow by 1 per processed tick / event; their uint64 wrap
is unreachable in any modelled execution, unlike the expiry arithmetic,
which wraps explicitly below). -/

structure TwNode where
  id : Nat
  expiry : Nat
  data : Nat
deriving Repr, DecidableEq

inductive TwEvent where
  | fire (id data : Nat)
  | reinsert (id : Nat)
deriving Repr, DecidableEq

structure Tw where
  slots : List (List TwNode)
  size : Nat
  mask : Nat
  current_tick : Nat
  tick_resolution : Nat
  next_id : Nat
  cpt_expired : Nat
  cpt_add : Nat
  cpt_add_expired : Nat
  cpt_timer_loop : Nat
deriving Repr, DecidableEq

/-- Result of a wheel operation: new state, C return value, and the
events (callback invocations / re-insertions) it performed, in order. -/
structure TwRet where
  tw : Tw
  ret : Int
  events : List TwEvent
deriving Repr, DecidableEq

def is_power_of_2 (n : Nat) : Bool :=
  n != 0 && (n &&& (n - 1)) == 0

/-- `timer_wheel_next_power_of_2` (uint32 bit-smearing). -/
def timer_wheel_next_power_of_2 (n : Nat) : Nat :=
  if n = 0 then 1
  else if is_power_of_2 n then n
  else
    let m := n - 1
    let m := m ||| (m >>> 1)
    let m := m ||| (m >>> 2)
    let m := m ||| (m >>> 4)
    let m := m ||| (m >>> 8)
    let m := m ||| (m >>> 16)
    (m + 1) % 2 ^ 32

/-- `timer_wheel_create_custom` (allocation succeeds; locks erased). -/
def timer_wheel_create (size : Nat) (tick_resolution_ns : Nat) : Tw :=
  let res := if tick_resolution_ns = 0 then 1000 else tick_resolution_ns
  let size := if size = 0 then 256 else size
  let size := if is_power_of_2 size then size else timer_wheel_next_power_of_2 size
  ⟨List.replicate size [], size, size - 1, 0, res, 0, 0, 0, 0, 0⟩

/-- `list_add(&tw->slots[slot], timer)`: insertion before the circular
head is an append at the traversal tail. -/
def tw_list_add (l : List TwNode) (node : TwNode) : List TwNode :=
  l ++ [node]

/-- `timer_wheel_add(tw, delay_ns, data)`.  The uint64 additions and the
multiplication wrap mod `2^64`; the "insertion was slower than the ttl"
inline-fire check compares the same expression against itself and is
unreachable in a single-threaded execution, but is kept. -/
def timer_wheel_add (tw : Tw) (delay_ns : Nat) (data : Nat) : TwRet :=
  let tw := { tw with cpt_add := tw.cpt_add + 1 }
  if delay_ns = 0 then ⟨tw, 0, []⟩
  else
    let ticks_delay := ((delay_ns + tw.tick_resolution - 1) % 2 ^ 64) /
      tw.tick_resolution
    let expiry_tick := (tw.current_tick + ticks_delay) % 2 ^ 64
    let timer : TwNode :=
      ⟨tw.next_id, (expiry_tick * tw.tick_resolution) % 2 ^ 64, data⟩
    let tw := { tw with next_id := tw.next_id + 1 }
    let slot := expiry_tick &&& tw.mask
    if expiry_tick < (tw.current_tick + ticks_delay) % 2 ^ 64 then
      ⟨{ tw with cpt_add_expired := tw.cpt_add_expired + 1 }, 0,
        [TwEvent.fire timer.id timer.data]⟩
    else
      ⟨{ tw with
          slots := tw.slots.set slot (tw_list_add (tw.slots.getD slot []) timer) },
        0, []⟩

/-- Re-insertion of a not-yet-expired timer during `timer_wheel_tick`:
append to slot `(expiry / tick_resolution) & mask` and increment
`cpt_timer_loop`. -/
def tw_reinsert (tw : Tw) (n : TwNode) : Tw :=
  { tw with
    slots := tw.slots.set ((n.expiry / tw.tick_resolution) &&& tw.mask)
      (tw_list_add
        (tw.slots.getD ((n.expiry / tw.tick_resolution) &&& tw.mask) []) n),
    cpt_timer_loop := tw.cpt_timer_loop + 1 }

/-- The `while (head)` walk of `timer_wheel_tick` over one detached slot
list: fire expired timers, re-insert the others into their canonical
slot.  Returns the updated wheel, the events in execution order, and the
local `expired_cpt` contribution. -/
def tw_process_detached (T : Nat) : Tw → List TwNode → Tw × List TwEvent × Nat
  | tw, [] => (tw, [], 0)
  | tw, n :: rest =>
    if n.expiry ≤ T then
      ((tw_process_detached T tw rest).1,
        TwEvent.fire n.id n.data :: (tw_process_detached T tw rest).2.1,
        (tw_process_detached T tw rest).2.2 + 1)
    else
      ((tw_process_detached T (tw_reinsert tw n) rest).1,
        TwEvent.reinsert n.id :: (tw_process_detached T (tw_reinsert tw n) rest).2.1,
        (tw_process_detached T (tw_reinsert tw n) rest).2.2)

/-- One iteration of the tick loop: detach the whole list of slot
`current_tick & mask` (under the slot lock), process it, and advance
`current_tick`. -/
def tw_tick_step (T : Nat) (tw : Tw) : Tw × List TwEvent × Nat :=
  match tw_process_detached T
      { tw with slots := tw.slots.set (tw.current_tick &&& tw.mask) [] }
      (tw.slots.getD (tw.current_tick &&& tw.mask) []) with
  | (tw1, evs, cnt) =>
    ({ tw1 with current_tick := tw1.current_tick + 1 }, evs, cnt)

/-- The `while (tick <= target_tick)` loop of `timer_wheel_tick`; the
fuel is the number of remaining iterations (`target_tick + 1 - tick`). -/
def tw_tick_loop (T : Nat) : Nat → Tw → Tw × List TwEvent × Nat
  | 0, tw => (tw, [], 0)
  | fuel + 1, tw =>
    match tw_tick_step T tw with
    | (tw2, evs1, cnt1) =>
      match tw_tick_loop T fuel tw2 with
      | (tw3, evs2, cnt2) => (tw3, evs1 ++ evs2, cnt1 + cnt2)

theorem tw_tick_step_def (T : Nat) (tw : Tw) :
    tw_tick_step T tw
      = ({ (tw_process_detached T
              { tw with slots := tw.slots.set (tw.current_tick &&& tw.mask) [] }
              (tw.slots.getD (tw.current_tick &&& tw.mask) [])).1 with
            current_tick := (tw_process_detached T
              { tw with slots := tw.slots.set (tw.current_tick &&& tw.mask) [] }
              (tw.slots.getD (tw.current_tick &&& tw.mask) [])).1.current_tick + 1 },
          (tw_process_detached T
            { tw with slots := tw.slots.set (tw.current_tick &&& tw.mask) [] }
            (tw.slots.getD (tw.current_tick &&& tw.mask) [])).2.1,
          (tw_process_detached T
            { tw with slots := tw.slots.set (tw.current_tick &&& tw.mask) [] }
            (tw.slots.getD (tw.current_tick &&& tw.mask) [])).2.2) := by
  rw [tw_tick_step]

theorem tw_tick_loop_succ (T : Nat) (fuel : Nat) (tw : Tw) :
    tw_tick_loop T (fuel + 1) tw
      = ((tw_tick_loop T fuel (tw_tick_step T tw).1).1,
          (tw_tick_step T tw).2.1
            ++ (tw_tick_loop T fuel (tw_tick_step T tw).1).2.1,
          (tw_tick_step T tw).2.2
            + (tw_tick_loop T fuel (tw_tick_step T tw).1).2.2) := by
  rw [tw_tick_loop]

/-- `timer_wheel_tick(tw, current_time_ns)`.  Note the no-rewind guard
compares `current_time_ns` (nanoseconds) against `current_tick` (a tick
count), exactly as the C code does. -/
def timer_wheel_tick (tw : Tw) (current_time_ns : Nat) : TwRet :=
  if tw.slots.length = 0 then ⟨tw, -1, []⟩
  else if current_time_ns < tw.current_tick then ⟨tw, 0, []⟩
  else
    ⟨{ (tw_tick_loop current_time_ns
          (current_time_ns / tw.tick_resolution + 1 - tw.current_tick) tw).1 with
        cpt_expired := (tw_tick_loop current_time_ns
          (current_time_ns / tw.tick_resolution + 1 - tw.current_tick) tw).1.cpt_expired
          + (tw_tick_loop current_time_ns
              (current_time_ns / tw.tick_resolution + 1 - tw.current_tick) tw).2.2 },
      ((tw_tick_loop current_time_ns
        (current_time_ns / tw.tick_resolution + 1 - tw.current_tick) tw).2.2 : Int),
      (tw_tick_loop current_time_ns
        (current_time_ns / tw.tick_resolution + 1 - tw.current_tick) tw).2.1⟩

/-- A sequence of `timer_wheel_tick` calls, collecting all events. -/
def twRunTicks : Tw → List Nat → Tw × List TwEvent
  | tw, [] => (tw, [])
  | tw, t :: ts =>
    ((twRunTicks (timer_wheel_tick tw t).tw ts).1,
      (timer_wheel_tick tw t).events
        ++ (twRunTicks (timer_wheel_tick tw t).tw ts).2)

/-- Number of `fire` events for one timer id. -/
def countFire (evs : List TwEvent) (id : Nat) : Nat :=
  evs.countP fun e =>
    match e with
    | TwEvent.fire i _ => i == id
    | TwEvent.reinsert _ => false

/-- Total number of `fire` events. -/
def countFireAll (evs : List TwEvent) : Nat :=
  evs.countP fun e =>
    match e with
    | TwEvent.fire _ _ => true
    | TwEvent.reinsert _ => false

/-- Total number of `reinsert` events. -/
def countReinsert (evs : List TwEvent) : Nat :=
  evs.countP fun e =>
    match e with
    | TwEvent.fire _ _ => false
    | TwEvent.reinsert _ => true

/-! ### Concrete wheel runs -/

/-- `timer_wheel_create_custom(16, 1000000, ...)` followed by
`timer_wheel_add(tw, 500000, 42)` at wheel time `C = 0` ns. -/
def twHalfMs : TwRet :=
  timer_wheel_add (timer_wheel_create 16 1000000) 500000 42

/-- C8 counterexample: with tick resolution 1 ms, a timer added at wheel
time `C = 0` with `delayNs = 500000` gets its delay rounded **up** to one
full tick (`expiry = 1000000` ns), so the first `tick(T)` with
`T ≥ C + D = 500000` — namely `tick(500000)` — fires nothing, where the
claim requires the callback to be invoked during that call.  The timer
actually fires at `tick(1000000)`. -/
theorem tw_tick_rounding_cex :
    (timer_wheel_tick twHalfMs.tw 500000).events = [] ∧
    (timer_wheel_tick twHalfMs.tw 500000).ret = 0 ∧
    (timer_wheel_create 16 1000000).current_tick = 0 ∧
    (timer_wheel_tick twHalfMs.tw 1000000).events = [TwEvent.fire 0 42] := by
  decide

/-! ### Per-timer correctness of the wheel -/

/-- Number of nodes carrying `id` across all slots. -/
def slotsCountId (slots : List (List TwNode)) (id : Nat) : Nat :=
  (slots.map fun s => s.countP fun n => n.id == id).sum

/-- Well-formedness of a wheel, as established by
`timer_wheel_create` and preserved by `timer_wheel_add` /
`timer_wheel_tick`: the slot array has `size = 2^k` entries, `mask` is
`size - 1`, the resolution is positive, every queued node sits in the
slot derived from its expiry, and all node ids are below `next_id`. -/
def TwWF (tw : Tw) : Prop :=
  tw.slots.length = tw.size ∧
  (∃ k, tw.size = 2 ^ k) ∧
  tw.mask = tw.size - 1 ∧
  0 < tw.tick_resolution ∧
  (∀ j < tw.slots.length, ∀ n ∈ tw.slots.getD j [],
    (n.expiry / tw.tick_resolution) &&& tw.mask = j) ∧
  (∀ j < tw.slots.length, ∀ n ∈ tw.slots.getD j [], n.id < tw.next_id)

/-- The timer `n` is queued (exactly once, in its canonical slot). -/
def TimerLive (tw : Tw) (n : TwNode) : Prop :=
  slotsCountId tw.slots n.id = 1 ∧
  n ∈ tw.slots.getD ((n.expiry / tw.tick_resolution) &&& tw.mask) []

theorem tw_mask_lt (tw : Tw) (hwf : TwWF tw) (x : Nat) :
    x &&& tw.mask < tw.slots.length := by
  obtain ⟨hlen, ⟨k, hk⟩, hmask, -, -, -⟩ := hwf
  rw [hlen, hk, hmask, hk]
  have := Nat.and_pow_two_sub_one_eq_mod x k
  simp only [this]
  exact Nat.mod_lt x (Nat.pos_pow_of_pos k (by omega))

theorem sum_set_nat (xs : List Nat) (j : Nat) (v : Nat) (hj : j < xs.length) :
    (xs.set j v).sum + xs.getD j 0 = xs.sum + v := by
  induction xs generalizing j with
  | nil => simp at hj
  | cons x t ih =>
    cases j with
    | zero => simp [Nat.add_comm, Nat.add_left_comm]
    | succ j =>
      have hj' : j < t.length := by simpa using hj
      simp only [List.set_cons_succ, List.sum_cons, List.getD_cons_succ]
      have := ih j hj'
      omega

theorem getD_map_countP (slots : List (List TwNode)) (id : Nat) (j : Nat)
    (hj : j < slots.length) :
    (slots.map fun s => s.countP fun n => n.id == id).getD j 0
      = (slots.getD j []).countP fun n => n.id == id := by
  rw [List.getD_eq_getElem?_getD, List.getD_eq_getElem?_getD,
    List.getElem?_eq_getElem (by simpa using hj),
    List.getElem?_eq_getElem hj]
  simp

/-- Emptying slot `j` removes exactly its contribution to the count. -/
theorem slotsCountId_set_nil (slots : List (List TwNode)) (id : Nat)
    (j : Nat) (hj : j < slots.length) :
    slotsCountId (slots.set j []) id
        + ((slots.getD j []).countP fun n => n.id == id)
      = slotsCountId slots id := by
  unfold slotsCountId
  rw [List.map_set]
  have h := sum_set_nat (slots.map fun s => s.countP fun n => n.id == id) j
    (([] : List TwNode).countP fun n => n.id == id) (by simpa using hj)
  rw [getD_map_countP slots id j hj] at h
  simp only [List.countP_nil] at h ⊢
  omega

/-- Appending a node to slot `j` adds its contribution to the count. -/
theorem slotsCountId_set_append (slots : List (List TwNode)) (id : Nat)
    (j : Nat) (hj : j < slots.length) (n : TwNode) :
    slotsCountId (slots.set j (slots.getD j [] ++ [n])) id
      = slotsCountId slots id + (if n.id = id then 1 else 0) := by
  unfold slotsCountId
  rw [List.map_set]
  have := sum_set_nat (slots.map fun s => s.countP fun n => n.id == id) j
    ((slots.getD j [] ++ [n]).countP fun n => n.id == id) (by simpa using hj)
  rw [getD_map_countP slots id j hj] at this
  rw [List.countP_append] at this
  by_cases hid : n.id = id
  · simp [hid] at this ⊢
    omega
  · simp [hid] at this ⊢
    omega

/-- Membership in a slot survives emptying or appending to other slots
(and appending to the same slot). -/
theorem mask_slot_lt (len size mask x : Nat) (hlen : len = size)
    (hpow : ∃ k, size = 2 ^ k) (hmask : mask = size - 1) :
    x &&& mask < len := by
  obtain ⟨k, hk⟩ := hpow
  rw [hlen, hk, hmask, hk, Nat.and_pow_two_sub_one_eq_mod]
  exact Nat.mod_lt x (Nat.pos_pow_of_pos k (by omega))

theorem mem_getD_set_of_mem (slots : List (List TwNode)) (m : TwNode)
    (i j : Nat) (l : List TwNode) (hm : m ∈ slots.getD i [])
    (hcase : i ≠ j ∨ ∀ x ∈ slots.getD j [], x ∈ l) :
    m ∈ (slots.set j l).getD i [] := by
  have hi : i < slots.length := by
    by_contra hn
    rw [List.getD_eq_getElem?_getD, List.getElem?_len_le (by omega)] at hm
    simp at hm
  by_cases hij : i = j
  · subst hij
    rcases hcase with h | h
    · exact absurd rfl h
    · rw [List.getD_eq_getElem?_getD,
        List.getElem?_eq_getElem (by simpa using hi),
        List.getElem_set_self]
      exact h m hm
  · rw [List.getD_eq_getElem?_getD,
      List.getElem?_eq_getElem (by simpa using hi),
      List.getElem_set_ne (fun h => hij h.symm)]
    rw [List.getD_eq_getElem?_getD, List.getElem?_eq_getElem hi] at hm
    exact hm

/-- Behaviour of the detached-list walk: structural fields are
preserved, `cpt_timer_loop` counts exactly the re-insert events, the
local `expired_cpt` counts exactly the fire events, the fire events for
one id are the expired `id`-nodes of the detached list, and the queued
count for one id grows by its not-yet-expired nodes in the list. -/
theorem tw_process_detached_spec (T : Nat) :
    ∀ (ds : List TwNode) (tw : Tw),
      tw.slots.length = tw.size → (∃ k, tw.size = 2 ^ k) →
      tw.mask = tw.size - 1 →
      (tw_process_detached T tw ds).1.size = tw.size ∧
      (tw_process_detached T tw ds).1.mask = tw.mask ∧
      (tw_process_detached T tw ds).1.current_tick = tw.current_tick ∧
      (tw_process_detached T tw ds).1.tick_resolution = tw.tick_resolution ∧
      (tw_process_detached T tw ds).1.next_id = tw.next_id ∧
      (tw_process_detached T tw ds).1.cpt_expired = tw.cpt_expired ∧
      (tw_process_detached T tw ds).1.slots.length = tw.slots.length ∧
      (tw_process_detached T tw ds).1.cpt_timer_loop
        = tw.cpt_timer_loop + countReinsert (tw_process_detached T tw ds).2.1 ∧
      (tw_process_detached T tw ds).2.2
        = countFireAll (tw_process_detached T tw ds).2.1 ∧
      (∀ id, countFire (tw_process_detached T tw ds).2.1 id
        = ds.countP fun n => n.id == id && decide (n.expiry ≤ T)) ∧
      (∀ id, slotsCountId (tw_process_detached T tw ds).1.slots id
        = slotsCountId tw.slots id
          + ds.countP fun n => n.id == id && decide (T < n.expiry)) := by
  intro ds
  induction ds with
  | nil =>
    intro tw h1 h2 h3
    refine ⟨rfl, rfl, rfl, rfl, rfl, rfl, rfl, ?_, rfl, ?_, ?_⟩
    · simp [tw_process_detached, countReinsert]
    · intro id; simp [tw_process_detached, countFire]
    · intro id; simp [tw_process_detached]
  | cons n rest ih =>
    intro tw h1 h2 h3
    rw [tw_process_detached]
    by_cases hexp : n.expiry ≤ T
    · rw [if_pos hexp]
      obtain ⟨i1, i2, i3, i4, i5, i6, i7, i8, i9, i10, i11⟩ := ih tw h1 h2 h3
      refine ⟨i1, i2, i3, i4, i5, i6, i7, ?_, ?_, ?_, ?_⟩
      · rw [i8]
        unfold countReinsert
        rw [List.countP_cons]
        simp
      · rw [i9]
        unfold countFireAll
        rw [List.countP_cons]
        simp
      · intro id
        unfold countFire
        rw [List.countP_cons, List.countP_cons]
        have hthis := i10 id
        unfold countFire at hthis
        by_cases hid : n.id = id <;> simp [hthis, hexp, hid]
      · intro id
        rw [i11 id, List.countP_cons]
        simp [hexp]
    · rw [if_neg hexp]
      have hslot : ((n.expiry / tw.tick_resolution) &&& tw.mask)
          < tw.slots.length :=
        mask_slot_lt tw.slots.length tw.size tw.mask _ h1 h2 h3
      have h1' : (tw_reinsert tw n).slots.length = (tw_reinsert tw n).size := by
        simp [tw_reinsert, h1]
      have h2' : ∃ k, (tw_reinsert tw n).size = 2 ^ k := h2
      have h3' : (tw_reinsert tw n).mask = (tw_reinsert tw n).size - 1 := h3
      obtain ⟨i1, i2, i3, i4, i5, i6, i7, i8, i9, i10, i11⟩ :=
        ih (tw_reinsert tw n) h1' h2' h3'
      refine ⟨i1, i2, i3, i4, i5, i6, ?_, ?_, ?_, ?_, ?_⟩
      · rw [i7]; simp [tw_reinsert]
      · rw [i8]
        unfold countReinsert
        rw [List.countP_cons]
        simp [tw_reinsert]
        omega
      · rw [i9]
        unfold countFireAll
        rw [List.countP_cons]
        simp
      · intro id
        unfold countFire
        rw [List.countP_cons, List.countP_cons]
        have hthis := i10 id
        unfold countFire at hthis
        simp [hthis, hexp]
      · intro id
        rw [i11 id, List.countP_cons]
        have hadd : slotsCountId (tw_reinsert tw n).slots id
            = slotsCountId tw.slots id + (if n.id = id then 1 else 0) := by
          unfold tw_reinsert tw_list_add
          exact slotsCountId_set_append tw.slots id _ hslot n
        rw [hadd]
        have hTlt : T < n.expiry := by omega
        by_cases hid : n.id = id <;> simp [hid, hTlt] <;> omega

theorem mem_getD_set_cases (slots : List (List TwNode)) (m : TwNode)
    (i j : Nat) (l : List TwNode) (hj : j < slots.length)
    (hm : m ∈ (slots.set j l).getD i []) :
    (i = j ∧ m ∈ l) ∨ (i ≠ j ∧ m ∈ slots.getD i []) := by
  have hi : i < slots.length := by
    by_contra hn
    rw [List.getD_eq_getElem?_getD,
      List.getElem?_len_le (by simp; omega)] at hm
    simp at hm
  rw [List.getD_eq_getElem?_getD,
    List.getElem?_eq_getElem (by simpa using hi)] at hm
  by_cases hij : i = j
  · subst hij
    rw [List.getElem_set_self] at hm
    exact Or.inl ⟨rfl, hm⟩
  · rw [List.getElem_set_ne (fun h => hij h.symm)] at hm
    right
    refine ⟨hij, ?_⟩
    rw [List.getD_eq_getElem?_getD, List.getElem?_eq_getElem hi]
    exact hm

/-- The detached-list walk preserves the placement and id-bound parts of
well-formedness, provided the detached nodes' ids are in bound. -/
theorem tw_process_detached_wf (T : Nat) :
    ∀ (ds : List TwNode) (tw : Tw),
      tw.slots.length = tw.size → (∃ k, tw.size = 2 ^ k) →
      tw.mask = tw.size - 1 →
      (∀ j < tw.slots.length, ∀ n ∈ tw.slots.getD j [],
        (n.expiry / tw.tick_resolution) &&& tw.mask = j) →
      (∀ j < tw.slots.length, ∀ n ∈ tw.slots.getD j [], n.id < tw.next_id) →
      (∀ n ∈ ds, n.id < tw.next_id) →
      (∀ j < (tw_process_detached T tw ds).1.slots.length,
        ∀ n ∈ (tw_process_detached T tw ds).1.slots.getD j [],
          (n.expiry / tw.tick_resolution) &&& tw.mask = j ∧
            n.id < tw.next_id) := by
  intro ds
  induction ds with
  | nil =>
    intro tw h1 h2 h3 hplace hid hds j hj n hn
    exact ⟨hplace j hj n hn, hid j hj n hn⟩
  | cons n rest ih =>
    intro tw h1 h2 h3 hplace hid hds
    rw [tw_process_detached]
    by_cases hexp : n.expiry ≤ T
    · rw [if_pos hexp]
      exact ih tw h1 h2 h3 hplace hid
        (fun m hm => hds m (List.mem_cons_of_mem n hm))
    · rw [if_neg hexp]
      have hslot : ((n.expiry / tw.tick_resolution) &&& tw.mask)
          < tw.slots.length :=
        mask_slot_lt tw.slots.length tw.size tw.mask _ h1 h2 h3
      have h1' : (tw_reinsert tw n).slots.length = (tw_reinsert tw n).size := by
        simp [tw_reinsert, h1]
      have hplace' : ∀ j < (tw_reinsert tw n).slots.length,
          ∀ m ∈ (tw_reinsert tw n).slots.getD j [],
            (m.expiry / (tw_reinsert tw n).tick_resolution) &&&
              (tw_reinsert tw n).mask = j := by
        intro j hj m hm
        unfold tw_reinsert at hj hm ⊢
        simp only [List.length_set] at hj
        rcases mem_getD_set_cases tw.slots m j _ _ hslot hm with ⟨he, hmem⟩ | ⟨hne, hmem⟩
        · subst he
          rcases List.mem_append.mp hmem with hmem | hmem
          · exact hplace _ hslot m hmem
          · simp at hmem
            subst hmem
            rfl
        · exact hplace j hj m hmem
      have hid' : ∀ j < (tw_reinsert tw n).slots.length,
          ∀ m ∈ (tw_reinsert tw n).slots.getD j [],
            m.id < (tw_reinsert tw n).next_id := by
        intro j hj m hm
        unfold tw_reinsert at hj hm ⊢
        simp only [List.length_set] at hj
        rcases mem_getD_set_cases tw.slots m j _ _ hslot hm with ⟨he, hmem⟩ | ⟨hne, hmem⟩
        · rcases List.mem_append.mp hmem with hmem | hmem
          · exact hid _ hslot m hmem
          · simp at hmem
            rw [hmem]
            exact hds _ (List.mem_cons_self _ _)
        · exact hid j hj m hmem
      have hres := ih (tw_reinsert tw n) h1' h2 h3 hplace' hid'
        (fun m hm => hds m (List.mem_cons_of_mem n hm))
      intro j hj m hm
      exact hres j hj m hm

/-- Nodes already queued in a slot stay in that slot across the walk
(re-insertions only append). -/
theorem tw_process_detached_mem (T : Nat) :
    ∀ (ds : List TwNode) (tw : Tw) (m : TwNode) (j : Nat),
      j < tw.slots.length → m ∈ tw.slots.getD j [] →
      m ∈ (tw_process_detached T tw ds).1.slots.getD j [] := by
  intro ds
  induction ds with
  | nil => intro tw m j hj hm; exact hm
  | cons n rest ih =>
    intro tw m j hj hm
    rw [tw_process_detached]
    by_cases hexp : n.expiry ≤ T
    · rw [if_pos hexp]
      exact ih tw m j hj hm
    · rw [if_neg hexp]
      refine ih (tw_reinsert tw n) m j (by simpa [tw_reinsert] using hj) ?_
      unfold tw_reinsert
      exact mem_getD_set_of_mem tw.slots m j _ _ hm
        (by
          by_cases hcase : j = (n.expiry / tw.tick_resolution) &&& tw.mask
          · right
            intro x hx
            exact List.mem_append_left _ hx
          · exact Or.inl hcase)

/-- A not-yet-expired node of the detached list ends up queued in its
canonical slot. -/
theorem tw_process_detached_mem_reinserted (T : Nat) :
    ∀ (ds : List TwNode) (tw : Tw),
      tw.slots.length = tw.size → (∃ k, tw.size = 2 ^ k) →
      tw.mask = tw.size - 1 →
      ∀ n ∈ ds, ¬ n.expiry ≤ T →
      n ∈ (tw_process_detached T tw ds).1.slots.getD
        ((n.expiry / tw.tick_resolution) &&& tw.mask) [] := by
  intro ds
  induction ds with
  | nil => intro tw h1 h2 h3 n hn; simp at hn
  | cons m rest ih =>
    intro tw h1 h2 h3 n hn hexp
    rw [tw_process_detached]
    rcases List.mem_cons.mp hn with rfl | hn
    · rw [if_neg hexp]
      have hslot : ((n.expiry / tw.tick_resolution) &&& tw.mask)
          < tw.slots.length :=
        mask_slot_lt tw.slots.length tw.size tw.mask _ h1 h2 h3
      refine tw_process_detached_mem T rest (tw_reinsert tw n) n _
        (by simpa [tw_reinsert] using hslot) ?_
      unfold tw_reinsert
      rw [List.getD_eq_getElem?_getD,
        List.getElem?_eq_getElem (by simpa using hslot),
        List.getElem_set_self]
      unfold tw_list_add
      exact List.mem_append_right _ (List.mem_singleton.mpr rfl)
    · by_cases hexp2 : m.expiry ≤ T
      · rw [if_pos hexp2]
        exact ih tw h1 h2 h3 n hn hexp
      · rw [if_neg hexp2]
        have h1' : (tw_reinsert tw m).slots.length = (tw_reinsert tw m).size := by
          simp [tw_reinsert, h1]
        exact ih (tw_reinsert tw m) h1' h2 h3 n hn hexp

/-- `countP` of an id-match splits into expired and live parts. -/
theorem countP_match_split (l : List TwNode) (id : Nat) (T : Nat) :
    l.countP (fun n => n.id == id)
      = l.countP (fun n => n.id == id && decide (n.expiry ≤ T))
        + l.countP (fun n => n.id == id && decide (T < n.expiry)) := by
  induction l with
  | nil => simp
  | cons n rest ih =>
    rw [List.countP_cons, List.countP_cons, List.countP_cons]
    by_cases hexp : n.expiry ≤ T <;> by_cases hid : n.id = id
    · have hnl : ¬ T < n.expiry := Nat.not_lt.mpr hexp
      simp [hexp, hid, hnl, ih]
      omega
    · simp [hid, ih]
    · have hl : T < n.expiry := Nat.lt_of_not_le hexp
      simp [hexp, hid, hl, ih]
      omega
    · simp [hid, ih]

theorem getD_le_sum (xs : List Nat) (j : Nat) : xs.getD j 0 ≤ xs.sum := by
  induction xs generalizing j with
  | nil => simp
  | cons x t ih =>
    cases j with
    | zero => simp
    | succ j =>
      rw [List.getD_cons_succ, List.sum_cons]
      exact le_trans (ih j) (Nat.le_add_left _ _)

theorem getD_two_le_sum (xs : List Nat) (i j : Nat) (hij : i ≠ j)
    (hi : i < xs.length) :
    xs.getD i 0 + xs.getD j 0 ≤ xs.sum := by
  have h1 := sum_set_nat xs i 0 hi
  have h2 : (xs.set i 0).getD j 0 = xs.getD j 0 := by
    by_cases hj : j < xs.length
    · rw [List.getD_eq_getElem?_getD, List.getD_eq_getElem?_getD,
        List.getElem?_eq_getElem (by simpa using hj),
        List.getElem?_eq_getElem hj, List.getElem_set_ne hij]
    · rw [List.getD_eq_getElem?_getD, List.getD_eq_getElem?_getD,
        List.getElem?_len_le (by simp; omega), List.getElem?_len_le (by omega)]
  have h3 := getD_le_sum (xs.set i 0) j
  rw [h2] at h3
  omega

/-- The per-slot count of an id-match is bounded by the global count. -/
theorem countP_getD_le (slots : List (List TwNode)) (id : Nat) (j : Nat)
    (hj : j < slots.length) :
    ((slots.getD j []).countP fun n => n.id == id) ≤ slotsCountId slots id := by
  have := getD_le_sum (slots.map fun s => s.countP fun n => n.id == id) j
  rw [getD_map_countP slots id j hj] at this
  exact this

/-- If the timer is live, its canonical slot holds its unique id-match
and every other slot holds none. -/
theorem live_slot_counts (tw : Tw) (n : TwNode) (hlive : TimerLive tw n)
    (hcan : ((n.expiry / tw.tick_resolution) &&& tw.mask) < tw.slots.length) :
    ((tw.slots.getD ((n.expiry / tw.tick_resolution) &&& tw.mask) []).countP
        fun m => m.id == n.id) = 1 ∧
    (∀ j, j ≠ ((n.expiry / tw.tick_resolution) &&& tw.mask) →
      ((tw.slots.getD j []).countP fun m => m.id == n.id) = 0) := by
  obtain ⟨hcount, hmem⟩ := hlive
  have hpos : 1 ≤ (tw.slots.getD ((n.expiry / tw.tick_resolution) &&& tw.mask)
      []).countP fun m => m.id == n.id :=
    List.countP_pos_iff.mpr ⟨n, hmem, by simp⟩
  have hle := countP_getD_le tw.slots n.id _ hcan
  constructor
  · omega
  · intro j hj
    by_cases hjlen : j < tw.slots.length
    · have h2 := getD_two_le_sum
        (tw.slots.map fun s => s.countP fun m => m.id == n.id)
        ((n.expiry / tw.tick_resolution) &&& tw.mask) j
        (fun h => hj h.symm) (by simpa using hcan)
      rw [getD_map_countP tw.slots n.id _ hcan,
        getD_map_countP tw.slots n.id j hjlen] at h2
      unfold slotsCountId at hcount
      omega
    · rw [List.getD_eq_getElem?_getD, List.getElem?_len_le (by omega)]
      simp

/-- One iteration of the tick loop: structural fields, counters, and
conservation of each id's queued-count plus fired-count. -/
theorem tw_tick_step_spec (T : Nat) (tw : Tw)
    (h1 : tw.slots.length = tw.size) (h2 : ∃ k, tw.size = 2 ^ k)
    (h3 : tw.mask = tw.size - 1) :
    (tw_tick_step T tw).1.size = tw.size ∧
    (tw_tick_step T tw).1.mask = tw.mask ∧
    (tw_tick_step T tw).1.current_tick = tw.current_tick + 1 ∧
    (tw_tick_step T tw).1.tick_resolution = tw.tick_resolution ∧
    (tw_tick_step T tw).1.next_id = tw.next_id ∧
    (tw_tick_step T tw).1.cpt_expired = tw.cpt_expired ∧
    (tw_tick_step T tw).1.slots.length = tw.slots.length ∧
    (tw_tick_step T tw).1.cpt_timer_loop
      = tw.cpt_timer_loop + countReinsert (tw_tick_step T tw).2.1 ∧
    (tw_tick_step T tw).2.2 = countFireAll (tw_tick_step T tw).2.1 ∧
    (∀ id, slotsCountId (tw_tick_step T tw).1.slots id
        + countFire (tw_tick_step T tw).2.1 id
      = slotsCountId tw.slots id) := by
  have hvis : (tw.current_tick &&& tw.mask) < tw.slots.length :=
    mask_slot_lt tw.slots.length tw.size tw.mask _ h1 h2 h3
  have h1' : ({ tw with
      slots := tw.slots.set (tw.current_tick &&& tw.mask) [] } : Tw).slots.length
      = tw.size := by simp [h1]
  obtain ⟨i1, i2, i3, i4, i5, i6, i7, i8, i9, i10, i11⟩ :=
    tw_process_detached_spec T (tw.slots.getD (tw.current_tick &&& tw.mask) [])
      { tw with slots := tw.slots.set (tw.current_tick &&& tw.mask) [] }
      h1' h2 h3
  rw [tw_tick_step_def]
  refine ⟨i1, i2, by rw [i3], i4, i5, i6, by rw [i7]; simp, i8, i9, ?_⟩
  intro id
  have hnil := slotsCountId_set_nil tw.slots id (tw.current_tick &&& tw.mask) hvis
  have hsplit := countP_match_split
    (tw.slots.getD (tw.current_tick &&& tw.mask) []) id T
  have hc := i11 id
  have hf := i10 id
  simp only [] at hc
  rw [hc, hf]
  omega

/-- One tick-loop iteration preserves well-formedness. -/
theorem tw_tick_step_wf (T : Nat) (tw : Tw) (hwf : TwWF tw) :
    TwWF (tw_tick_step T tw).1 := by
  obtain ⟨h1, h2, h3, h4, hplace, hids⟩ := hwf
  obtain ⟨s1, s2, s3, s4, s5, s6, s7, s8, s9, s10⟩ :=
    tw_tick_step_spec T tw h1 h2 h3
  have hvis : (tw.current_tick &&& tw.mask) < tw.slots.length :=
    mask_slot_lt tw.slots.length tw.size tw.mask _ h1 h2 h3
  have h1' : ({ tw with
      slots := tw.slots.set (tw.current_tick &&& tw.mask) [] } : Tw).slots.length
      = tw.size := by simp [h1]
  have hplace' : ∀ j < ({ tw with
      slots := tw.slots.set (tw.current_tick &&& tw.mask) [] } : Tw).slots.length,
      ∀ m ∈ ({ tw with
        slots := tw.slots.set (tw.current_tick &&& tw.mask) [] } : Tw).slots.getD j [],
        (m.expiry / tw.tick_resolution) &&& tw.mask = j := by
    intro j hj m hm
    simp only [List.length_set] at hj
    rcases mem_getD_set_cases tw.slots m j _ _ hvis hm with ⟨he, hmem⟩ | ⟨hne, hmem⟩
    · simp at hmem
    · exact hplace j hj m hmem
  have hids' : ∀ j < ({ tw with
      slots := tw.slots.set (tw.current_tick &&& tw.mask) [] } : Tw).slots.length,
      ∀ m ∈ ({ tw with
        slots := tw.slots.set (tw.current_tick &&& tw.mask) [] } : Tw).slots.getD j [],
        m.id < tw.next_id := by
    intro j hj m hm
    simp only [List.length_set] at hj
    rcases mem_getD_set_cases tw.slots m j _ _ hvis hm with ⟨he, hmem⟩ | ⟨hne, hmem⟩
    · simp at hmem
    · exact hids j hj m hmem
  have hres := tw_process_detached_wf T
    (tw.slots.getD (tw.current_tick &&& tw.mask) [])
    { tw with slots := tw.slots.set (tw.current_tick &&& tw.mask) [] }
    h1' h2 h3 hplace' hids'
    (fun m hm => hids _ hvis m hm)
  refine ⟨by rw [s7, h1, s1], by rw [s1]; exact h2, by rw [s1, s2]; exact h3,
    by rw [s4]; exact h4, ?_, ?_⟩
  · intro j hj m hm
    rw [s4, s2]
    rw [tw_tick_step_def] at hj hm
    exact (hres j hj m hm).1
  · intro j hj m hm
    rw [s5]
    rw [tw_tick_step_def] at hj hm
    exact (hres j hj m hm).2

/-- Fate of one live timer across one tick-loop iteration: untouched if
its slot is not the one processed; re-inserted (with no callback) if
processed before its expiry; fired exactly once if processed at or after
its expiry. -/
theorem tw_tick_step_timer (T : Nat) (tw : Tw) (n : TwNode)
    (h1 : tw.slots.length = tw.size) (h2 : ∃ k, tw.size = 2 ^ k)
    (h3 : tw.mask = tw.size - 1) (hlive : TimerLive tw n) :
    ((tw.current_tick &&& tw.mask) ≠ ((n.expiry / tw.tick_resolution) &&& tw.mask) →
      TimerLive (tw_tick_step T tw).1 n ∧ countFire (tw_tick_step T tw).2.1 n.id = 0) ∧
    ((tw.current_tick &&& tw.mask) = ((n.expiry / tw.tick_resolution) &&& tw.mask) →
      ¬ n.expiry ≤ T →
      TimerLive (tw_tick_step T tw).1 n ∧ countFire (tw_tick_step T tw).2.1 n.id = 0) ∧
    ((tw.current_tick &&& tw.mask) = ((n.expiry / tw.tick_resolution) &&& tw.mask) →
      n.expiry ≤ T →
      countFire (tw_tick_step T tw).2.1 n.id = 1 ∧
        slotsCountId (tw_tick_step T tw).1.slots n.id = 0) := by
  have hvis : (tw.current_tick &&& tw.mask) < tw.slots.length :=
    mask_slot_lt tw.slots.length tw.size tw.mask _ h1 h2 h3
  have hcan : ((n.expiry / tw.tick_resolution) &&& tw.mask) < tw.slots.length :=
    mask_slot_lt tw.slots.length tw.size tw.mask _ h1 h2 h3
  obtain ⟨hterm1, hterm0⟩ := live_slot_counts tw n hlive hcan
  obtain ⟨s1, s2, s3, s4, s5, s6, s7, s8, s9, s10⟩ :=
    tw_tick_step_spec T tw h1 h2 h3
  have h1' : ({ tw with
      slots := tw.slots.set (tw.current_tick &&& tw.mask) [] } : Tw).slots.length
      = tw.size := by simp [h1]
  obtain ⟨i1, i2, i3, i4, i5, i6, i7, i8, i9, i10, i11⟩ :=
    tw_process_detached_spec T (tw.slots.getD (tw.current_tick &&& tw.mask) [])
      { tw with slots := tw.slots.set (tw.current_tick &&& tw.mask) [] }
      h1' h2 h3
  have hsplit := countP_match_split
    (tw.slots.getD (tw.current_tick &&& tw.mask) []) n.id T
  have hevs : (tw_tick_step T tw).2.1
      = (tw_process_detached T
          { tw with slots := tw.slots.set (tw.current_tick &&& tw.mask) [] }
          (tw.slots.getD (tw.current_tick &&& tw.mask) [])).2.1 := by
    rw [tw_tick_step_def]
  have hcons := s10 n.id
  refine ⟨?_, ?_, ?_⟩
  · intro hne
    have hzero := hterm0 (tw.current_tick &&& tw.mask) hne
    have hfire0 : countFire (tw_tick_step T tw).2.1 n.id = 0 := by
      rw [hevs, i10 n.id]
      omega
    refine ⟨⟨by have hl1 := hlive.1; omega, ?_⟩, hfire0⟩
    · -- membership preserved: the processed slot is a different one
      have hmemD : n ∈ ({ tw with
          slots := tw.slots.set (tw.current_tick &&& tw.mask) [] } : Tw).slots.getD
          ((n.expiry / tw.tick_resolution) &&& tw.mask) [] := by
        exact mem_getD_set_of_mem tw.slots n _ _ _ hlive.2
          (Or.inl (fun h => hne h.symm))
      have hres := tw_process_detached_mem T
        (tw.slots.getD (tw.current_tick &&& tw.mask) [])
        { tw with slots := tw.slots.set (tw.current_tick &&& tw.mask) [] }
        n _ (by simpa using hcan) hmemD
      rw [s4, s2, tw_tick_step_def]
      exact hres
  · intro heq hexp
    have hmatch : ((tw.slots.getD (tw.current_tick &&& tw.mask) []).countP
        fun m => m.id == n.id) = 1 := by rw [heq]; exact hterm1
    have hmemds : n ∈ tw.slots.getD (tw.current_tick &&& tw.mask) [] := by
      rw [heq]; exact hlive.2
    have hlivepos : 1 ≤ (tw.slots.getD (tw.current_tick &&& tw.mask) []).countP
        fun m => m.id == n.id && decide (T < m.expiry) :=
      List.countP_pos_iff.mpr ⟨n, hmemds, by simp; omega⟩
    have hfire0 : countFire (tw_tick_step T tw).2.1 n.id = 0 := by
      rw [hevs, i10 n.id]
      omega
    refine ⟨⟨by have hl1 := hlive.1; omega, ?_⟩, hfire0⟩
    · have hres := tw_process_detached_mem_reinserted T
        (tw.slots.getD (tw.current_tick &&& tw.mask) [])
        { tw with slots := tw.slots.set (tw.current_tick &&& tw.mask) [] }
        h1' h2 h3 n hmemds hexp
      rw [s4, s2, tw_tick_step_def]
      exact hres
  · intro heq hexp
    have hmatch : ((tw.slots.getD (tw.current_tick &&& tw.mask) []).countP
        fun m => m.id == n.id) = 1 := by rw [heq]; exact hterm1
    have hmemds : n ∈ tw.slots.getD (tw.current_tick &&& tw.mask) [] := by
      rw [heq]; exact hlive.2
    have hexppos : 1 ≤ (tw.slots.getD (tw.current_tick &&& tw.mask) []).countP
        fun m => m.id == n.id && decide (m.expiry ≤ T) :=
      List.countP_pos_iff.mpr ⟨n, hmemds, by simp [hexp]⟩
    have hfire1 : countFire (tw_tick_step T tw).2.1 n.id = 1 := by
      rw [hevs, i10 n.id]
      omega
    exact ⟨hfire1, by have hl1 := hlive.1; omega⟩

theorem countFire_append (e1 e2 : List TwEvent) (id : Nat) :
    countFire (e1 ++ e2) id = countFire e1 id + countFire e2 id := by
  unfold countFire
  rw [List.countP_append]

theorem countFireAll_append (e1 e2 : List TwEvent) :
    countFireAll (e1 ++ e2) = countFireAll e1 + countFireAll e2 := by
  unfold countFireAll
  rw [List.countP_append]

theorem countReinsert_append (e1 e2 : List TwEvent) :
    countReinsert (e1 ++ e2) = countReinsert e1 + countReinsert e2 := by
  unfold countReinsert
  rw [List.countP_append]

/-- The tick loop preserves well-formedness and the structural fields,
ties the counters to the events, and conserves every id's queued+fired
count. -/
theorem tw_tick_loop_spec (T : Nat) :
    ∀ (fuel : Nat) (tw : Tw), TwWF tw →
      TwWF (tw_tick_loop T fuel tw).1 ∧
      (tw_tick_loop T fuel tw).1.size = tw.size ∧
      (tw_tick_loop T fuel tw).1.mask = tw.mask ∧
      (tw_tick_loop T fuel tw).1.tick_resolution = tw.tick_resolution ∧
      (tw_tick_loop T fuel tw).1.next_id = tw.next_id ∧
      (tw_tick_loop T fuel tw).1.current_tick = tw.current_tick + fuel ∧
      (tw_tick_loop T fuel tw).1.cpt_expired = tw.cpt_expired ∧
      (tw_tick_loop T fuel tw).1.cpt_timer_loop
        = tw.cpt_timer_loop + countReinsert (tw_tick_loop T fuel tw).2.1 ∧
      (tw_tick_loop T fuel tw).2.2 = countFireAll (tw_tick_loop T fuel tw).2.1 ∧
      (∀ id, slotsCountId (tw_tick_loop T fuel tw).1.slots id
          + countFire (tw_tick_loop T fuel tw).2.1 id
        = slotsCountId tw.slots id) := by
  intro fuel
  induction fuel with
  | zero =>
    intro tw hwf
    refine ⟨hwf, rfl, rfl, rfl, rfl, by simp [tw_tick_loop], rfl, ?_, ?_, ?_⟩
    · simp [tw_tick_loop, countReinsert]
    · simp [tw_tick_loop, countFireAll, countFire]
    · intro id; simp [tw_tick_loop, countFire]
  | succ fuel ih =>
    intro tw hwf
    obtain ⟨h1, h2, h3, h4, hplace, hids⟩ := hwf
    obtain ⟨s1, s2, s3, s4, s5, s6, s7, s8, s9, s10⟩ :=
      tw_tick_step_spec T tw h1 h2 h3
    have hwfstep : TwWF (tw_tick_step T tw).1 :=
      tw_tick_step_wf T tw ⟨h1, h2, h3, h4, hplace, hids⟩
    obtain ⟨l0, l1, l2, l3, l4, l5, l6, l7, l8, l9⟩ :=
      ih (tw_tick_step T tw).1 hwfstep
    rw [tw_tick_loop_succ]
    refine ⟨l0, by rw [l1, s1], by rw [l2, s2], by rw [l3, s4],
      by rw [l4, s5], by rw [l5, s3]; omega, by rw [l6, s6], ?_, ?_, ?_⟩
    · rw [countReinsert_append, l7, s8]
      omega
    · rw [countFireAll_append, l8, s9]
    · intro id
      show slotsCountId (tw_tick_loop T fuel (tw_tick_step T tw).1).1.slots id
          + countFire ((tw_tick_step T tw).2.1
            ++ (tw_tick_loop T fuel (tw_tick_step T tw).1).2.1) id
        = slotsCountId tw.slots id
      rw [countFire_append]
      have hl := l9 id
      have hs := s10 id
      omega

/-- A timer id that is not queued never fires and stays unqueued. -/
theorem tw_tick_loop_gone (T : Nat) (fuel : Nat) (tw : Tw) (hwf : TwWF tw)
    (id : Nat) (h0 : slotsCountId tw.slots id = 0) :
    countFire (tw_tick_loop T fuel tw).2.1 id = 0 ∧
    slotsCountId (tw_tick_loop T fuel tw).1.slots id = 0 := by
  have := (tw_tick_loop_spec T fuel tw hwf).2.2.2.2.2.2.2.2.2 id
  omega

/-- A live timer whose expiry lies beyond `T` survives the whole loop
without firing. -/
theorem tw_tick_loop_live (T : Nat) :
    ∀ (fuel : Nat) (tw : Tw) (n : TwNode), TwWF tw → TimerLive tw n →
      T < n.expiry →
      TimerLive (tw_tick_loop T fuel tw).1 n ∧
      countFire (tw_tick_loop T fuel tw).2.1 n.id = 0 := by
  intro fuel
  induction fuel with
  | zero =>
    intro tw n hwf hlive hT
    exact ⟨hlive, by simp [tw_tick_loop, countFire]⟩
  | succ fuel ih =>
    intro tw n hwf hlive hT
    obtain ⟨h1, h2, h3, h4, hplace, hids⟩ := hwf
    obtain ⟨case1, case2, case3⟩ :=
      tw_tick_step_timer T tw n h1 h2 h3 hlive
    have hstep : TimerLive (tw_tick_step T tw).1 n ∧
        countFire (tw_tick_step T tw).2.1 n.id = 0 := by
      by_cases heq : (tw.current_tick &&& tw.mask)
          = ((n.expiry / tw.tick_resolution) &&& tw.mask)
      · exact case2 heq (by omega)
      · exact case1 heq
    have hwfstep : TwWF (tw_tick_step T tw).1 :=
      tw_tick_step_wf T tw ⟨h1, h2, h3, h4, hplace, hids⟩
    have hrest := ih (tw_tick_step T tw).1 n hwfstep hstep.1 hT
    rw [tw_tick_loop_succ]
    refine ⟨hrest.1, ?_⟩
    rw [countFire_append, hstep.2, hrest.2]

/-- A live, already-expired timer fires exactly once during the loop,
provided the loop's tick range passes over its slot. -/
theorem tw_tick_loop_fire (T : Nat) :
    ∀ (fuel : Nat) (tw : Tw) (n : TwNode), TwWF tw → TimerLive tw n →
      n.expiry ≤ T →
      (∃ i < fuel, (tw.current_tick + i) &&& tw.mask
        = (n.expiry / tw.tick_resolution) &&& tw.mask) →
      countFire (tw_tick_loop T fuel tw).2.1 n.id = 1 ∧
      slotsCountId (tw_tick_loop T fuel tw).1.slots n.id = 0 := by
  intro fuel
  induction fuel with
  | zero =>
    intro tw n hwf hlive hT hcov
    obtain ⟨i, hi, -⟩ := hcov
    omega
  | succ fuel ih =>
    intro tw n hwf hlive hT hcov
    obtain ⟨h1, h2, h3, h4, hplace, hids⟩ := hwf
    obtain ⟨case1, case2, case3⟩ :=
      tw_tick_step_timer T tw n h1 h2 h3 hlive
    have hwfstep : TwWF (tw_tick_step T tw).1 :=
      tw_tick_step_wf T tw ⟨h1, h2, h3, h4, hplace, hids⟩
    obtain ⟨s1, s2, s3, s4, s5, s6, s7, s8, s9, s10⟩ :=
      tw_tick_step_spec T tw h1 h2 h3
    rw [tw_tick_loop_succ]
    by_cases heq : (tw.current_tick &&& tw.mask)
        = ((n.expiry / tw.tick_resolution) &&& tw.mask)
    · obtain ⟨hfire1, hgone⟩ := case3 heq hT
      have hrest := tw_tick_loop_gone T fuel (tw_tick_step T tw).1 hwfstep
        n.id hgone
      rw [countFire_append, hfire1, hrest.1]
      exact ⟨rfl, hrest.2⟩
    · obtain ⟨hliveS, hfire0⟩ := case1 heq
      obtain ⟨i, hi, hslot⟩ := hcov
      have hi0 : i ≠ 0 := by
        intro h0
        rw [h0, Nat.add_zero] at hslot
        exact heq hslot
      have hcov' : ∃ i < fuel,
          ((tw_tick_step T tw).1.current_tick + i) &&& (tw_tick_step T tw).1.mask
            = (n.expiry / (tw_tick_step T tw).1.tick_resolution) &&&
              (tw_tick_step T tw).1.mask := by
        refine ⟨i - 1, by omega, ?_⟩
        rw [s3, s2, s4]
        have : tw.current_tick + 1 + (i - 1) = tw.current_tick + i := by omega
        rw [this]
        exact hslot
      have hrest := ih (tw_tick_step T tw).1 n hwfstep hliveS hT hcov'
      rw [countFire_append, hfire0, hrest.1]
      exact ⟨rfl, hrest.2⟩

/-- A timer queued in its canonical slot whose stored expiry is the
exact tick multiple `e_t * tick_resolution` (as `timer_wheel_add`
computes it) with `current_tick` not yet past `e_t`. -/
def TimerTracked (tw : Tw) (n : TwNode) (e_t : Nat) : Prop :=
  TimerLive tw n ∧ n.expiry = e_t * tw.tick_resolution ∧
    tw.current_tick ≤ e_t

/-- `timer_wheel_tick` on a well-formed wheel: well-formedness and the
structural fields are preserved, `cpt_timer_loop` / `cpt_expired` grow
by exactly the re-insert / fire events of the call, the return value is
the number of fires, and every id's queued+fired count is conserved. -/
theorem timer_wheel_tick_spec (tw : Tw) (T : Nat) (hwf : TwWF tw) :
    TwWF (timer_wheel_tick tw T).tw ∧
    (timer_wheel_tick tw T).tw.size = tw.size ∧
    (timer_wheel_tick tw T).tw.mask = tw.mask ∧
    (timer_wheel_tick tw T).tw.tick_resolution = tw.tick_resolution ∧
    (timer_wheel_tick tw T).tw.next_id = tw.next_id ∧
    (timer_wheel_tick tw T).tw.cpt_timer_loop
      = tw.cpt_timer_loop + countReinsert (timer_wheel_tick tw T).events ∧
    (timer_wheel_tick tw T).tw.cpt_expired
      = tw.cpt_expired + countFireAll (timer_wheel_tick tw T).events ∧
    (timer_wheel_tick tw T).ret
      = (countFireAll (timer_wheel_tick tw T).events : Int) ∧
    (∀ id, slotsCountId (timer_wheel_tick tw T).tw.slots id
        + countFire (timer_wheel_tick tw T).events id
      = slotsCountId tw.slots id) := by
  have hne0 : ¬ tw.slots.length = 0 := by
    obtain ⟨h1, ⟨k, hk⟩, -, -, -, -⟩ := hwf
    rw [h1, hk]
    exact Nat.pos_iff_ne_zero.mp (Nat.pos_pow_of_pos k (by omega))
  rw [timer_wheel_tick, if_neg hne0]
  by_cases hguard : T < tw.current_tick
  · rw [if_pos hguard]
    refine ⟨hwf, rfl, rfl, rfl, rfl, ?_, ?_, ?_, ?_⟩
    · simp [countReinsert]
    · simp [countFireAll]
    · simp [countFireAll]
    · intro id; simp [countFire]
  · rw [if_neg hguard]
    obtain ⟨l0, l1, l2, l3, l4, l5, l6, l7, l8, l9⟩ :=
      tw_tick_loop_spec T (T / tw.tick_resolution + 1 - tw.current_tick) tw hwf
    obtain ⟨w1, w2, w3, w4, w5, w6⟩ := l0
    refine ⟨⟨w1, w2, w3, w4, w5, w6⟩, l1, l2, l3, l4, ?_, ?_, ?_, l9⟩
    · exact l7
    · rw [l6, l8]
    · rw [l8]

/-- A timer id that is not queued cannot fire during a tick call. -/
theorem timer_wheel_tick_gone (tw : Tw) (T : Nat) (id : Nat) (hwf : TwWF tw)
    (h0 : slotsCountId tw.slots id = 0) :
    countFire (timer_wheel_tick tw T).events id = 0 ∧
    slotsCountId (timer_wheel_tick tw T).tw.slots id = 0 := by
  have := (timer_wheel_tick_spec tw T hwf).2.2.2.2.2.2.2.2 id
  omega

/-- Fate of a tracked timer across one `timer_wheel_tick(T)` call: it
stays tracked without firing while `T < expiry`, and fires exactly once
(disappearing from the wheel) at the first call with `T ≥ expiry`. -/
theorem timer_wheel_tick_timer (tw : Tw) (n : TwNode) (e_t : Nat) (T : Nat)
    (hwf : TwWF tw) (htr : TimerTracked tw n e_t) :
    (T < n.expiry →
      TimerTracked (timer_wheel_tick tw T).tw n e_t ∧
      countFire (timer_wheel_tick tw T).events n.id = 0) ∧
    (n.expiry ≤ T →
      countFire (timer_wheel_tick tw T).events n.id = 1 ∧
      slotsCountId (timer_wheel_tick tw T).tw.slots n.id = 0) := by
  obtain ⟨hlive, hmul, hct⟩ := htr
  have hres : 0 < tw.tick_resolution := hwf.2.2.2.1
  have hne0 : ¬ tw.slots.length = 0 := by
    obtain ⟨h1, ⟨k, hk⟩, -, -, -, -⟩ := hwf
    rw [h1, hk]
    exact Nat.pos_iff_ne_zero.mp (Nat.pos_pow_of_pos k (by omega))
  obtain ⟨p0, p1, p2, p3, p4, p5, p6, p7, p8⟩ := timer_wheel_tick_spec tw T hwf
  constructor
  · intro hT
    rw [timer_wheel_tick, if_neg hne0]
    by_cases hguard : T < tw.current_tick
    · rw [if_pos hguard]
      exact ⟨⟨hlive, hmul, hct⟩, by simp [countFire]⟩
    · rw [if_neg hguard]
      have hfuel := tw_tick_loop_live T
        (T / tw.tick_resolution + 1 - tw.current_tick) tw n hwf hlive hT
      obtain ⟨l0, l1, l2, l3, l4, l5, l6, l7, l8, l9⟩ :=
        tw_tick_loop_spec T (T / tw.tick_resolution + 1 - tw.current_tick) tw hwf
      have htarget : T / tw.tick_resolution < e_t := by
        apply Nat.div_lt_of_lt_mul
        rw [Nat.mul_comm]
        omega
      refine ⟨⟨hfuel.1, ?_, ?_⟩, hfuel.2⟩
      · rw [l3]; exact hmul
      · rw [l5]; omega
  · intro hT
    rw [timer_wheel_tick, if_neg hne0]
    have hguard : ¬ T < tw.current_tick := by
      have h1 : e_t ≤ e_t * tw.tick_resolution := Nat.le_mul_of_pos_right e_t hres
      omega
    rw [if_neg hguard]
    have hcov : ∃ i < T / tw.tick_resolution + 1 - tw.current_tick,
        (tw.current_tick + i) &&& tw.mask
          = (n.expiry / tw.tick_resolution) &&& tw.mask := by
      have htarget : e_t ≤ T / tw.tick_resolution := by
        rw [Nat.le_div_iff_mul_le hres]
        omega
      refine ⟨e_t - tw.current_tick, by omega, ?_⟩
      have h1 : tw.current_tick + (e_t - tw.current_tick) = e_t := by omega
      have h2 : n.expiry / tw.tick_resolution = e_t := by
        rw [hmul]
        exact Nat.mul_div_cancel e_t hres
      rw [h1, h2]
    exact tw_tick_loop_fire T (T / tw.tick_resolution + 1 - tw.current_tick)
      tw n hwf hlive hT hcov

theorem slotsCountId_eq_zero (slots : List (List TwNode)) (id : Nat)
    (h : ∀ j < slots.length, ∀ m ∈ slots.getD j [], m.id ≠ id) :
    slotsCountId slots id = 0 := by
  unfold slotsCountId
  apply List.sum_eq_zero
  intro x hx
  obtain ⟨s, hs, rfl⟩ := List.mem_map.mp hx
  obtain ⟨j, hj, hsj⟩ := List.mem_iff_getElem.mp hs
  apply List.countP_eq_zero.mpr
  intro m hm
  have hmem : m ∈ slots.getD j [] := by
    rw [List.getD_eq_getElem?_getD, List.getElem?_eq_getElem hj]
    rw [hsj]
    exact hm
  simp only [beq_iff_eq]
  exact fun he => h j hj m hmem (by simpa using he)

/-- `timer_wheel_add` on a well-formed wheel, with a positive delay and
no uint64 overflow in the expiry arithmetic: it enqueues one new,
tracked timer with id `next_id`, fires nothing inline, touches no
counter except `cpt_add`, and returns 0.  The stored expiry is
`(current_tick + ⌈delay/resolution⌉) * resolution`. -/
theorem timer_wheel_add_spec (tw : Tw) (delay_ns data : Nat) (hwf : TwWF tw)
    (hpos : 0 < delay_ns)
    (hov1 : delay_ns + tw.tick_resolution - 1 < 2 ^ 64)
    (hov2 : tw.current_tick
      + (delay_ns + tw.tick_resolution - 1) / tw.tick_resolution < 2 ^ 64)
    (hov3 : (tw.current_tick
      + (delay_ns + tw.tick_resolution - 1) / tw.tick_resolution)
      * tw.tick_resolution < 2 ^ 64) :
    (timer_wheel_add tw delay_ns data).ret = 0 ∧
    (timer_wheel_add tw delay_ns data).events = [] ∧
    (timer_wheel_add tw delay_ns data).tw.next_id = tw.next_id + 1 ∧
    (timer_wheel_add tw delay_ns data).tw.size = tw.size ∧
    (timer_wheel_add tw delay_ns data).tw.mask = tw.mask ∧
    (timer_wheel_add tw delay_ns data).tw.tick_resolution = tw.tick_resolution ∧
    (timer_wheel_add tw delay_ns data).tw.current_tick = tw.current_tick ∧
    (timer_wheel_add tw delay_ns data).tw.cpt_timer_loop = tw.cpt_timer_loop ∧
    (timer_wheel_add tw delay_ns data).tw.cpt_expired = tw.cpt_expired ∧
    TwWF (timer_wheel_add tw delay_ns data).tw ∧
    TimerTracked (timer_wheel_add tw delay_ns data).tw
      ⟨tw.next_id,
        (tw.current_tick
          + (delay_ns + tw.tick_resolution - 1) / tw.tick_resolution)
          * tw.tick_resolution, data⟩
      (tw.current_tick
        + (delay_ns + tw.tick_resolution - 1) / tw.tick_resolution) := by
  obtain ⟨h1, h2, h3, h4, hplace, hids⟩ := hwf
  have hne : ¬ delay_ns = 0 := by omega
  have hmod1 : (delay_ns + tw.tick_resolution - 1) % 2 ^ 64
      = delay_ns + tw.tick_resolution - 1 := Nat.mod_eq_of_lt hov1
  rw [timer_wheel_add]
  simp only [hne, if_false, ite_false, hmod1]
  have hmod2 : (tw.current_tick
      + (delay_ns + tw.tick_resolution - 1) / tw.tick_resolution) % 2 ^ 64
      = tw.current_tick
        + (delay_ns + tw.tick_resolution - 1) / tw.tick_resolution :=
    Nat.mod_eq_of_lt hov2
  rw [hmod2]
  have hnolt : ¬ (tw.current_tick
      + (delay_ns + tw.tick_resolution - 1) / tw.tick_resolution
      < tw.current_tick
      + (delay_ns + tw.tick_resolution - 1) / tw.tick_resolution) :=
    lt_irrefl _
  rw [if_neg hnolt]
  have hmod3 : ((tw.current_tick
      + (delay_ns + tw.tick_resolution - 1) / tw.tick_resolution)
      * tw.tick_resolution) % 2 ^ 64
      = (tw.current_tick
        + (delay_ns + tw.tick_resolution - 1) / tw.tick_resolution)
        * tw.tick_resolution := Nat.mod_eq_of_lt hov3
  rw [hmod3]
  have htd : 1 ≤ (delay_ns + tw.tick_resolution - 1) / tw.tick_resolution := by
    rw [Nat.le_div_iff_mul_le h4]
    omega
  have hdiv : (tw.current_tick
      + (delay_ns + tw.tick_resolution - 1) / tw.tick_resolution)
      * tw.tick_resolution / tw.tick_resolution
      = tw.current_tick
        + (delay_ns + tw.tick_resolution - 1) / tw.tick_resolution :=
    Nat.mul_div_cancel _ h4
  have hslot : ((tw.current_tick
      + (delay_ns + tw.tick_resolution - 1) / tw.tick_resolution)
      &&& tw.mask) < tw.slots.length :=
    mask_slot_lt tw.slots.length tw.size tw.mask _ h1 h2 h3
  have hzero : slotsCountId tw.slots tw.next_id = 0 :=
    slotsCountId_eq_zero tw.slots tw.next_id
      (fun j hj m hm => Nat.ne_of_lt (hids j hj m hm))
  dsimp only
  refine ⟨rfl, rfl, rfl, rfl, rfl, rfl, rfl, rfl, rfl, ?_, ?_⟩
  · -- well-formedness of the post-add wheel
    refine ⟨by simpa using h1, h2, h3, h4, ?_, ?_⟩
    · intro j hj m hm
      simp only [List.length_set] at hj
      rcases mem_getD_set_cases tw.slots m j _ _ hslot hm with ⟨he, hmem⟩ | ⟨hne2, hmem⟩
      · rcases List.mem_append.mp hmem with hmem | hmem
        · exact he ▸ hplace _ hslot m hmem
        · simp at hmem
          subst hmem
          simp only [hdiv]
          exact he.symm ▸ rfl
      · exact hplace j hj m hmem
    · intro j hj m hm
      simp only [List.length_set] at hj
      rcases mem_getD_set_cases tw.slots m j _ _ hslot hm with ⟨he, hmem⟩ | ⟨hne2, hmem⟩
      · rcases List.mem_append.mp hmem with hmem | hmem
        · exact Nat.lt_succ_of_lt (hids _ hslot m hmem)
        · simp at hmem
          subst hmem
          exact Nat.lt_succ_self _
      · exact Nat.lt_succ_of_lt (hids j hj m hmem)
  · -- the new timer is tracked
    refine ⟨⟨?_, ?_⟩, rfl, by
      show tw.current_tick ≤ tw.current_tick
        + (delay_ns + tw.tick_resolution - 1) / tw.tick_resolution
      omega⟩
    · have hset := slotsCountId_set_append tw.slots tw.next_id _ hslot
        ⟨tw.next_id,
          (tw.current_tick
            + (delay_ns + tw.tick_resolution - 1) / tw.tick_resolution)
            * tw.tick_resolution, data⟩
      unfold tw_list_add
      simp only [hset, hzero, if_pos rfl]
      simp
    · simp only [hdiv]
      rw [List.getD_eq_getElem?_getD,
        List.getElem?_eq_getElem (by simpa using hslot),
        List.getElem_set_self]
      unfold tw_list_add
      exact List.mem_append_right _ (List.mem_singleton.mpr rfl)

/-- Composition of tick-call runs. -/
theorem twRunTicks_append (l1 l2 : List Nat) :
    ∀ tw, twRunTicks tw (l1 ++ l2)
      = ((twRunTicks (twRunTicks tw l1).1 l2).1,
          (twRunTicks tw l1).2 ++ (twRunTicks (twRunTicks tw l1).1 l2).2) := by
  induction l1 with
  | nil => intro tw; simp [twRunTicks]
  | cons t ts ih =>
    intro tw
    rw [List.cons_append, twRunTicks, twRunTicks, ih]
    simp [twRunTicks]

/-- Structure, counters and conservation over a run of tick calls. -/
theorem twRunTicks_spec :
    ∀ (ts : List Nat) (tw : Tw), TwWF tw →
      TwWF (twRunTicks tw ts).1 ∧
      (twRunTicks tw ts).1.cpt_timer_loop
        = tw.cpt_timer_loop + countReinsert (twRunTicks tw ts).2 ∧
      (twRunTicks tw ts).1.cpt_expired
        = tw.cpt_expired + countFireAll (twRunTicks tw ts).2 ∧
      (∀ id, slotsCountId (twRunTicks tw ts).1.slots id
          + countFire (twRunTicks tw ts).2 id
        = slotsCountId tw.slots id) := by
  intro ts
  induction ts with
  | nil =>
    intro tw hwf
    refine ⟨hwf, ?_, ?_, ?_⟩
    · simp [twRunTicks, countReinsert]
    · simp [twRunTicks, countFireAll]
    · intro id; simp [twRunTicks, countFire]
  | cons t ts ih =>
    intro tw hwf
    obtain ⟨p0, p1, p2, p3, p4, p5, p6, p7, p8⟩ := timer_wheel_tick_spec tw t hwf
    obtain ⟨r0, r1, r2, r3⟩ := ih (timer_wheel_tick tw t).tw p0
    rw [twRunTicks]
    dsimp only
    refine ⟨r0, ?_, ?_, ?_⟩
    · rw [countReinsert_append]
      have := r1
      omega
    · rw [countFireAll_append]
      have := r2
      omega
    · intro id
      rw [countFire_append]
      have ha := r3 id
      have hb := p8 id
      omega

/-- Over a run of tick calls, a tracked timer is conserved (it either
fires exactly once or is still queued), it certainly fires if some call
time reaches its expiry, and it survives untouched while every call time
stays below its expiry. -/
theorem twRunTicks_timer :
    ∀ (ts : List Nat) (tw : Tw) (n : TwNode) (e_t : Nat), TwWF tw →
      TimerTracked tw n e_t →
      (countFire (twRunTicks tw ts).2 n.id
          + slotsCountId (twRunTicks tw ts).1.slots n.id = 1) ∧
      ((∃ t ∈ ts, n.expiry ≤ t) → countFire (twRunTicks tw ts).2 n.id = 1) ∧
      ((∀ t ∈ ts, t < n.expiry) →
        TimerTracked (twRunTicks tw ts).1 n e_t ∧
        countFire (twRunTicks tw ts).2 n.id = 0) := by
  intro ts
  induction ts with
  | nil =>
    intro tw n e_t hwf htr
    refine ⟨?_, ?_, ?_⟩
    · simp [twRunTicks, countFire]
      exact htr.1.1
    · intro h; simp at h
    · intro h
      exact ⟨htr, by simp [twRunTicks, countFire]⟩
  | cons t ts ih =>
    intro tw n e_t hwf htr
    obtain ⟨p0, p1, p2, p3, p4, p5, p6, p7, p8⟩ := timer_wheel_tick_spec tw t hwf
    obtain ⟨clive, cfire⟩ := timer_wheel_tick_timer tw n e_t t hwf htr
    rw [twRunTicks]
    dsimp only
    by_cases hT : t < n.expiry
    · obtain ⟨htr', hfire0⟩ := clive hT
      obtain ⟨i1, i2, i3⟩ := ih (timer_wheel_tick tw t).tw n e_t p0 htr'
      refine ⟨?_, ?_, ?_⟩
      · rw [countFire_append, hfire0]
        omega
      · intro hex
        rw [countFire_append, hfire0]
        obtain ⟨t', ht', hle⟩ := hex
        rcases List.mem_cons.mp ht' with rfl | ht'
        · omega
        · have := i2 ⟨t', ht', hle⟩
          omega
      · intro hall
        have hall' : ∀ t' ∈ ts, t' < n.expiry :=
          fun t' ht' => hall t' (List.mem_cons_of_mem t ht')
        obtain ⟨ha, hb⟩ := i3 hall'
        exact ⟨ha, by rw [countFire_append, hfire0, hb]⟩
    · obtain ⟨hfire1, hgone⟩ := cfire (by omega)
      have hrest := (twRunTicks_spec ts (timer_wheel_tick tw t).tw p0).2.2.2 n.id
      refine ⟨?_, ?_, ?_⟩
      · rw [countFire_append, hfire1]
        omega
      · intro hex
        rw [countFire_append, hfire1]
        omega
      · intro hall
        exact absurd (hall t (List.mem_cons_self t ts)) hT

/-- C7: a timer added with delay greater than `size * tick_resolution`
(so it needs at least one full extra wheel revolution) fires exactly
once over any subsequent run of tick calls: its fire count plus its
queued count is always exactly 1, it certainly fires once as soon as a
call time reaches its expiry, it never fires while all call times stay
below its expiry (remaining queued), and throughout the run the
`cpt_expired` counter grows only by actual fire events while
`cpt_timer_loop` grows only by re-insert (extra-revolution) events. -/
theorem tw_long_timer_fires_once (tw : Tw) (delay_ns data : Nat) (ts : List Nat)
    (hwf : TwWF tw)
    (hlong : tw.size * tw.tick_resolution < delay_ns)
    (hov1 : delay_ns + tw.tick_resolution - 1 < 2 ^ 64)
    (hov2 : tw.current_tick
      + (delay_ns + tw.tick_resolution - 1) / tw.tick_resolution < 2 ^ 64)
    (hov3 : (tw.current_tick
      + (delay_ns + tw.tick_resolution - 1) / tw.tick_resolution)
      * tw.tick_resolution < 2 ^ 64) :
    countFire (twRunTicks (timer_wheel_add tw delay_ns data).tw ts).2 tw.next_id
      + slotsCountId
          (twRunTicks (timer_wheel_add tw delay_ns data).tw ts).1.slots
          tw.next_id = 1 ∧
    ((∃ t ∈ ts,
        (tw.current_tick
          + (delay_ns + tw.tick_resolution - 1) / tw.tick_resolution)
          * tw.tick_resolution ≤ t) →
      countFire (twRunTicks (timer_wheel_add tw delay_ns data).tw ts).2
        tw.next_id = 1) ∧
    ((∀ t ∈ ts,
        t < (tw.current_tick
          + (delay_ns + tw.tick_resolution - 1) / tw.tick_resolution)
          * tw.tick_resolution) →
      countFire (twRunTicks (timer_wheel_add tw delay_ns data).tw ts).2
        tw.next_id = 0 ∧
      slotsCountId
        (twRunTicks (timer_wheel_add tw delay_ns data).tw ts).1.slots
        tw.next_id = 1) ∧
    (twRunTicks (timer_wheel_add tw delay_ns data).tw ts).1.cpt_expired
      = tw.cpt_expired
        + countFireAll (twRunTicks (timer_wheel_add tw delay_ns data).tw ts).2 ∧
    (twRunTicks (timer_wheel_add tw delay_ns data).tw ts).1.cpt_timer_loop
      = tw.cpt_timer_loop
        + countReinsert
            (twRunTicks (timer_wheel_add tw delay_ns data).tw ts).2 := by
  have hpos : 0 < delay_ns := by
    obtain ⟨k, hk⟩ := hwf.2.1
    have hs : 1 ≤ tw.size := hk ▸ Nat.pos_pow_of_pos k (by omega)
    have hres : 1 ≤ tw.tick_resolution := hwf.2.2.2.1
    have := Nat.mul_le_mul hs hres
    omega
  obtain ⟨a1, a2, a3, a4, a5, a6, a7, a8, a9, awf, atr⟩ :=
    timer_wheel_add_spec tw delay_ns data hwf hpos hov1 hov2 hov3
  obtain ⟨t1, t2, t3⟩ := twRunTicks_timer ts (timer_wheel_add tw delay_ns data).tw
    ⟨tw.next_id,
      (tw.current_tick
        + (delay_ns + tw.tick_resolution - 1) / tw.tick_resolution)
        * tw.tick_resolution, data⟩
    (tw.current_tick
      + (delay_ns + tw.tick_resolution - 1) / tw.tick_resolution) awf atr
  obtain ⟨r0, r1, r2, r3⟩ :=
    twRunTicks_spec ts (timer_wheel_add tw delay_ns data).tw awf
  refine ⟨t1, t2, ?_, by omega, by omega⟩
  intro hall
  obtain ⟨htr', hz⟩ := t3 hall
  exact ⟨hz, htr'.1.1⟩

/-- Witness for C7: a wheel of 16 slots at 1000 ns resolution, a timer
with delay 21000 ns (more than one revolution), ticked at each
1000 ns boundary up to 21000 ns: the timer fires exactly once. -/
theorem tw_long_timer_fires_once_witness :
    (timer_wheel_create 16 1000).size
      * (timer_wheel_create 16 1000).tick_resolution < 21000 ∧
    countFire
      (twRunTicks (timer_wheel_add (timer_wheel_create 16 1000) 21000 77).tw
        [1000, 2000, 3000, 4000, 5000, 6000, 7000, 8000, 9000, 10000,
         11000, 12000, 13000, 14000, 15000, 16000, 17000, 18000, 19000,
         20000, 21000]).2
      (timer_wheel_create 16 1000).next_id = 1 :=
  ⟨by decide,
    (tw_long_timer_fires_once (timer_wheel_create 16 1000) 21000 77
      [1000, 2000, 3000, 4000, 5000, 6000, 7000, 8000, 9000, 10000,
       11000, 12000, 13000, 14000, 15000, 16000, 17000, 18000, 19000,
       20000, 21000]
      ⟨by decide, ⟨4, by decide⟩, by decide, by decide, by decide, by decide⟩
      (by decide) (by decide) (by decide) (by decide)).2.1
    ⟨21000, by decide, by decide⟩⟩

/-- C8 (amended): a timer added with delay `D` ns while the wheel's
tick count is `current_tick` (wheel time `current_tick * resolution`
ns) fires during the first tick call whose time argument reaches
`(current_tick + ceil(D / resolution)) * resolution` — the deadline
rounded UP to the next tick boundary — not `C + D` itself: if every
call before the i-th stays below that rounded deadline and the i-th
call reaches it, the timer has fired 0 times after the first i calls
and exactly once after the (i+1)-th. -/
theorem tw_add_fires_at_rounded_deadline (tw : Tw) (delay_ns data : Nat)
    (ts : List Nat) (i : Nat)
    (hwf : TwWF tw) (hpos : 0 < delay_ns)
    (hov1 : delay_ns + tw.tick_resolution - 1 < 2 ^ 64)
    (hov2 : tw.current_tick
      + (delay_ns + tw.tick_resolution - 1) / tw.tick_resolution < 2 ^ 64)
    (hov3 : (tw.current_tick
      + (delay_ns + tw.tick_resolution - 1) / tw.tick_resolution)
      * tw.tick_resolution < 2 ^ 64)
    (hi : i < ts.length)
    (hbefore : ∀ t ∈ ts.take i,
      t < (tw.current_tick
        + (delay_ns + tw.tick_resolution - 1) / tw.tick_resolution)
        * tw.tick_resolution)
    (hhit : (tw.current_tick
        + (delay_ns + tw.tick_resolution - 1) / tw.tick_resolution)
        * tw.tick_resolution ≤ ts.getD i 0) :
    countFire
      (twRunTicks (timer_wheel_add tw delay_ns data).tw (ts.take i)).2
      tw.next_id = 0 ∧
    countFire
      (twRunTicks (timer_wheel_add tw delay_ns data).tw (ts.take (i + 1))).2
      tw.next_id = 1 := by
  obtain ⟨a1, a2, a3, a4, a5, a6, a7, a8, a9, awf, atr⟩ :=
    timer_wheel_add_spec tw delay_ns data hwf hpos hov1 hov2 hov3
  obtain ⟨-, -, t3⟩ :=
    twRunTicks_timer (ts.take i) (timer_wheel_add tw delay_ns data).tw
      ⟨tw.next_id,
        (tw.current_tick
          + (delay_ns + tw.tick_resolution - 1) / tw.tick_resolution)
          * tw.tick_resolution, data⟩
      (tw.current_tick
        + (delay_ns + tw.tick_resolution - 1) / tw.tick_resolution) awf atr
  obtain ⟨htr', hz⟩ := t3 hbefore
  refine ⟨hz, ?_⟩
  have htake : ts.take (i + 1) = ts.take i ++ [ts.getD i 0] := by
    rw [List.take_succ]
    congr 1
    rw [List.getD_eq_getElem?_getD, List.getElem?_eq_getElem hi]
    rfl
  have hwf' : TwWF (twRunTicks (timer_wheel_add tw delay_ns data).tw
      (ts.take i)).1 :=
    (twRunTicks_spec (ts.take i) (timer_wheel_add tw delay_ns data).tw awf).1
  obtain ⟨-, s2, -⟩ :=
    twRunTicks_timer [ts.getD i 0]
      (twRunTicks (timer_wheel_add tw delay_ns data).tw (ts.take i)).1
      ⟨tw.next_id,
        (tw.current_tick
          + (delay_ns + tw.tick_resolution - 1) / tw.tick_resolution)
          * tw.tick_resolution, data⟩
      (tw.current_tick
        + (delay_ns + tw.tick_resolution - 1) / tw.tick_resolution) hwf' htr'
  have hone := s2 ⟨ts.getD i 0, List.mem_singleton.mpr rfl, hhit⟩
  rw [htake, twRunTicks_append, countFire_append, hz, hone]

/-- Witness for C8 (amended): with 1 ms resolution and a 0.5 ms delay
the rounded deadline is 1 ms; the call at 0.6 ms fires nothing and the
call at 1 ms fires the timer. -/
theorem tw_add_fires_at_rounded_deadline_witness :
    countFire
      (twRunTicks
        (timer_wheel_add (timer_wheel_create 16 1000000) 500000 42).tw
        ([600000, 1000000].take 1)).2
      (timer_wheel_create 16 1000000).next_id = 0 ∧
    countFire
      (twRunTicks
        (timer_wheel_add (timer_wheel_create 16 1000000) 500000 42).tw
        ([600000, 1000000].take 2)).2
      (timer_wheel_create 16 1000000).next_id = 1 :=
  tw_add_fires_at_rounded_deadline (timer_wheel_create 16 1000000) 500000 42
    [600000, 1000000] 1
    ⟨by decide, ⟨4, by decide⟩, by decide, by decide, by decide, by decide⟩
    (by decide) (by decide) (by decide) (by decide) (by decide)
    (by decide) (by decide)

/-! ### Scalable hash table (src/sht.c)

Sequential (single-threaded) shallow embedding.  Locks (the global
spinlock, the per-line rwlocks, the old table's spinlock) always
succeed immediately in a single-threaded execution and are dropped, as
are `sht_ref` / `atomic_decr(h->ref)`, which only matter for
concurrent waiters.  Allocation is assumed to succeed (no claim below
concerns sht.c allocation failure).  Keys are byte strings
(`List Nat`); values are the stored `void *` as a `Nat` with `0`
modelling `NULL` (the C uses a `NULL` result for "not found").  The
hash function is passed to each operation — the C stores a function
pointer at creation — and its `uint32_t` result is modelled by
reducing an arbitrary `Nat`-valued function modulo `2 ^ 32` where the
C computes `h->hash(key, keylen)`.  A C `int` that can stay negative
(`line->len`) is an `Int`. -/

/-- `struct node` of sht.c: `keylen` is implied by `key.length`
(the C match `keylen == node->keylen && memcmp(key, node->key) == 0`
is equality of byte strings); `next` chaining is the enclosing list. -/
structure ShtNode where
  hash : Nat
  key : List Nat
  data : Nat
deriving Repr, DecidableEq

/-- `struct line` of sht.c (minus the rwlock). -/
structure ShtLine where
  len : Int
  nodes : List ShtNode
deriving Repr, DecidableEq

/-- The fields of the old `struct sht` that remain live once it hangs
off `h->old`: its lines, its size and its gc cursor (`*old = *h`
copies the rest too, but nothing reads those copies). -/
structure ShtCore where
  lines : List ShtLine
  size : Nat
  gc_index : Nat
deriving Repr, DecidableEq

/-- `struct sht` of sht.c (minus locks, function pointers and the ref
count, per the sequential collapse above). -/
structure Sht where
  old : Option ShtCore
  do_double_size : Bool
  gc_index : Nat
  gc_num : Nat
  max_line_depth : Nat
  lines : List ShtLine
  size : Nat
  cpt_lookup : Nat
  cpt_insert : Nat
  cpt_remove : Nat
  cpt_collisions : Nat
  cpt_double_size : Nat
  cpt_double_size_fail : Nat
deriving Repr, DecidableEq

/-- `ISQRRT_NEXT(n, i) = ((n) + (i) / (n)) >> 1`. -/
def isqrt_next (n i : Nat) : Nat :=
  (n + i / n) / 2

/-- The Newton iteration of `isqrt`: `while (abs(n1 - n) > 1)`.
Fuel-based: the iteration converges in well under 64 steps for any
64-bit input, so fuel 64 at the call site reproduces the C loop. -/
def isqrt_iter (number : Nat) : Nat → Nat → Nat → Nat
  | 0, _, n1 => n1
  | fuel + 1, n, n1 =>
    if 1 < max n1 n - min n1 n then
      isqrt_iter number fuel n1 (isqrt_next n1 number)
    else n1

/-- The final correction of `isqrt`: `while (n1 * n1 > number) n1--;`
(fuel `n1` bounds the decrements). -/
def isqrt_dec (number : Nat) : Nat → Nat → Nat
  | 0, n1 => n1
  | fuel + 1, n1 => if number < n1 * n1 then isqrt_dec number fuel (n1 - 1) else n1

/-- `isqrt` of sht.c (integer square root by Newton iteration). -/
def isqrt (number : Nat) : Nat :=
  if number = 2 ^ 64 - 1 then 2 ^ 32 - 1
  else
    isqrt_dec number (isqrt_iter number 64 1 (isqrt_next 1 number))
      (isqrt_iter number 64 1 (isqrt_next 1 number))

/-- `sht_create` (via `sht_create_custom` with default allocators):
`size <= 0` falls back to `DEFAULT_NUM_LINES = 100`; all lines start
empty; `gc_num = 10`, `do_double_size = 1`,
`max_line_depth = isqrt(size)`. -/
def sht_create (size : Int) : Sht :=
  { old := none
    do_double_size := true
    gc_index := 0
    gc_num := 10
    max_line_depth := isqrt (if size ≤ 0 then 100 else size.toNat)
    lines := List.replicate (if size ≤ 0 then 100 else size.toNat) ⟨0, []⟩
    size := if size ≤ 0 then 100 else size.toNat
    cpt_lookup := 0
    cpt_insert := 0
    cpt_remove := 0
    cpt_collisions := 0
    cpt_double_size := 0
    cpt_double_size_fail := 0 }

/-- `line_lookup`: walk the chain, skip nodes whose hash differs,
return the first node whose hash and key both match (`0` = `NULL` if
none). -/
def line_lookup : List ShtNode → List Nat → Nat → Nat
  | [], _, _ => 0
  | n :: rest, key, hash =>
    if n.hash = hash ∧ n.key = key then n.data else line_lookup rest key hash

/-- `sht_insert_node` on the line with index `j`: bump `cpt_insert`,
prepend (`line_insert`: `node->next = line->nodes; line->nodes = node;
len++`), and count a collision if the line was non-empty. -/
def sht_insert_node (h : Sht) (j : Nat) (node : ShtNode) : Sht :=
  { h with
    cpt_insert := h.cpt_insert + 1
    lines := h.lines.set j
      ⟨(h.lines.getD j ⟨0, []⟩).len + 1, node :: (h.lines.getD j ⟨0, []⟩).nodes⟩
    cpt_collisions :=
      if (h.lines.getD j ⟨0, []⟩).nodes = [] then h.cpt_collisions
      else h.cpt_collisions + 1 }

/-- `sht_double_size`, sequentially: the trylock succeeds; with
`do_double_size` unset it exits 0 without touching anything; armed, it
clears the flag, fails with -1 if an old table still exists (note the
flag stays cleared), and otherwise moves the current lines to
`h->old` (a copy of `*h`, so `old.gc_index` is `h->gc_index`) and
installs `size * 2` fresh lines, re-arming the flag. -/
def sht_double_size (h : Sht) : Sht × Int :=
  if h.do_double_size then
    match h.old with
    | some _ => ({ h with do_double_size := false }, -1)
    | none =>
      ({ h with
          do_double_size := true
          size := h.size * 2
          max_line_depth := isqrt (h.size * 2)
          lines := List.replicate (h.size * 2) ⟨0, []⟩
          cpt_double_size := h.cpt_double_size + 1
          old := some ⟨h.lines, h.size, h.gc_index⟩ }, 0)
  else (h, 0)

/-- Accumulates one consumed loop iteration of `_sht_gc` (the C `for`
counter `i`, returned as `n`). -/
def sht_gc_bump (r : Sht × ShtCore × Nat) : Sht × ShtCore × Nat :=
  (r.1, r.2.1, r.2.2 + 1)

/-- The migration loop of `_sht_gc`, one fuel per `for` iteration.
An empty line advances `gc_index` (breaking when it reaches the old
size); otherwise the head node of the old line is re-inserted into the
current table via `sht_insert_node` (whose `cpt_insert` increment the C
immediately undoes) and unlinked from the old line (`len--`). -/
def sht_gc_loop : Nat → Sht → ShtCore → Sht × ShtCore × Nat
  | 0, h, old => (h, old, 0)
  | fuel + 1, h, old =>
    match (old.lines.getD old.gc_index ⟨0, []⟩).nodes with
    | [] =>
      if old.size ≤ old.gc_index + 1 then
        (h, { old with gc_index := old.gc_index + 1 }, 0)
      else
        sht_gc_bump (sht_gc_loop fuel h { old with gc_index := old.gc_index + 1 })
    | node :: tmp =>
      sht_gc_bump (sht_gc_loop fuel
        { sht_insert_node h (node.hash % h.size) node with
          cpt_insert := (sht_insert_node h (node.hash % h.size) node).cpt_insert - 1 }
        { old with
          lines := old.lines.set old.gc_index
            ⟨(old.lines.getD old.gc_index ⟨0, []⟩).len - 1, tmp⟩ })

/-- `_sht_gc`: nothing to do without an old table; otherwise run the
migration loop and, if the gc cursor has moved past the last old line,
detach and destroy the (now empty) old table. -/
def _sht_gc (h : Sht) (max_gc_num : Nat) : Sht × Nat :=
  match h.old with
  | none => (h, 0)
  | some old =>
    if (sht_gc_loop max_gc_num h old).2.1.size
        ≤ (sht_gc_loop max_gc_num h old).2.1.gc_index then
      ({ (sht_gc_loop max_gc_num h old).1 with old := none },
        (sht_gc_loop max_gc_num h old).2.2)
    else
      ({ (sht_gc_loop max_gc_num h old).1 with
          old := some (sht_gc_loop max_gc_num h old).2.1 },
        (sht_gc_loop max_gc_num h old).2.2)

/-- `sht_gc` (public): ref/deref collapse away sequentially. -/
def sht_gc (h : Sht) (max_gc_num : Nat) : Sht × Nat :=
  _sht_gc h max_gc_num

/-- The depth check of `sht_insert`: if the target line is deeper than
`max_line_depth`, attempt a resize.  Whatever `sht_double_size`
returned, the insert then targets `h->lines[hash % h->size]` of the
resulting table (on failure that table is unchanged, so re-deriving
the line is faithful). -/
def sht_insert_sized (h : Sht) (hash : Nat) : Sht :=
  if (h.max_line_depth : Int) < (h.lines.getD (hash % h.size) ⟨0, []⟩).len then
    (sht_double_size h).1
  else h

/-- `sht_insert`: reject empty keys, build the node (its stored hash
is the `uint32_t` `h->hash(key, keylen)`), maybe resize, prepend. -/
def sht_insert (hashfn : List Nat → Nat) (h : Sht) (key : List Nat)
    (value : Nat) : Sht × Int :=
  if key = [] then (h, -1)
  else
    (sht_insert_node (sht_insert_sized h (hashfn key % 2 ^ 32))
      ((hashfn key % 2 ^ 32) % (sht_insert_sized h (hashfn key % 2 ^ 32)).size)
      ⟨hashfn key % 2 ^ 32, key, value⟩, 0)

/-- The lookup in the current table's line for `hash`. -/
def sht_lookup_cur (h : Sht) (key : List Nat) (hash : Nat) : Nat :=
  line_lookup (h.lines.getD (hash % h.size) ⟨0, []⟩).nodes key hash

/-- The search order of `sht_lookup`: current table first, the old
table only when the current table missed. -/
def sht_lookup_find (h : Sht) (key : List Nat) (hash : Nat) : Nat :=
  match h.old with
  | some o =>
    if sht_lookup_cur h key hash = 0 then
      line_lookup (o.lines.getD (hash % o.size) ⟨0, []⟩).nodes key hash
    else sht_lookup_cur h key hash
  | none => sht_lookup_cur h key hash

/-- `sht_lookup`: reject empty keys, bump `cpt_lookup`, run the
incremental gc (`_sht_gc(h, h->gc_num)`), then search. -/
def sht_lookup (hashfn : List Nat → Nat) (h : Sht) (key : List Nat) :
    Sht × Nat :=
  if key = [] then (h, 0)
  else
    ((_sht_gc { h with cpt_lookup := h.cpt_lookup + 1 } h.gc_num).1,
      sht_lookup_find
        ((_sht_gc { h with cpt_lookup := h.cpt_lookup + 1 } h.gc_num).1)
        key (hashfn key % 2 ^ 32))

/-- The double-size step of `sht_lookup_insert`: on a deep line it
attempts the resize and counts a failure in `cpt_double_size_fail`. -/
def sht_lookup_insert_resize (h : Sht) (hash : Nat) : Sht :=
  if (h.max_line_depth : Int) < (h.lines.getD (hash % h.size) ⟨0, []⟩).len then
    if (sht_double_size h).2 = 0 then (sht_double_size h).1
    else
      { (sht_double_size h).1 with
        cpt_double_size_fail := (sht_double_size h).1.cpt_double_size_fail + 1 }
  else h

/-- The old-table probe of `sht_lookup_insert` (it checks the old
table BEFORE the current one). -/
def sht_lookup_insert_old (h : Sht) (key : List Nat) (hash : Nat) : Nat :=
  match h.old with
  | some o => line_lookup (o.lines.getD (hash % o.size) ⟨0, []⟩).nodes key hash
  | none => 0

/-- The locked current-table phase of `sht_lookup_insert`: return the
existing value if the line already has the key; otherwise insert the
freshly created node and return its data.  (Sequentially the unlocked
`node_create` window cannot race: on relock `line->nodes == bak`
always holds, so the `goto lookup_insert` retry is dead.) -/
def sht_lookup_insert_ins (h : Sht) (key : List Nat) (hash : Nat)
    (value : Nat) : Sht × Nat :=
  if line_lookup (h.lines.getD (hash % h.size) ⟨0, []⟩).nodes key hash ≠ 0 then
    (h, line_lookup (h.lines.getD (hash % h.size) ⟨0, []⟩).nodes key hash)
  else
    ({ h with
        cpt_insert := h.cpt_insert + 1
        lines := h.lines.set (hash % h.size)
          ⟨(h.lines.getD (hash % h.size) ⟨0, []⟩).len + 1,
            ⟨hash, key, value⟩ :: (h.lines.getD (hash % h.size) ⟨0, []⟩).nodes⟩
        cpt_collisions :=
          if (h.lines.getD (hash % h.size) ⟨0, []⟩).nodes = []
          then h.cpt_collisions else h.cpt_collisions + 1 }, value)

/-- `sht_lookup_insert`: reject empty keys, bump `cpt_lookup`, gc,
maybe double-size, probe the old table, then look up / insert in the
current table. -/
def sht_lookup_insert (hashfn : List Nat → Nat) (h : Sht) (key : List Nat)
    (value : Nat) : Sht × Nat :=
  if key = [] then (h, 0)
  else
    if sht_lookup_insert_old
        (sht_lookup_insert_resize
          ((_sht_gc { h with cpt_lookup := h.cpt_lookup + 1 } h.gc_num).1)
          (hashfn key % 2 ^ 32))
        key (hashfn key % 2 ^ 32) ≠ 0 then
      (sht_lookup_insert_resize
          ((_sht_gc { h with cpt_lookup := h.cpt_lookup + 1 } h.gc_num).1)
          (hashfn key % 2 ^ 32),
        sht_lookup_insert_old
          (sht_lookup_insert_resize
            ((_sht_gc { h with cpt_lookup := h.cpt_lookup + 1 } h.gc_num).1)
            (hashfn key % 2 ^ 32))
          key (hashfn key % 2 ^ 32))
    else
      sht_lookup_insert_ins
        (sht_lookup_insert_resize
          ((_sht_gc { h with cpt_lookup := h.cpt_lookup + 1 } h.gc_num).1)
          (hashfn key % 2 ^ 32))
        key (hashfn key % 2 ^ 32) value

/-- The unlink of `sht_remove` on one chain: drop the first node
matching hash and key, returning it and the remaining chain. -/
def removeFirst : List ShtNode → List Nat → Nat → Option (ShtNode × List ShtNode)
  | [], _, _ => none
  | n :: rest, key, hash =>
    if n.hash = hash ∧ n.key = key then some (n, rest)
    else
      match removeFirst rest key hash with
      | some (m, rest') => some (m, n :: rest')
      | none => none

/-- The current-table phase of `sht_remove`. -/
def sht_remove_cur (h : Sht) (key : List Nat) (hash : Nat) : Sht × Int :=
  match removeFirst (h.lines.getD (hash % h.size) ⟨0, []⟩).nodes key hash with
  | some (_, rest) =>
    ({ h with
        lines := h.lines.set (hash % h.size)
          ⟨(h.lines.getD (hash % h.size) ⟨0, []⟩).len - 1, rest⟩
        cpt_remove := h.cpt_remove + 1 }, 0)
  | none => (h, -1)

/-- The old-table phase of `sht_remove` (only reached when the current
table had no match). -/
def sht_remove_old (h : Sht) (key : List Nat) (hash : Nat) : Sht × Int :=
  match h.old with
  | some o =>
    match removeFirst (o.lines.getD (hash % o.size) ⟨0, []⟩).nodes key hash with
    | some (_, rest) =>
      ({ h with
          old := some { o with
            lines := o.lines.set (hash % o.size)
              ⟨(o.lines.getD (hash % o.size) ⟨0, []⟩).len - 1, rest⟩ }
          cpt_remove := h.cpt_remove + 1 }, 0)
    | none => (h, -1)
  | none => (h, -1)

/-- `sht_remove`: reject empty keys, gc, unlink from the current
table, falling back to the old table when the current one misses. -/
def sht_remove (hashfn : List Nat → Nat) (h : Sht) (key : List Nat) :
    Sht × Int :=
  if key = [] then (h, -1)
  else
    if (sht_remove_cur ((_sht_gc h h.gc_num).1) key (hashfn key % 2 ^ 32)).2 ≠ 0
    then
      sht_remove_old
        (sht_remove_cur ((_sht_gc h h.gc_num).1) key (hashfn key % 2 ^ 32)).1
        key (hashfn key % 2 ^ 32)
    else
      sht_remove_cur ((_sht_gc h h.gc_num).1) key (hashfn key % 2 ^ 32)

/-- All nodes stored in a line array, in line order. -/
def linesNodes (lines : List ShtLine) : List ShtNode :=
  (lines.map ShtLine.nodes).flatten

/-- The nodes of the old table, if any. -/
def oldNodes (h : Sht) : List ShtNode :=
  match h.old with
  | some o => linesNodes o.lines
  | none => []

/-- Every node reachable from the table (current lines, then old). -/
def allNodes (h : Sht) : List ShtNode :=
  linesNodes h.lines ++ oldNodes h

/-- The reachable nodes carrying key `K`. -/
def keyNodes (h : Sht) (K : List Nat) : List ShtNode :=
  (allNodes h).filter (fun n => n.key == K)

/-- Well-formedness of one line array: positive size, size many lines,
every node sits in the line selected by its hash, and every stored
hash is the (truncated) hash of the stored key. -/
def coreWF (hashfn : List Nat → Nat) (lines : List ShtLine) (size : Nat) :
    Prop :=
  0 < size ∧ lines.length = size ∧
  ∀ j < lines.length, ∀ n ∈ (lines.getD j ⟨0, []⟩).nodes,
    n.hash % size = j ∧ n.hash = hashfn n.key % 2 ^ 32

instance (hashfn : List Nat → Nat) (lines : List ShtLine) (size : Nat) :
    Decidable (coreWF hashfn lines size) := by
  unfold coreWF
  infer_instance

/-- Well-formedness of the old table: its line array is well-formed
and every line the gc cursor has moved past is empty. -/
def oldWF (hashfn : List Nat → Nat) (o : ShtCore) : Prop :=
  coreWF hashfn o.lines o.size ∧
  ∀ j < o.gc_index, (o.lines.getD j ⟨0, []⟩).nodes = []

instance (hashfn : List Nat → Nat) (o : ShtCore) :
    Decidable (oldWF hashfn o) := by
  unfold oldWF
  infer_instance

/-- Well-formedness of the optional old table. -/
def oldOptWF (hashfn : List Nat → Nat) : Option ShtCore → Prop
  | some o => oldWF hashfn o
  | none => True

instance (hashfn : List Nat → Nat) :
    ∀ oo : Option ShtCore, Decidable (oldOptWF hashfn oo)
  | some o => inferInstanceAs (Decidable (oldWF hashfn o))
  | none => inferInstanceAs (Decidable True)

/-- Invariant of the whole table, as established by `sht_create` and
preserved by every operation.  `h.gc_index = 0` holds because nothing
ever writes the top-level `gc_index` (only `h->old->gc_index` moves),
and it is what makes the `*old = *h` copy in `sht_double_size` start
the old table's gc cursor at line 0. -/
def ShtInv (hashfn : List Nat → Nat) (h : Sht) : Prop :=
  coreWF hashfn h.lines h.size ∧ oldOptWF hashfn h.old ∧ h.gc_index = 0

instance (hashfn : List Nat → Nat) (h : Sht) :
    Decidable (ShtInv hashfn h) := by
  unfold ShtInv
  infer_instance

/-- A single-threaded trace step: the public CHT operations. -/
inductive ShtOp where
  | opInsert (key : List Nat) (value : Nat)
  | opRemove (key : List Nat)
  | opLookup (key : List Nat)
  | opLookupInsert (key : List Nat) (value : Nat)
  | opGc (max_gc_num : Nat)
deriving Repr, DecidableEq

/-- Run one public operation (keeping its state, dropping its return
value). -/
def runShtOp (hashfn : List Nat → Nat) (h : Sht) : ShtOp → Sht
  | .opInsert k v => (sht_insert hashfn h k v).1
  | .opRemove k => (sht_remove hashfn h k).1
  | .opLookup k => (sht_lookup hashfn h k).1
  | .opLookupInsert k v => (sht_lookup_insert hashfn h k v).1
  | .opGc n => (sht_gc h n).1

/-- Run a trace of public operations left to right. -/
def runShtOps (hashfn : List Nat → Nat) (h : Sht) : List ShtOp → Sht
  | [] => h
  | op :: rest => runShtOps hashfn (runShtOp hashfn h op) rest

/-- Whether an operation names the key `K`. -/
def mentionsKey (K : List Nat) : ShtOp → Bool
  | .opInsert k _ => k == K
  | .opRemove k => k == K
  | .opLookup k => k == K
  | .opLookupInsert k _ => k == K
  | .opGc _ => false

/-- A duplicate key across a resize: on a 1-line table, inserting
keys `[0]`, `[1]`, `[2]` (the third triggering the doubling), then
key `[0]` again with a new value, and looking `[0]` up.  The constant
hash keeps every key in line 0. -/
def shtDupRun : Sht × Nat :=
  sht_lookup (fun _ => 0)
    (sht_insert (fun _ => 0)
      (sht_insert (fun _ => 0)
        (sht_insert (fun _ => 0)
          (sht_insert (fun _ => 0) (sht_create 1) [0] 11).1
          [1] 22).1
        [2] 33).1
      [0] 44).1
    [0]

theorem list_getD_set_self {α : Type} (xs : List α) (j : Nat) (a d : α)
    (hj : j < xs.length) : (xs.set j a).getD j d = a := by
  rw [List.getD_eq_getElem?_getD,
    List.getElem?_eq_getElem (by simpa using hj)]
  simp [List.getElem_set_self]

theorem list_getD_set_ne {α : Type} (xs : List α) (i j : Nat) (a d : α)
    (hne : i ≠ j) : (xs.set i a).getD j d = xs.getD j d := by
  rw [List.getD_eq_getElem?_getD, List.getD_eq_getElem?_getD,
    List.getElem?_set_ne hne]

theorem flatten_set_perm {α : Type} (xss : List (List α)) :
    ∀ j, j < xss.length → ∀ ys : List α,
      List.Perm ((xss.set j ys).flatten) (ys ++ (xss.set j []).flatten) := by
  induction xss with
  | nil => intro j hj ys; simp at hj
  | cons x xs ih =>
    intro j hj ys
    cases j with
    | zero => simp
    | succ j =>
      simp only [List.set_cons_succ, List.flatten_cons]
      exact (List.Perm.append_left x (ih j (by simpa using hj) ys)).trans
        (List.perm_append_comm_assoc x ys _)

theorem flatten_split_perm {α : Type} (xss : List (List α)) :
    ∀ j, j < xss.length →
      List.Perm xss.flatten (xss.getD j [] ++ (xss.set j []).flatten) := by
  induction xss with
  | nil => intro j hj; simp at hj
  | cons x xs ih =>
    intro j hj
    cases j with
    | zero => simp
    | succ j =>
      simp only [List.flatten_cons, List.getD_cons_succ, List.set_cons_succ]
      exact (List.Perm.append_left x (ih j (by simpa using hj))).trans
        (List.perm_append_comm_assoc x _ _)

theorem map_set_nodes (lines : List ShtLine) (j : Nat) (l' : ShtLine) :
    (lines.set j l').map ShtLine.nodes
      = (lines.map ShtLine.nodes).set j l'.nodes := by
  induction lines generalizing j with
  | nil => simp
  | cons x xs ih => cases j <;> simp [ih]

theorem getD_nodes (lines : List ShtLine) (j : Nat) :
    (lines.getD j ⟨0, []⟩).nodes = (lines.map ShtLine.nodes).getD j [] := by
  induction lines generalizing j with
  | nil => simp [List.getD]
  | cons x xs ih =>
    cases j with
    | zero => simp
    | succ j =>
      simp only [List.getD_cons_succ, List.map_cons]
      exact ih j

theorem linesNodes_set_perm (lines : List ShtLine) (j : Nat)
    (hj : j < lines.length) (len' : Int) (ys : List ShtNode) :
    List.Perm (linesNodes (lines.set j ⟨len', ys⟩))
      (ys ++ ((lines.map ShtLine.nodes).set j []).flatten) := by
  unfold linesNodes
  rw [map_set_nodes]
  exact flatten_set_perm _ j (by simpa using hj) ys

theorem linesNodes_split_perm (lines : List ShtLine) (j : Nat)
    (hj : j < lines.length) :
    List.Perm (linesNodes lines)
      ((lines.getD j ⟨0, []⟩).nodes
        ++ ((lines.map ShtLine.nodes).set j []).flatten) := by
  unfold linesNodes
  rw [getD_nodes]
  exact flatten_split_perm _ j (by simpa using hj)

theorem mem_linesNodes (lines : List ShtLine) (j : Nat) (hj : j < lines.length)
    (n : ShtNode) (hn : n ∈ (lines.getD j ⟨0, []⟩).nodes) :
    n ∈ linesNodes lines :=
  (linesNodes_split_perm lines j hj).symm.subset (List.mem_append_left _ hn)

theorem mem_linesNodes_ex (lines : List ShtLine) (n : ShtNode)
    (hn : n ∈ linesNodes lines) :
    ∃ j, j < lines.length ∧ n ∈ (lines.getD j ⟨0, []⟩).nodes := by
  unfold linesNodes at hn
  obtain ⟨l, hl, hnl⟩ := List.mem_flatten.mp hn
  obtain ⟨j, hj, rfl⟩ := List.mem_iff_getElem.mp hl
  refine ⟨j, by simpa using hj, ?_⟩
  rw [getD_nodes, List.getD_eq_getElem?_getD, List.getElem?_eq_getElem hj]
  exact hnl

theorem linesNodes_replicate (n : Nat) :
    linesNodes (List.replicate n (⟨0, []⟩ : ShtLine)) = [] := by
  induction n with
  | zero => rfl
  | succ n ih => simpa [linesNodes, List.replicate_succ] using ih

theorem linesNodes_empty_of_all_nil (lines : List ShtLine)
    (h : ∀ j < lines.length, (lines.getD j ⟨0, []⟩).nodes = []) :
    linesNodes lines = [] := by
  induction lines with
  | nil => rfl
  | cons x xs ih =>
    have h0 := h 0 (by simp)
    simp only [List.getD_cons_zero] at h0
    have hrest : ∀ j < xs.length, (xs.getD j ⟨0, []⟩).nodes = [] := by
      intro j hj
      have := h (j + 1) (by simpa using Nat.succ_lt_succ hj)
      simpa [List.getD_cons_succ] using this
    simp [linesNodes, h0]
    simpa [linesNodes] using ih hrest

theorem coreWF_replicate (hashfn : List Nat → Nat) (n : Nat) (hn : 0 < n) :
    coreWF hashfn (List.replicate n (⟨0, []⟩ : ShtLine)) n := by
  refine ⟨hn, by simp, ?_⟩
  intro j hj m hm
  rw [List.getD_eq_getElem?_getD,
    List.getElem?_eq_getElem (by simpa using hj)] at hm
  simp [List.getElem_replicate] at hm

theorem coreWF_set (hashfn : List Nat → Nat) (lines : List ShtLine)
    (size : Nat) (j : Nat) (len' : Int) (ys : List ShtNode)
    (hwf : coreWF hashfn lines size) (hj : j < lines.length)
    (hys : ∀ n ∈ ys, n.hash % size = j ∧ n.hash = hashfn n.key % 2 ^ 32) :
    coreWF hashfn (lines.set j ⟨len', ys⟩) size := by
  obtain ⟨h1, h2, h3⟩ := hwf
  refine ⟨h1, by simpa using h2, ?_⟩
  intro j' hj' m hm
  rw [List.length_set] at hj'
  by_cases he : j = j'
  · subst he
    rw [list_getD_set_self _ _ _ _ hj] at hm
    exact hys m hm
  · rw [list_getD_set_ne _ _ _ _ _ he] at hm
    exact h3 j' hj' m hm

theorem line_lookup_cases (nodes : List ShtNode) (key : List Nat) (hash : Nat) :
    line_lookup nodes key hash = 0 ∨
    ∃ n ∈ nodes, n.hash = hash ∧ n.key = key
      ∧ line_lookup nodes key hash = n.data := by
  induction nodes with
  | nil => left; rfl
  | cons n rest ih =>
    by_cases hmatch : n.hash = hash ∧ n.key = key
    · right
      exact ⟨n, List.mem_cons_self _ _, hmatch.1, hmatch.2,
        by simp only [line_lookup, if_pos hmatch]⟩
    · rcases ih with h0 | ⟨m, hm, h1, h2, h3⟩
      · left
        simp only [line_lookup, if_neg hmatch]
        exact h0
      · right
        exact ⟨m, List.mem_cons_of_mem _ hm, h1, h2,
          by simp only [line_lookup, if_neg hmatch]; exact h3⟩

theorem line_lookup_finds (nodes : List ShtNode) (key : List Nat) (hash : Nat)
    (hex : ∃ n ∈ nodes, n.hash = hash ∧ n.key = key) :
    ∃ n ∈ nodes, n.hash = hash ∧ n.key = key
      ∧ line_lookup nodes key hash = n.data := by
  induction nodes with
  | nil => simp at hex
  | cons n rest ih =>
    by_cases hmatch : n.hash = hash ∧ n.key = key
    · exact ⟨n, List.mem_cons_self _ _, hmatch.1, hmatch.2,
        by simp only [line_lookup, if_pos hmatch]⟩
    · obtain ⟨m, hm, h1, h2⟩ := hex
      rcases List.mem_cons.mp hm with rfl | hm'
      · exact absurd ⟨h1, h2⟩ hmatch
      · obtain ⟨m', hm'', c1, c2, c3⟩ := ih ⟨m, hm', h1, h2⟩
        exact ⟨m', List.mem_cons_of_mem _ hm'', c1, c2,
          by simp only [line_lookup, if_neg hmatch]; exact c3⟩

theorem line_lookup_none (nodes : List ShtNode) (key : List Nat) (hash : Nat)
    (hnone : ∀ n ∈ nodes, ¬(n.hash = hash ∧ n.key = key)) :
    line_lookup nodes key hash = 0 := by
  induction nodes with
  | nil => rfl
  | cons n rest ih =>
    simp only [line_lookup, if_neg (hnone n (List.mem_cons_self _ _))]
    exact ih (fun m hm => hnone m (List.mem_cons_of_mem _ hm))

theorem removeFirst_spec (nodes : List ShtNode) (key : List Nat) (hash : Nat) :
    ∀ m rest, removeFirst nodes key hash = some (m, rest) →
      m.hash = hash ∧ m.key = key ∧ List.Perm nodes (m :: rest) := by
  induction nodes with
  | nil => intro m rest h; simp [removeFirst] at h
  | cons n ns ih =>
    intro m rest h
    by_cases hmatch : n.hash = hash ∧ n.key = key
    · rw [removeFirst, if_pos hmatch] at h
      simp only [Option.some.injEq, Prod.mk.injEq] at h
      obtain ⟨rfl, rfl⟩ := h
      exact ⟨hmatch.1, hmatch.2, List.Perm.refl _⟩
    · rw [removeFirst, if_neg hmatch] at h
      rcases hrec : removeFirst ns key hash with _ | ⟨m', rest'⟩
      · rw [hrec] at h
        simp at h
      · rw [hrec] at h
        simp only [Option.some.injEq, Prod.mk.injEq] at h
        obtain ⟨rfl, rfl⟩ := h
        obtain ⟨c1, c2, c3⟩ := ih m' rest' hrec
        exact ⟨c1, c2, (c3.cons n).trans (List.Perm.swap m' n rest')⟩

/-- `sht_insert_node` keeps the line array well-formed and prepends
exactly the inserted node (as a multiset). -/
theorem sht_insert_node_all (hashfn : List Nat → Nat) (h : Sht) (node : ShtNode)
    (hwf : coreWF hashfn h.lines h.size)
    (hhash : node.hash = hashfn node.key % 2 ^ 32) :
    coreWF hashfn (sht_insert_node h (node.hash % h.size) node).lines h.size ∧
    List.Perm (linesNodes (sht_insert_node h (node.hash % h.size) node).lines)
      (node :: linesNodes h.lines) := by
  obtain ⟨h1, h2, h3⟩ := hwf
  have hj : node.hash % h.size < h.lines.length := by
    rw [h2]
    exact Nat.mod_lt _ h1
  constructor
  · unfold sht_insert_node
    dsimp only
    apply coreWF_set hashfn h.lines h.size _ _ _ ⟨h1, h2, h3⟩ hj
    intro m hm
    rcases List.mem_cons.mp hm with rfl | hm'
    · exact ⟨rfl, hhash⟩
    · exact h3 _ hj m hm'
  · unfold sht_insert_node
    dsimp only
    exact (linesNodes_set_perm h.lines _ hj _ _).trans
      ((linesNodes_split_perm h.lines _ hj).symm.cons node)

/-- `sht_double_size` preserves the invariant and the reachable nodes
(a successful resize merely moves the current lines to the old
table). -/
theorem sht_double_size_all (hashfn : List Nat → Nat) (h : Sht)
    (hinv : ShtInv hashfn h) :
    ShtInv hashfn (sht_double_size h).1 ∧
    List.Perm (allNodes (sht_double_size h).1) (allNodes h) := by
  obtain ⟨hcur, hold, hgc0⟩ := hinv
  unfold sht_double_size
  by_cases hflag : h.do_double_size
  · rw [if_pos hflag]
    rcases ho : h.old with _ | o
    · dsimp only
      refine ⟨⟨coreWF_replicate hashfn (h.size * 2) (by have := hcur.1; omega),
        ⟨hcur, ?_⟩, hgc0⟩, ?_⟩
      · intro j hj
        dsimp only at hj
        omega
      · show List.Perm
          (linesNodes (List.replicate (h.size * 2) ⟨0, []⟩) ++ linesNodes h.lines)
          (allNodes h)
        rw [linesNodes_replicate]
        unfold allNodes oldNodes
        rw [ho]
        simp
    · dsimp only
      refine ⟨⟨hcur, ?_, hgc0⟩, ?_⟩
      · show oldWF hashfn o
        rw [ho] at hold
        exact hold
      · show List.Perm (linesNodes h.lines ++ linesNodes o.lines) (allNodes h)
        unfold allNodes oldNodes
        rw [ho]
  · rw [if_neg hflag]
    exact ⟨⟨hcur, hold, hgc0⟩, List.Perm.refl _⟩

/-- The `_sht_gc` migration loop: both line arrays stay well-formed,
the union of reachable nodes is preserved, and the structural fields
(sizes, the current table's gc cursor) do not move. -/
theorem sht_gc_loop_spec (hashfn : List Nat → Nat) :
    ∀ (fuel : Nat) (h : Sht) (old : ShtCore),
      coreWF hashfn h.lines h.size → oldWF hashfn old →
      coreWF hashfn (sht_gc_loop fuel h old).1.lines
        (sht_gc_loop fuel h old).1.size ∧
      oldWF hashfn (sht_gc_loop fuel h old).2.1 ∧
      List.Perm
        (linesNodes (sht_gc_loop fuel h old).1.lines
          ++ linesNodes (sht_gc_loop fuel h old).2.1.lines)
        (linesNodes h.lines ++ linesNodes old.lines) ∧
      (sht_gc_loop fuel h old).1.size = h.size ∧
      (sht_gc_loop fuel h old).2.1.size = old.size ∧
      (sht_gc_loop fuel h old).1.gc_index = h.gc_index := by
  intro fuel
  induction fuel with
  | zero =>
    intro h old hc ho
    exact ⟨hc, ho, List.Perm.refl _, rfl, rfl, rfl⟩
  | succ fuel ih =>
    intro h old hc ho
    rcases hn : (old.lines.getD old.gc_index ⟨0, []⟩).nodes with _ | ⟨node, tmp⟩
    · by_cases hbr : old.size ≤ old.gc_index + 1
      · rw [sht_gc_loop, hn]
        dsimp only
        rw [if_pos hbr]
        dsimp only
        refine ⟨hc, ⟨ho.1, ?_⟩, List.Perm.refl _, rfl, rfl, rfl⟩
        intro j hj
        dsimp only at hj ⊢
        by_cases hje : j = old.gc_index
        · rw [hje]
          exact hn
        · exact ho.2 j (by omega)
      · rw [sht_gc_loop, hn]
        dsimp only
        rw [if_neg hbr]
        have hpre : ∀ j < ({ old with gc_index := old.gc_index + 1 } :
            ShtCore).gc_index,
            (({ old with gc_index := old.gc_index + 1 } :
              ShtCore).lines.getD j ⟨0, []⟩).nodes = [] := by
          intro j hj
          dsimp only at hj ⊢
          by_cases hje : j = old.gc_index
          · rw [hje]
            exact hn
          · exact ho.2 j (by omega)
        obtain ⟨c1, c2, c3, c4, c5, c6⟩ :=
          ih h { old with gc_index := old.gc_index + 1 } hc ⟨ho.1, hpre⟩
        exact ⟨c1, c2, c3, c4, c5, c6⟩
    · have hgi : old.gc_index < old.lines.length := by
        by_contra hgi
        rw [List.getD_eq_getElem?_getD,
          List.getElem?_eq_none (by omega)] at hn
        simp at hn
      have hnodewf := ho.1.2.2 old.gc_index hgi node
        (by rw [hn]; exact List.mem_cons_self node tmp)
      have htmpwf : ∀ m ∈ tmp,
          m.hash % old.size = old.gc_index ∧ m.hash = hashfn m.key % 2 ^ 32 :=
        fun m hm => ho.1.2.2 old.gc_index hgi m
          (by rw [hn]; exact List.mem_cons_of_mem node hm)
      rw [sht_gc_loop, hn]
      dsimp only [sht_gc_bump]
      obtain ⟨i1, i2⟩ := sht_insert_node_all hashfn h node hc hnodewf.2
      have hold2 : oldWF hashfn
          { old with
            lines := old.lines.set old.gc_index
              ⟨(old.lines.getD old.gc_index ⟨0, []⟩).len - 1, tmp⟩ } := by
        refine ⟨coreWF_set hashfn old.lines old.size _ _ _ ho.1 hgi htmpwf, ?_⟩
        intro j hj
        dsimp only at hj ⊢
        rw [list_getD_set_ne _ _ _ _ _ (by omega)]
        exact ho.2 j hj
      obtain ⟨c1, c2, c3, c4, c5, c6⟩ := ih
        { sht_insert_node h (node.hash % h.size) node with
          cpt_insert := (sht_insert_node h (node.hash % h.size) node).cpt_insert - 1 }
        { old with
          lines := old.lines.set old.gc_index
            ⟨(old.lines.getD old.gc_index ⟨0, []⟩).len - 1, tmp⟩ }
        i1 hold2
      refine ⟨c1, c2, ?_, c4, c5, c6⟩
      have hsplit := linesNodes_split_perm old.lines old.gc_index hgi
      rw [hn] at hsplit
      have hset := linesNodes_set_perm old.lines old.gc_index hgi
        ((old.lines.getD old.gc_index ⟨0, []⟩).len - 1) tmp
      refine c3.trans ?_
      refine (List.Perm.append i2 hset).trans ?_
      refine List.Perm.trans ?_
        (List.Perm.append_left (linesNodes h.lines) hsplit.symm)
      exact (List.perm_middle).symm

/-- `_sht_gc` preserves the invariant and the reachable nodes; when it
drains the old table completely, the destroyed old lines were all
empty. -/
theorem sht_gc_all (hashfn : List Nat → Nat) (h : Sht) (m : Nat)
    (hinv : ShtInv hashfn h) :
    ShtInv hashfn (_sht_gc h m).1 ∧
    List.Perm (allNodes (_sht_gc h m).1) (allNodes h) := by
  obtain ⟨hcur, hold, hgc0⟩ := hinv
  unfold _sht_gc
  rcases ho : h.old with _ | o
  · exact ⟨⟨hcur, by rw [ho] at hold ⊢; exact hold, hgc0⟩, List.Perm.refl _⟩
  · have holdwf : oldWF hashfn o := by
      rw [ho] at hold
      exact hold
    dsimp only
    obtain ⟨c1, c2, c3, c4, c5, c6⟩ := sht_gc_loop_spec hashfn m h o hcur holdwf
    by_cases hdone : (sht_gc_loop m h o).2.1.size ≤ (sht_gc_loop m h o).2.1.gc_index
    · rw [if_pos hdone]
      have hempty : linesNodes (sht_gc_loop m h o).2.1.lines = [] := by
        apply linesNodes_empty_of_all_nil
        intro j hj
        have hlen := c2.1.2.1
        exact c2.2 j (by omega)
      constructor
      · exact ⟨c1, trivial, c6.trans hgc0⟩
      · show List.Perm (linesNodes (sht_gc_loop m h o).1.lines ++ [])
          (allNodes h)
        rw [List.append_nil]
        rw [hempty, List.append_nil] at c3
        refine c3.trans ?_
        unfold allNodes oldNodes
        rw [ho]
    · rw [if_neg hdone]
      constructor
      · exact ⟨c1, c2, c6.trans hgc0⟩
      · show List.Perm (linesNodes (sht_gc_loop m h o).1.lines
            ++ linesNodes (sht_gc_loop m h o).2.1.lines)
          (allNodes h)
        refine c3.trans ?_
        unfold allNodes oldNodes
        rw [ho]

/-- `sht_create` satisfies the invariant and starts empty. -/
theorem sht_create_inv (hashfn : List Nat → Nat) (size : Int) :
    ShtInv hashfn (sht_create size) ∧ allNodes (sht_create size) = [] := by
  constructor
  · refine ⟨?_, trivial, rfl⟩
    show coreWF hashfn
      (List.replicate (if size ≤ 0 then 100 else size.toNat) ⟨0, []⟩)
      (if size ≤ 0 then 100 else size.toNat)
    apply coreWF_replicate
    by_cases hs : size ≤ 0
    · rw [if_pos hs]
      omega
    · rw [if_neg hs]
      omega
  · show linesNodes (List.replicate (if size ≤ 0 then 100 else size.toNat)
      ⟨0, []⟩) ++ [] = []
    rw [linesNodes_replicate]
    rfl

/-- Whole-state version of `sht_insert_node_all`. -/
theorem sht_insert_node_all2 (hashfn : List Nat → Nat) (s : Sht)
    (node : ShtNode) (hinv : ShtInv hashfn s)
    (hhash : node.hash = hashfn node.key % 2 ^ 32) :
    ShtInv hashfn (sht_insert_node s (node.hash % s.size) node) ∧
    List.Perm (allNodes (sht_insert_node s (node.hash % s.size) node))
      (node :: allNodes s) := by
  obtain ⟨hcur, hold, hgc0⟩ := hinv
  obtain ⟨i1, i2⟩ := sht_insert_node_all hashfn s node hcur hhash
  refine ⟨⟨i1, hold, hgc0⟩, ?_⟩
  show List.Perm
    (linesNodes (sht_insert_node s (node.hash % s.size) node).lines ++ oldNodes s)
    (node :: allNodes s)
  exact i2.append_right (oldNodes s)

/-- `sht_insert` with a non-empty key preserves the invariant and adds
exactly the new node. -/
theorem sht_insert_all (hashfn : List Nat → Nat) (h : Sht) (key : List Nat)
    (value : Nat) (hinv : ShtInv hashfn h) (hkey : ¬ key = []) :
    ShtInv hashfn (sht_insert hashfn h key value).1 ∧
    List.Perm (allNodes (sht_insert hashfn h key value).1)
      (⟨hashfn key % 2 ^ 32, key, value⟩ :: allNodes h) := by
  unfold sht_insert
  rw [if_neg hkey]
  dsimp only
  obtain ⟨sinv, sperm⟩ : ShtInv hashfn (sht_insert_sized h (hashfn key % 2 ^ 32)) ∧
      List.Perm (allNodes (sht_insert_sized h (hashfn key % 2 ^ 32)))
        (allNodes h) := by
    unfold sht_insert_sized
    by_cases hd : (h.max_line_depth : Int)
        < (h.lines.getD ((hashfn key % 2 ^ 32) % h.size) ⟨0, []⟩).len
    · rw [if_pos hd]
      exact sht_double_size_all hashfn h hinv
    · rw [if_neg hd]
      exact ⟨hinv, List.Perm.refl _⟩
  obtain ⟨a1, a2⟩ := sht_insert_node_all2 hashfn
    (sht_insert_sized h (hashfn key % 2 ^ 32))
    ⟨hashfn key % 2 ^ 32, key, value⟩ sinv rfl
  exact ⟨a1, a2.trans (sperm.cons _)⟩

/-- `sht_lookup` only runs the gc on the state: invariant and
reachable nodes are preserved. -/
theorem sht_lookup_state (hashfn : List Nat → Nat) (h : Sht) (key : List Nat)
    (hinv : ShtInv hashfn h) :
    ShtInv hashfn (sht_lookup hashfn h key).1 ∧
    List.Perm (allNodes (sht_lookup hashfn h key).1) (allNodes h) := by
  unfold sht_lookup
  by_cases hk : key = []
  · rw [if_pos hk]
    exact ⟨hinv, List.Perm.refl _⟩
  · rw [if_neg hk]
    dsimp only
    have hinv1 : ShtInv hashfn { h with cpt_lookup := h.cpt_lookup + 1 } := hinv
    exact sht_gc_all hashfn { h with cpt_lookup := h.cpt_lookup + 1 }
      h.gc_num hinv1

/-- The double-size step of `sht_lookup_insert` preserves invariant
and reachable nodes. -/
theorem sht_lookup_insert_resize_all (hashfn : List Nat → Nat) (g : Sht)
    (hash : Nat) (hinv : ShtInv hashfn g) :
    ShtInv hashfn (sht_lookup_insert_resize g hash) ∧
    List.Perm (allNodes (sht_lookup_insert_resize g hash)) (allNodes g) := by
  unfold sht_lookup_insert_resize
  by_cases hd : (g.max_line_depth : Int)
      < (g.lines.getD (hash % g.size) ⟨0, []⟩).len
  · rw [if_pos hd]
    by_cases hz : (sht_double_size g).2 = 0
    · rw [if_pos hz]
      exact sht_double_size_all hashfn g hinv
    · rw [if_neg hz]
      obtain ⟨d1, d2⟩ := sht_double_size_all hashfn g hinv
      exact ⟨d1, d2⟩
  · rw [if_neg hd]
    exact ⟨hinv, List.Perm.refl _⟩

/-- The locked phase of `sht_lookup_insert` either returns the state
unchanged (key found) or prepends exactly the new node. -/
theorem sht_lookup_insert_ins_all (hashfn : List Nat → Nat) (r : Sht)
    (key : List Nat) (value : Nat) (hinv : ShtInv hashfn r) :
    ShtInv hashfn (sht_lookup_insert_ins r key (hashfn key % 2 ^ 32) value).1 ∧
    ((sht_lookup_insert_ins r key (hashfn key % 2 ^ 32) value).1 = r ∨
      List.Perm
        (allNodes (sht_lookup_insert_ins r key (hashfn key % 2 ^ 32) value).1)
        (⟨hashfn key % 2 ^ 32, key, value⟩ :: allNodes r)) := by
  unfold sht_lookup_insert_ins
  by_cases hf : line_lookup
      (r.lines.getD ((hashfn key % 2 ^ 32) % r.size) ⟨0, []⟩).nodes key
      (hashfn key % 2 ^ 32) ≠ 0
  · rw [if_pos hf]
    exact ⟨hinv, Or.inl rfl⟩
  · rw [if_neg hf]
    obtain ⟨a1, a2⟩ := sht_insert_node_all2 hashfn r
      ⟨hashfn key % 2 ^ 32, key, value⟩ hinv rfl
    exact ⟨a1, Or.inr a2⟩

/-- `sht_lookup_insert` preserves the invariant; it either leaves the
reachable nodes unchanged (up to gc migration) or adds exactly the new
node. -/
theorem sht_lookup_insert_all (hashfn : List Nat → Nat) (h : Sht)
    (key : List Nat) (value : Nat) (hinv : ShtInv hashfn h) :
    ShtInv hashfn (sht_lookup_insert hashfn h key value).1 ∧
    (List.Perm (allNodes (sht_lookup_insert hashfn h key value).1)
        (allNodes h) ∨
      List.Perm (allNodes (sht_lookup_insert hashfn h key value).1)
        (⟨hashfn key % 2 ^ 32, key, value⟩ :: allNodes h)) := by
  by_cases hk : key = []
  · unfold sht_lookup_insert
    rw [if_pos hk]
    exact ⟨hinv, Or.inl (List.Perm.refl _)⟩
  · unfold sht_lookup_insert
    rw [if_neg hk]
    have hinv1 : ShtInv hashfn { h with cpt_lookup := h.cpt_lookup + 1 } := hinv
    obtain ⟨ginv, gperm⟩ := sht_gc_all hashfn
      { h with cpt_lookup := h.cpt_lookup + 1 } h.gc_num hinv1
    obtain ⟨rinv, rperm⟩ := sht_lookup_insert_resize_all hashfn
      ((_sht_gc { h with cpt_lookup := h.cpt_lookup + 1 } h.gc_num).1)
      (hashfn key % 2 ^ 32) ginv
    by_cases hfound : sht_lookup_insert_old
        (sht_lookup_insert_resize
          ((_sht_gc { h with cpt_lookup := h.cpt_lookup + 1 } h.gc_num).1)
          (hashfn key % 2 ^ 32))
        key (hashfn key % 2 ^ 32) ≠ 0
    · rw [if_pos hfound]
      exact ⟨rinv, Or.inl (rperm.trans gperm)⟩
    · rw [if_neg hfound]
      obtain ⟨iinv, icase⟩ := sht_lookup_insert_ins_all hashfn
        (sht_lookup_insert_resize
          ((_sht_gc { h with cpt_lookup := h.cpt_lookup + 1 } h.gc_num).1)
          (hashfn key % 2 ^ 32))
        key value rinv
      refine ⟨iinv, ?_⟩
      rcases icase with heq | hperm
      · rw [heq]
        exact Or.inl (rperm.trans gperm)
      · exact Or.inr (hperm.trans ((rperm.trans gperm).cons _))

/-- The current-table phase of `sht_remove` either misses (state
unchanged, rv -1) or unlinks exactly one node with the searched key. -/
theorem sht_remove_cur_spec (hashfn : List Nat → Nat) (g : Sht)
    (key : List Nat) (hash : Nat) (hinv : ShtInv hashfn g) :
    ShtInv hashfn (sht_remove_cur g key hash).1 ∧
    (((sht_remove_cur g key hash).1 = g ∧ (sht_remove_cur g key hash).2 = -1) ∨
      ((sht_remove_cur g key hash).2 = 0 ∧
        ∃ m : ShtNode, m.key = key ∧
          List.Perm (allNodes g)
            (m :: allNodes (sht_remove_cur g key hash).1))) := by
  obtain ⟨hcur, hold, hgc0⟩ := hinv
  unfold sht_remove_cur
  rcases hr : removeFirst (g.lines.getD (hash % g.size) ⟨0, []⟩).nodes key hash
    with _ | ⟨m, rest⟩
  · exact ⟨⟨hcur, hold, hgc0⟩, Or.inl ⟨rfl, rfl⟩⟩
  · dsimp only
    obtain ⟨m1, m2, m3⟩ := removeFirst_spec _ _ _ m rest hr
    have hj : hash % g.size < g.lines.length := by
      rw [hcur.2.1]
      exact Nat.mod_lt _ hcur.1
    have hrest_wf : ∀ n ∈ rest,
        n.hash % g.size = hash % g.size ∧ n.hash = hashfn n.key % 2 ^ 32 :=
      fun n hn => hcur.2.2 _ hj n
        (m3.symm.subset (List.mem_cons_of_mem m hn))
    refine ⟨⟨coreWF_set hashfn g.lines g.size _ _ _ hcur hj hrest_wf,
      hold, hgc0⟩, Or.inr ⟨rfl, m, m2, ?_⟩⟩
    have perm1 := linesNodes_split_perm g.lines (hash % g.size) hj
    have perm3 := linesNodes_set_perm g.lines (hash % g.size) hj
      ((g.lines.getD (hash % g.size) ⟨0, []⟩).len - 1) rest
    show List.Perm (linesNodes g.lines ++ oldNodes g)
      (m :: (linesNodes (g.lines.set (hash % g.size)
        ⟨(g.lines.getD (hash % g.size) ⟨0, []⟩).len - 1, rest⟩) ++ oldNodes g))
    refine ((perm1.append_right (oldNodes g)).trans
      ((m3.append_right _).append_right (oldNodes g))).trans ?_
    exact ((perm3.append_right (oldNodes g)).cons m).symm

/-- The old-table phase of `sht_remove`: state unchanged on a miss,
otherwise exactly one node with the searched key is unlinked. -/
theorem sht_remove_old_spec (hashfn : List Nat → Nat) (g : Sht)
    (key : List Nat) (hash : Nat) (hinv : ShtInv hashfn g) :
    ShtInv hashfn (sht_remove_old g key hash).1 ∧
    ((sht_remove_old g key hash).1 = g ∨
      ∃ m : ShtNode, m.key = key ∧
        List.Perm (allNodes g) (m :: allNodes (sht_remove_old g key hash).1)) := by
  obtain ⟨hcur, hold, hgc0⟩ := hinv
  unfold sht_remove_old
  rcases ho : g.old with _ | o
  · dsimp only
    refine ⟨⟨hcur, ?_, hgc0⟩, Or.inl rfl⟩
    rw [ho] at hold ⊢
    exact hold
  · have holdwf : oldWF hashfn o := by
      rw [ho] at hold
      exact hold
    dsimp only
    rcases hr : removeFirst (o.lines.getD (hash % o.size) ⟨0, []⟩).nodes key hash
      with _ | ⟨m, rest⟩
    · dsimp only
      refine ⟨⟨hcur, ?_, hgc0⟩, Or.inl rfl⟩
      rw [ho] at hold ⊢
      exact hold
    · dsimp only
      obtain ⟨m1, m2, m3⟩ := removeFirst_spec _ _ _ m rest hr
      have hj : hash % o.size < o.lines.length := by
        rw [holdwf.1.2.1]
        exact Nat.mod_lt _ holdwf.1.1
      have hrest_wf : ∀ n ∈ rest,
          n.hash % o.size = hash % o.size ∧ n.hash = hashfn n.key % 2 ^ 32 :=
        fun n hn => holdwf.1.2.2 _ hj n
          (m3.symm.subset (List.mem_cons_of_mem m hn))
      have hpre : ∀ j < o.gc_index,
          ((o.lines.set (hash % o.size)
            ⟨(o.lines.getD (hash % o.size) ⟨0, []⟩).len - 1, rest⟩).getD j
              ⟨0, []⟩).nodes = [] := by
        intro j hjlt
        by_cases hje : hash % o.size = j
        · exfalso
          have hempty := holdwf.2 j hjlt
          rw [← hje] at hempty
          rw [hempty] at hr
          simp [removeFirst] at hr
        · rw [list_getD_set_ne _ _ _ _ _ hje]
          exact holdwf.2 j hjlt
      refine ⟨⟨hcur, ?_, hgc0⟩, Or.inr ⟨m, m2, ?_⟩⟩
      · show oldWF hashfn
          { o with
            lines := o.lines.set (hash % o.size)
              ⟨(o.lines.getD (hash % o.size) ⟨0, []⟩).len - 1, rest⟩ }
        exact ⟨coreWF_set hashfn o.lines o.size _ _ _ holdwf.1 hj hrest_wf, hpre⟩
      · have perm1 := linesNodes_split_perm o.lines (hash % o.size) hj
        have perm3 := linesNodes_set_perm o.lines (hash % o.size) hj
          ((o.lines.getD (hash % o.size) ⟨0, []⟩).len - 1) rest
        show List.Perm (allNodes g)
          (m :: (linesNodes g.lines ++ linesNodes (o.lines.set (hash % o.size)
            ⟨(o.lines.getD (hash % o.size) ⟨0, []⟩).len - 1, rest⟩)))
        have hall : allNodes g = linesNodes g.lines ++ linesNodes o.lines := by
          unfold allNodes oldNodes
          rw [ho]
        rw [hall]
        refine ((List.Perm.append_left (linesNodes g.lines)
          (perm1.trans (m3.append_right _)))).trans ?_
        refine (List.perm_middle).trans ?_
        exact ((List.Perm.append_left (linesNodes g.lines) perm3).cons m).symm

/-- `sht_remove` preserves the invariant and removes at most one node,
always one carrying the searched key. -/
theorem sht_remove_all (hashfn : List Nat → Nat) (h : Sht) (key : List Nat)
    (hinv : ShtInv hashfn h) :
    ShtInv hashfn (sht_remove hashfn h key).1 ∧
    (List.Perm (allNodes (sht_remove hashfn h key).1) (allNodes h) ∨
      ∃ m : ShtNode, m.key = key ∧
        List.Perm (allNodes h) (m :: allNodes (sht_remove hashfn h key).1)) := by
  unfold sht_remove
  by_cases hk : key = []
  · rw [if_pos hk]
    exact ⟨hinv, Or.inl (List.Perm.refl _)⟩
  · rw [if_neg hk]
    obtain ⟨ginv, gperm⟩ := sht_gc_all hashfn h h.gc_num hinv
    obtain ⟨cinv, ccase⟩ := sht_remove_cur_spec hashfn
      ((_sht_gc h h.gc_num).1) key (hashfn key % 2 ^ 32) ginv
    by_cases hrv : (sht_remove_cur ((_sht_gc h h.gc_num).1) key
        (hashfn key % 2 ^ 32)).2 ≠ 0
    · rw [if_pos hrv]
      rcases ccase with ⟨heq, _⟩ | ⟨hz, _⟩
      · rw [heq]
        obtain ⟨oinv, ocase⟩ := sht_remove_old_spec hashfn
          ((_sht_gc h h.gc_num).1) key (hashfn key % 2 ^ 32) ginv
        refine ⟨oinv, ?_⟩
        rcases ocase with heq2 | ⟨m, hmk, hmp⟩
        · rw [heq2]
          exact Or.inl gperm
        · exact Or.inr ⟨m, hmk, gperm.symm.trans hmp⟩
      · exact absurd hz hrv
    · rw [if_neg hrv]
      rcases ccase with ⟨heq, _⟩ | ⟨_, m, hmk, hmp⟩
      · rw [heq]
        exact ⟨ginv, Or.inl gperm⟩
      · exact ⟨cinv, Or.inr ⟨m, hmk, gperm.symm.trans hmp⟩⟩

/-- Search correctness on a well-formed state: if every reachable node
with the searched key stores `V` and there is at least one, the
current-then-old search returns `V`. -/
theorem sht_lookup_find_spec (hashfn : List Nat → Nat) (g : Sht)
    (key : List Nat) (hash V : Nat)
    (hinv : ShtInv hashfn g)
    (hh : hash = hashfn key % 2 ^ 32)
    (hne : keyNodes g key ≠ [])
    (hdata : ∀ n ∈ keyNodes g key, n.data = V) :
    sht_lookup_find g key hash = V := by
  obtain ⟨hcur, hold, hgc0⟩ := hinv
  have hmemcur : ∀ n ∈ (g.lines.getD (hash % g.size) ⟨0, []⟩).nodes,
      n.key = key → n ∈ keyNodes g key := by
    intro n hn hk
    unfold keyNodes allNodes
    apply List.mem_filter.mpr
    refine ⟨List.mem_append_left _ ?_, by simpa using hk⟩
    exact mem_linesNodes g.lines _
      (by rw [hcur.2.1]; exact Nat.mod_lt _ hcur.1) n hn
  have hmemold : ∀ o, g.old = some o →
      ∀ n ∈ (o.lines.getD (hash % o.size) ⟨0, []⟩).nodes, n.key = key →
        n ∈ keyNodes g key := by
    intro o ho n hn hk
    have holdwf : oldWF hashfn o := by rw [ho] at hold; exact hold
    unfold keyNodes allNodes
    apply List.mem_filter.mpr
    refine ⟨List.mem_append_right _ ?_, by simpa using hk⟩
    unfold oldNodes
    rw [ho]
    exact mem_linesNodes o.lines _
      (by rw [holdwf.1.2.1]; exact Nat.mod_lt _ holdwf.1.1) n hn
  obtain ⟨n0, hn0⟩ := List.exists_mem_of_ne_nil _ hne
  have hn0k : n0 ∈ allNodes g ∧ n0.key = key := by
    have := List.mem_filter.mp hn0
    exact ⟨this.1, by simpa using this.2⟩
  rcases List.mem_append.mp hn0k.1 with hc | hoo
  · -- the witness node lives in the current table
    obtain ⟨j0, hj0, hj0m⟩ := mem_linesNodes_ex g.lines n0 hc
    obtain ⟨hp, hw⟩ := hcur.2.2 j0 hj0 n0 hj0m
    have hn0hash : n0.hash = hash := by rw [hw, hn0k.2, hh]
    have hj0eq : j0 = hash % g.size := by rw [← hp, hn0hash]
    have hex : ∃ n ∈ (g.lines.getD (hash % g.size) ⟨0, []⟩).nodes,
        n.hash = hash ∧ n.key = key :=
      ⟨n0, by rw [← hj0eq]; exact hj0m, hn0hash, hn0k.2⟩
    obtain ⟨n1, hn1mem, hn1h, hn1k, hn1eq⟩ := line_lookup_finds _ _ _ hex
    have hcureq : sht_lookup_cur g key hash = V := by
      unfold sht_lookup_cur
      rw [hn1eq]
      exact hdata n1 (hmemcur n1 hn1mem hn1k)
    unfold sht_lookup_find
    rcases ho : g.old with _ | o
    · exact hcureq
    · dsimp only
      by_cases hz : sht_lookup_cur g key hash = 0
      · rw [if_pos hz]
        have hV0 : V = 0 := by rw [← hcureq, hz]
        rcases line_lookup_cases (o.lines.getD (hash % o.size) ⟨0, []⟩).nodes
            key hash with h0 | ⟨n2, hn2m, _, hn2k, hn2e⟩
        · rw [h0, hV0]
        · rw [hn2e, hdata n2 (hmemold o ho n2 hn2m hn2k)]
      · rw [if_neg hz]
        exact hcureq
  · -- the witness node lives in the old table
    rcases ho : g.old with _ | o
    · exfalso
      unfold oldNodes at hoo
      rw [ho] at hoo
      simp at hoo
    · have holdwf : oldWF hashfn o := by rw [ho] at hold; exact hold
      unfold oldNodes at hoo
      rw [ho] at hoo
      obtain ⟨j0, hj0, hj0m⟩ := mem_linesNodes_ex o.lines n0 hoo
      obtain ⟨hp, hw⟩ := holdwf.1.2.2 j0 hj0 n0 hj0m
      have hn0hash : n0.hash = hash := by rw [hw, hn0k.2, hh]
      have hj0eq : j0 = hash % o.size := by rw [← hp, hn0hash]
      unfold sht_lookup_find
      rw [ho]
      dsimp only
      by_cases hz : sht_lookup_cur g key hash = 0
      · rw [if_pos hz]
        have hex : ∃ n ∈ (o.lines.getD (hash % o.size) ⟨0, []⟩).nodes,
            n.hash = hash ∧ n.key = key :=
          ⟨n0, by rw [← hj0eq]; exact hj0m, hn0hash, hn0k.2⟩
        obtain ⟨n1, hn1mem, hn1h, hn1k, hn1eq⟩ := line_lookup_finds _ _ _ hex
        rw [hn1eq]
        exact hdata n1 (hmemold o ho n1 hn1mem hn1k)
      · rw [if_neg hz]
        rcases line_lookup_cases (g.lines.getD (hash % g.size) ⟨0, []⟩).nodes
            key hash with h0 | ⟨n2, hn2m, _, hn2k, hn2e⟩
        · exact absurd h0 hz
        · show sht_lookup_cur g key hash = V
          unfold sht_lookup_cur
          rw [hn2e]
          exact hdata n2 (hmemcur n2 hn2m hn2k)

/-- `sht_lookup` on a well-formed state returns `V` whenever some node
with the searched key is reachable and all of them store `V`. -/
theorem sht_lookup_val (hashfn : List Nat → Nat) (h : Sht) (key : List Nat)
    (V : Nat) (hinv : ShtInv hashfn h) (hk : ¬ key = [])
    (hne : keyNodes h key ≠ [])
    (hdata : ∀ n ∈ keyNodes h key, n.data = V) :
    (sht_lookup hashfn h key).2 = V := by
  unfold sht_lookup
  rw [if_neg hk]
  dsimp only
  have hinv1 : ShtInv hashfn { h with cpt_lookup := h.cpt_lookup + 1 } := hinv
  obtain ⟨ginv, gperm⟩ := sht_gc_all hashfn
    { h with cpt_lookup := h.cpt_lookup + 1 } h.gc_num hinv1
  have hkperm : List.Perm
      (keyNodes (_sht_gc { h with cpt_lookup := h.cpt_lookup + 1 }
        h.gc_num).1 key)
      (keyNodes h key) := gperm.filter _
  apply sht_lookup_find_spec hashfn _ key _ V ginv rfl
  · intro hnil
    have hlen := hkperm.length_eq
    rw [hnil] at hlen
    exact hne (List.eq_nil_of_length_eq_zero hlen.symm)
  · intro n hn
    exact hdata n (hkperm.subset hn)

/-- Any public operation that does not name the key `K` preserves the
invariant and the multiset of reachable `K`-nodes. -/
theorem runShtOp_keeps (hashfn : List Nat → Nat) (K : List Nat) (op : ShtOp)
    (h : Sht) (hinv : ShtInv hashfn h) (hK : mentionsKey K op = false) :
    ShtInv hashfn (runShtOp hashfn h op) ∧
    List.Perm (keyNodes (runShtOp hashfn h op) K) (keyNodes h K) := by
  cases op with
  | opInsert k v =>
    by_cases hk : k = []
    · have heq : runShtOp hashfn h (ShtOp.opInsert k v) = h := by
        show (sht_insert hashfn h k v).1 = h
        unfold sht_insert
        rw [if_pos hk]
      rw [heq]
      exact ⟨hinv, List.Perm.refl _⟩
    · have hkK : ¬ k = K := by simpa [mentionsKey] using hK
      obtain ⟨i1, i2⟩ := sht_insert_all hashfn h k v hinv hk
      refine ⟨i1, ?_⟩
      show List.Perm (keyNodes (sht_insert hashfn h k v).1 K) (keyNodes h K)
      unfold keyNodes
      refine (i2.filter _).trans ?_
      rw [List.filter_cons]
      simp [hkK]
  | opRemove k =>
    obtain ⟨r1, r2⟩ := sht_remove_all hashfn h k hinv
    refine ⟨r1, ?_⟩
    rcases r2 with hp | ⟨m, hmk, hp⟩
    · exact hp.filter _
    · have hkK : ¬ k = K := by simpa [mentionsKey] using hK
      show List.Perm (keyNodes (sht_remove hashfn h k).1 K) (keyNodes h K)
      unfold keyNodes
      have hfil := hp.filter (fun n => n.key == K)
      rw [List.filter_cons] at hfil
      have hm : (m.key == K) = false := by
        rw [hmk]
        simpa using hkK
      rw [hm] at hfil
      simp only [Bool.false_eq_true, if_false] at hfil
      exact hfil.symm
  | opLookup k =>
    obtain ⟨l1, l2⟩ := sht_lookup_state hashfn h k hinv
    exact ⟨l1, l2.filter _⟩
  | opLookupInsert k v =>
    obtain ⟨l1, l2⟩ := sht_lookup_insert_all hashfn h k v hinv
    refine ⟨l1, ?_⟩
    rcases l2 with hp | hp
    · exact hp.filter _
    · have hkK : ¬ k = K := by simpa [mentionsKey] using hK
      show List.Perm (keyNodes (sht_lookup_insert hashfn h k v).1 K)
        (keyNodes h K)
      unfold keyNodes
      refine (hp.filter _).trans ?_
      rw [List.filter_cons]
      simp [hkK]
  | opGc n =>
    show ShtInv hashfn (sht_gc h n).1 ∧ _
    unfold sht_gc
    obtain ⟨g1, g2⟩ := sht_gc_all hashfn h n hinv
    exact ⟨g1, g2.filter _⟩

/-- Trace version of `runShtOp_keeps`. -/
theorem runShtOps_keeps (hashfn : List Nat → Nat) (K : List Nat) :
    ∀ (ops : List ShtOp) (h : Sht), ShtInv hashfn h →
      (∀ op ∈ ops, mentionsKey K op = false) →
      ShtInv hashfn (runShtOps hashfn h ops) ∧
      List.Perm (keyNodes (runShtOps hashfn h ops) K) (keyNodes h K) := by
  intro ops
  induction ops with
  | nil =>
    intro h hinv _
    exact ⟨hinv, List.Perm.refl _⟩
  | cons op rest ih =>
    intro h hinv hall
    obtain ⟨p1, p2⟩ := runShtOp_keeps hashfn K op h hinv
      (hall op (List.mem_cons_self _ _))
    obtain ⟨q1, q2⟩ := ih (runShtOp hashfn h op) p1
      (fun o ho => hall o (List.mem_cons_of_mem _ ho))
    exact ⟨q1, q2.trans p2⟩

/-- Traces compose. -/
theorem runShtOps_append (hashfn : List Nat → Nat) (l1 l2 : List ShtOp) :
    ∀ h, runShtOps hashfn h (l1 ++ l2)
      = runShtOps hashfn (runShtOps hashfn h l1) l2 := by
  induction l1 with
  | nil => intro h; rfl
  | cons op rest ih => intro h; exact ih (runShtOp hashfn h op)

/-- C2 counterexample: in `shtDupRun` the key `[0]` is inserted a
second time with value 44 — its last insert, not followed by a remove
or by any further insert of the key — yet `sht_lookup` afterwards
returns the first value 11, because the incremental gc re-prepended
the migrated old nodes on top of the newer duplicate. -/
theorem sht_lookup_stale_after_migration :
    shtDupRun.2 = 11 ∧ shtDupRun.2 ≠ 44 := by decide

/-- C6 counterexample: after the two inserts of key `[0]` (first 11,
then 44) both entries do remain, but the lookup returns 11 — the OLDER
value — because a resize and the subsequent gc migration intervened,
so "lookups return the most recently inserted" fails in general. -/
theorem sht_insert_twice_lookup_not_recent :
    (keyNodes shtDupRun.1 [0]).length = 2 ∧ shtDupRun.2 ≠ 44 := by decide

theorem append_eq_singleton {α : Type} (a b : List α) (x : α)
    (h : a ++ b = [x]) : (a = [x] ∧ b = []) ∨ (a = [] ∧ b = [x]) := by
  cases a with
  | nil => right; exact ⟨rfl, h⟩
  | cons y a' =>
    left
    simp only [List.cons_append, List.cons.injEq] at h
    obtain ⟨rfl, h2⟩ := h
    have := List.append_eq_nil.mp h2
    simp [this.1, this.2]

/-- Current-line nodes with the searched key are reachable
`key`-nodes. -/
theorem cur_match_mem (hashfn : List Nat → Nat) (g : Sht) (key : List Nat)
    (hash : Nat) (hinv : ShtInv hashfn g) :
    ∀ n ∈ (g.lines.getD (hash % g.size) ⟨0, []⟩).nodes, n.key = key →
      n ∈ keyNodes g key := by
  intro n hn hk
  unfold keyNodes allNodes
  apply List.mem_filter.mpr
  refine ⟨List.mem_append_left _ ?_, by simpa using hk⟩
  exact mem_linesNodes g.lines _
    (by rw [hinv.1.2.1]; exact Nat.mod_lt _ hinv.1.1) n hn

/-- Old-line nodes with the searched key are reachable `key`-nodes. -/
theorem old_match_mem (hashfn : List Nat → Nat) (g : Sht) (o : ShtCore)
    (key : List Nat) (hash : Nat) (hinv : ShtInv hashfn g)
    (ho : g.old = some o) :
    ∀ n ∈ (o.lines.getD (hash % o.size) ⟨0, []⟩).nodes, n.key = key →
      n ∈ keyNodes g key := by
  intro n hn hk
  have holdwf : oldWF hashfn o := by
    have := hinv.2.1
    rw [ho] at this
    exact this
  unfold keyNodes allNodes
  apply List.mem_filter.mpr
  refine ⟨List.mem_append_right _ ?_, by simpa using hk⟩
  unfold oldNodes
  rw [ho]
  exact mem_linesNodes o.lines _
    (by rw [holdwf.1.2.1]; exact Nat.mod_lt _ holdwf.1.1) n hn

/-- Reachable `key`-nodes split between the two tables. -/
theorem keyNodes_split (g : Sht) (key : List Nat) :
    keyNodes g key
      = (linesNodes g.lines).filter (fun n => n.key == key)
        ++ (oldNodes g).filter (fun n => n.key == key) := by
  unfold keyNodes allNodes
  exact List.filter_append _ _

/-- A `key`-node of the current table sits in the line of the key's
hash and matches the search. -/
theorem cur_keyNode_in_line (hashfn : List Nat → Nat) (g : Sht)
    (key : List Nat) (hash : Nat) (n : ShtNode)
    (hinv : ShtInv hashfn g) (hh : hash = hashfn key % 2 ^ 32)
    (hn : n ∈ (linesNodes g.lines).filter (fun n => n.key == key)) :
    n ∈ (g.lines.getD (hash % g.size) ⟨0, []⟩).nodes
      ∧ n.hash = hash ∧ n.key = key := by
  obtain ⟨hmem, hkb⟩ := List.mem_filter.mp hn
  have hk : n.key = key := by simpa using hkb
  obtain ⟨j0, hj0, hj0m⟩ := mem_linesNodes_ex g.lines n hmem
  obtain ⟨hp, hw⟩ := hinv.1.2.2 j0 hj0 n hj0m
  have hnh : n.hash = hash := by rw [hw, hk, hh]
  have hje : j0 = hash % g.size := by rw [← hp, hnh]
  exact ⟨by rw [← hje]; exact hj0m, hnh, hk⟩

/-- A `key`-node of the old table sits in the old line of the key's
hash and matches the search. -/
theorem old_keyNode_in_line (hashfn : List Nat → Nat) (g : Sht) (o : ShtCore)
    (key : List Nat) (hash : Nat) (n : ShtNode)
    (hinv : ShtInv hashfn g) (hh : hash = hashfn key % 2 ^ 32)
    (ho : g.old = some o)
    (hn : n ∈ (oldNodes g).filter (fun n => n.key == key)) :
    n ∈ (o.lines.getD (hash % o.size) ⟨0, []⟩).nodes
      ∧ n.hash = hash ∧ n.key = key := by
  have holdwf : oldWF hashfn o := by
    have := hinv.2.1
    rw [ho] at this
    exact this
  obtain ⟨hmem, hkb⟩ := List.mem_filter.mp hn
  have hk : n.key = key := by simpa using hkb
  unfold oldNodes at hmem
  rw [ho] at hmem
  obtain ⟨j0, hj0, hj0m⟩ := mem_linesNodes_ex o.lines n hmem
  obtain ⟨hp, hw⟩ := holdwf.1.2.2 j0 hj0 n hj0m
  have hnh : n.hash = hash := by rw [hw, hk, hh]
  have hje : j0 = hash % o.size := by rw [← hp, hnh]
  exact ⟨by rw [← hje]; exact hj0m, hnh, hk⟩

/-- C5: `sht_lookup_insert` on a well-formed table and non-empty key
is an atomic get-or-create.  If the key is present (as the unique
reachable node for that key, with a non-NULL value `V`, whether it
sits in the current or the old table) the call returns `V` and leaves
the reachable nodes unchanged (the incremental gc may only migrate
nodes between the tables); if the key is absent, the call inserts one
new entry, returns the caller's `v`, and an immediately following
`sht_lookup` of the key returns that same `v`. -/
theorem sht_lookup_insert_spec (hashfn : List Nat → Nat) (h : Sht)
    (key : List Nat) (v V : Nat)
    (hinv : ShtInv hashfn h) (hk : ¬ key = []) :
    (keyNodes h key = [⟨hashfn key % 2 ^ 32, key, V⟩] → V ≠ 0 →
      (sht_lookup_insert hashfn h key v).2 = V ∧
      List.Perm (allNodes (sht_lookup_insert hashfn h key v).1) (allNodes h)) ∧
    (keyNodes h key = [] →
      (sht_lookup_insert hashfn h key v).2 = v ∧
      List.Perm (allNodes (sht_lookup_insert hashfn h key v).1)
        (⟨hashfn key % 2 ^ 32, key, v⟩ :: allNodes h) ∧
      (sht_lookup hashfn (sht_lookup_insert hashfn h key v).1 key).2 = v) := by
  have hinv1 : ShtInv hashfn { h with cpt_lookup := h.cpt_lookup + 1 } := hinv
  obtain ⟨ginv, gperm⟩ := sht_gc_all hashfn
    { h with cpt_lookup := h.cpt_lookup + 1 } h.gc_num hinv1
  obtain ⟨rinv, rperm⟩ := sht_lookup_insert_resize_all hashfn
    ((_sht_gc { h with cpt_lookup := h.cpt_lookup + 1 } h.gc_num).1)
    (hashfn key % 2 ^ 32) ginv
  have hrh : List.Perm (allNodes (sht_lookup_insert_resize
      ((_sht_gc { h with cpt_lookup := h.cpt_lookup + 1 } h.gc_num).1)
      (hashfn key % 2 ^ 32))) (allNodes h) := rperm.trans gperm
  have hkperm : List.Perm (keyNodes (sht_lookup_insert_resize
      ((_sht_gc { h with cpt_lookup := h.cpt_lookup + 1 } h.gc_num).1)
      (hashfn key % 2 ^ 32)) key) (keyNodes h key) := hrh.filter _
  unfold sht_lookup_insert
  rw [if_neg hk]
  generalize hR : sht_lookup_insert_resize
      ((_sht_gc { h with cpt_lookup := h.cpt_lookup + 1 } h.gc_num).1)
      (hashfn key % 2 ^ 32) = R
  rw [hR] at rinv hrh hkperm
  constructor
  · -- the key is present as a unique node storing V ≠ 0
    intro hsing hV
    have hkr : keyNodes R key = [⟨hashfn key % 2 ^ 32, key, V⟩] := by
      rw [hsing] at hkperm
      exact List.perm_singleton.mp hkperm
    have hsplitR := keyNodes_split R key
    rw [hkr] at hsplitR
    rcases append_eq_singleton _ _ _ hsplitR.symm with ⟨hcu, hol⟩ | ⟨hcu, hol⟩
    · -- the node lives in the current table; the old probe misses
      have hprobe : sht_lookup_insert_old R key (hashfn key % 2 ^ 32) = 0 := by
        unfold sht_lookup_insert_old
        rcases ho : R.old with _ | o
        · rfl
        · have holdwf : oldWF hashfn o := by
            have := rinv.2.1
            rw [ho] at this
            exact this
          apply line_lookup_none
          intro n hn hmatch
          have hmem : n ∈ (oldNodes R).filter (fun n => n.key == key) := by
            apply List.mem_filter.mpr
            refine ⟨?_, by simpa using hmatch.2⟩
            unfold oldNodes
            rw [ho]
            exact mem_linesNodes o.lines _
              (by rw [holdwf.1.2.1]; exact Nat.mod_lt _ holdwf.1.1) n hn
          rw [hol] at hmem
          simp at hmem
      rw [hprobe]
      rw [if_neg (fun hc => hc rfl)]
      obtain ⟨hndline, hndh, hndk⟩ := cur_keyNode_in_line hashfn R key
        (hashfn key % 2 ^ 32) ⟨hashfn key % 2 ^ 32, key, V⟩ rinv rfl
        (by rw [hcu]; exact List.mem_singleton.mpr rfl)
      obtain ⟨n1, hn1mem, hn1h, hn1k, hn1eq⟩ := line_lookup_finds
        (R.lines.getD ((hashfn key % 2 ^ 32) % R.size) ⟨0, []⟩).nodes key
        (hashfn key % 2 ^ 32) ⟨_, hndline, hndh, hndk⟩
      have hn1mem2 : n1 ∈ keyNodes R key :=
        cur_match_mem hashfn R key (hashfn key % 2 ^ 32) rinv n1 hn1mem hn1k
      rw [hkr] at hn1mem2
      have hn1nd := List.mem_singleton.mp hn1mem2
      unfold sht_lookup_insert_ins
      rw [hn1eq, hn1nd]
      dsimp only
      rw [if_pos hV]
      exact ⟨rfl, hrh⟩
    · -- the node lives in the old table; the old probe finds it
      have hndOld : (⟨hashfn key % 2 ^ 32, key, V⟩ : ShtNode)
          ∈ (oldNodes R).filter (fun n => n.key == key) := by
        rw [hol]
        exact List.mem_singleton.mpr rfl
      rcases ho : R.old with _ | o
      · exfalso
        have hm := (List.mem_filter.mp hndOld).1
        unfold oldNodes at hm
        rw [ho] at hm
        simp at hm
      · obtain ⟨hndline, hndh, hndk⟩ := old_keyNode_in_line hashfn R o key
          (hashfn key % 2 ^ 32) ⟨hashfn key % 2 ^ 32, key, V⟩ rinv rfl ho hndOld
        have hprobe : sht_lookup_insert_old R key (hashfn key % 2 ^ 32) = V := by
          unfold sht_lookup_insert_old
          rw [ho]
          dsimp only
          obtain ⟨n1, hn1mem, hn1h, hn1k, hn1eq⟩ := line_lookup_finds
            (o.lines.getD ((hashfn key % 2 ^ 32) % o.size) ⟨0, []⟩).nodes key
            (hashfn key % 2 ^ 32) ⟨_, hndline, hndh, hndk⟩
          rw [hn1eq]
          have hn1mem2 : n1 ∈ keyNodes R key :=
            old_match_mem hashfn R o key (hashfn key % 2 ^ 32) rinv ho
              n1 hn1mem hn1k
          rw [hkr] at hn1mem2
          rw [List.mem_singleton.mp hn1mem2]
        rw [hprobe]
        rw [if_pos hV]
        exact ⟨rfl, hrh⟩
  · -- the key is absent: insert, then find what was inserted
    intro hnil
    have hkr : keyNodes R key = [] := by
      have hlen := hkperm.length_eq
      rw [hnil] at hlen
      exact List.eq_nil_of_length_eq_zero hlen
    have hsplitR := keyNodes_split R key
    rw [hkr] at hsplitR
    have hcu : (linesNodes R.lines).filter (fun n => n.key == key) = [] :=
      (List.append_eq_nil.mp hsplitR.symm).1
    have hol : (oldNodes R).filter (fun n => n.key == key) = [] :=
      (List.append_eq_nil.mp hsplitR.symm).2
    have hprobe : sht_lookup_insert_old R key (hashfn key % 2 ^ 32) = 0 := by
      unfold sht_lookup_insert_old
      rcases ho : R.old with _ | o
      · rfl
      · have holdwf : oldWF hashfn o := by
          have := rinv.2.1
          rw [ho] at this
          exact this
        apply line_lookup_none
        intro n hn hmatch
        have hmem : n ∈ (oldNodes R).filter (fun n => n.key == key) := by
          apply List.mem_filter.mpr
          refine ⟨?_, by simpa using hmatch.2⟩
          unfold oldNodes
          rw [ho]
          exact mem_linesNodes o.lines _
            (by rw [holdwf.1.2.1]; exact Nat.mod_lt _ holdwf.1.1) n hn
        rw [hol] at hmem
        simp at hmem
    rw [hprobe]
    rw [if_neg (fun hc => hc rfl)]
    have hcur0 : line_lookup
        (R.lines.getD ((hashfn key % 2 ^ 32) % R.size) ⟨0, []⟩).nodes key
        (hashfn key % 2 ^ 32) = 0 := by
      apply line_lookup_none
      intro n hn hmatch
      have hmem : n ∈ (linesNodes R.lines).filter (fun n => n.key == key) := by
        apply List.mem_filter.mpr
        exact ⟨mem_linesNodes R.lines _
          (by rw [rinv.1.2.1]; exact Nat.mod_lt _ rinv.1.1) n hn,
          by simpa using hmatch.2⟩
      rw [hcu] at hmem
      simp at hmem
    unfold sht_lookup_insert_ins
    rw [hcur0]
    rw [if_neg (fun hc => hc rfl)]
    obtain ⟨ainv, aperm⟩ := sht_insert_node_all2 hashfn R
      ⟨hashfn key % 2 ^ 32, key, v⟩ rinv rfl
    have hsing2 : List.Perm
        (keyNodes (sht_insert_node R
          ((hashfn key % 2 ^ 32) % R.size) ⟨hashfn key % 2 ^ 32, key, v⟩) key)
        [⟨hashfn key % 2 ^ 32, key, v⟩] := by
      unfold keyNodes
      refine (aperm.filter _).trans ?_
      rw [List.filter_cons]
      have ht : ((⟨hashfn key % 2 ^ 32, key, v⟩ : ShtNode).key == key)
          = true := by simp
      rw [ht, if_pos rfl]
      unfold keyNodes at hkr
      rw [hkr]
    dsimp only
    refine ⟨rfl, ?_, ?_⟩
    · exact aperm.trans (hrh.cons _)
    · apply sht_lookup_val hashfn _ key v ainv hk
      · intro he
        rw [he] at hsing2
        exact absurd hsing2.length_eq (by simp)
      · intro n hn
        have := hsing2.subset hn
        rw [List.mem_singleton.mp this]

/-- C6 (amended): two `sht_insert` calls with the same key on a table
with no migration in progress (`old == NULL`) and enough depth room
that neither insert triggers a resize: both entries remain in the
bucket, and `sht_lookup` returns the value of the more recent insert
(entries are prepended and lookup returns the first match).  Without
the no-migration condition the recency claim is false:
`sht_insert_twice_lookup_not_recent`. -/
theorem sht_insert_twice_lookup (hashfn : List Nat → Nat) (h : Sht)
    (K : List Nat) (v1 v2 : Nat)
    (hK : ¬ K = [])
    (hold : h.old = none)
    (hsz : 0 < h.size)
    (hlen : h.lines.length = h.size)
    (hdepth : (h.lines.getD ((hashfn K % 2 ^ 32) % h.size) ⟨0, []⟩).len + 1
      ≤ (h.max_line_depth : Int)) :
    (sht_lookup hashfn
      (sht_insert hashfn (sht_insert hashfn h K v1).1 K v2).1 K).2 = v2 ∧
    (⟨hashfn K % 2 ^ 32, K, v1⟩ : ShtNode)
      ∈ allNodes (sht_insert hashfn (sht_insert hashfn h K v1).1 K v2).1 ∧
    (⟨hashfn K % 2 ^ 32, K, v2⟩ : ShtNode)
      ∈ allNodes (sht_insert hashfn (sht_insert hashfn h K v1).1 K v2).1 := by
  have hj : (hashfn K % 2 ^ 32) % h.size < h.lines.length := by
    rw [hlen]
    exact Nat.mod_lt _ hsz
  obtain ⟨A, hA⟩ : ∃ A, (sht_insert hashfn h K v1).1 = A := ⟨_, rfl⟩
  rw [hA]
  have e1 : sht_insert_sized h (hashfn K % 2 ^ 32) = h := by
    unfold sht_insert_sized
    rw [if_neg (by omega)]
  have hAdef : A = sht_insert_node h ((hashfn K % 2 ^ 32) % h.size)
      ⟨hashfn K % 2 ^ 32, K, v1⟩ := by
    rw [← hA]
    unfold sht_insert
    rw [if_neg hK, e1]
  have hline1 : A.lines.getD ((hashfn K % 2 ^ 32) % h.size) ⟨0, []⟩
      = ⟨(h.lines.getD ((hashfn K % 2 ^ 32) % h.size) ⟨0, []⟩).len + 1,
          ⟨hashfn K % 2 ^ 32, K, v1⟩
            :: (h.lines.getD ((hashfn K % 2 ^ 32) % h.size) ⟨0, []⟩).nodes⟩ := by
    rw [hAdef]
    exact list_getD_set_self _ _ _ _ hj
  have hs1 : A.size = h.size := by
    rw [hAdef]
    rfl
  have ho1 : A.old = none := by
    rw [hAdef]
    exact hold
  have hd1 : A.max_line_depth = h.max_line_depth := by
    rw [hAdef]
    rfl
  have hl1 : A.lines.length = h.lines.length := by
    rw [hAdef]
    show (h.lines.set _ _).length = _
    rw [List.length_set]
  obtain ⟨B, hB⟩ : ∃ B, (sht_insert hashfn A K v2).1 = B := ⟨_, rfl⟩
  rw [hB]
  have e2 : sht_insert_sized A (hashfn K % 2 ^ 32) = A := by
    unfold sht_insert_sized
    rw [hs1, hline1, hd1]
    rw [if_neg (by dsimp only; omega)]
  have hBdef : B = sht_insert_node A ((hashfn K % 2 ^ 32) % h.size)
      ⟨hashfn K % 2 ^ 32, K, v2⟩ := by
    rw [← hB]
    unfold sht_insert
    rw [if_neg hK, e2, hs1]
  have hline2 : B.lines.getD ((hashfn K % 2 ^ 32) % h.size) ⟨0, []⟩
      = ⟨(h.lines.getD ((hashfn K % 2 ^ 32) % h.size) ⟨0, []⟩).len + 1 + 1,
          ⟨hashfn K % 2 ^ 32, K, v2⟩ :: ⟨hashfn K % 2 ^ 32, K, v1⟩
            :: (h.lines.getD ((hashfn K % 2 ^ 32) % h.size) ⟨0, []⟩).nodes⟩ := by
    rw [hBdef]
    unfold sht_insert_node
    dsimp only
    rw [list_getD_set_self _ _ _ _ (by rw [hl1]; exact hj), hline1]
  have hs2 : B.size = h.size := by
    rw [hBdef]
    exact hs1
  have ho2 : B.old = none := by
    rw [hBdef]
    exact ho1
  have hl2 : B.lines.length = h.lines.length := by
    rw [hBdef]
    show (A.lines.set _ _).length = _
    rw [List.length_set]
    exact hl1
  have hmem2 : (⟨hashfn K % 2 ^ 32, K, v2⟩ : ShtNode) ∈ allNodes B := by
    apply List.mem_append_left
    apply mem_linesNodes _ ((hashfn K % 2 ^ 32) % h.size)
      (by rw [hl2]; exact hj)
    rw [hline2]
    exact List.mem_cons_self _ _
  have hmem1 : (⟨hashfn K % 2 ^ 32, K, v1⟩ : ShtNode) ∈ allNodes B := by
    apply List.mem_append_left
    apply mem_linesNodes _ ((hashfn K % 2 ^ 32) % h.size)
      (by rw [hl2]; exact hj)
    rw [hline2]
    exact List.mem_cons_of_mem _ (List.mem_cons_self _ _)
  refine ⟨?_, hmem1, hmem2⟩
  unfold sht_lookup
  rw [if_neg hK]
  dsimp only
  have hogc : ({ B with cpt_lookup := B.cpt_lookup + 1 } : Sht).old = none := ho2
  have hgc : _sht_gc { B with cpt_lookup := B.cpt_lookup + 1 } B.gc_num
      = ({ B with cpt_lookup := B.cpt_lookup + 1 }, 0) := by
    unfold _sht_gc
    rw [hogc]
  rw [hgc]
  dsimp only
  unfold sht_lookup_find
  rw [hogc]
  dsimp only
  show sht_lookup_cur { B with cpt_lookup := B.cpt_lookup + 1 } K
    (hashfn K % 2 ^ 32) = v2
  unfold sht_lookup_cur
  show line_lookup
    (B.lines.getD ((hashfn K % 2 ^ 32) % B.size) ⟨0, []⟩).nodes K
    (hashfn K % 2 ^ 32) = v2
  rw [hs2, hline2]
  simp [line_lookup]

/-- A small table with key `[1]` stored once (value 5), used to
witness C5. -/
def shtW5 : Sht := (sht_insert (fun _ => 0) (sht_create 4) [1] 5).1

/-- Witness for C5: get-or-create on a present key returns the stored
value; on an absent key it returns the caller's value. -/
theorem sht_lookup_insert_spec_witness :
    (sht_lookup_insert (fun _ => 0) shtW5 [1] 99).2 = 5 ∧
    (sht_lookup_insert (fun _ => 0) shtW5 [2] 7).2 = 7 :=
  ⟨((sht_lookup_insert_spec (fun _ => 0) shtW5 [1] 99 5 (by decide)
      (by decide)).1 (by decide) (by decide)).1,
    ((sht_lookup_insert_spec (fun _ => 0) shtW5 [2] 7 0 (by decide)
      (by decide)).2 (by decide)).1⟩

/-- Witness for C6 (amended): two inserts of key `[1]` on a fresh
4-line table; lookup returns the second value. -/
theorem sht_insert_twice_lookup_witness :
    (sht_lookup (fun _ => 0)
      (sht_insert (fun _ => 0)
        (sht_insert (fun _ => 0) (sht_create 4) [1] 10).1 [1] 20).1 [1]).2
      = 20 :=
  (sht_insert_twice_lookup (fun _ => 0) (sht_create 4) [1] 10 20
    (by decide) (by decide) (by decide) (by decide) (by decide)).1

/-- C2 (amended): over any single-threaded trace of public CHT
operations on a freshly created table, a key `K` inserted exactly once
(no other operation in the trace names `K`) is found by `sht_lookup`
with its inserted value, regardless of intervening resizes and
incremental old-to-current migrations.  The unamended claim — which
also allows re-inserts of `K` provided the looked-up insert is the
most recent — is refuted by `sht_lookup_stale_after_migration`. -/
theorem sht_lookup_unique_insert (hashfn : List Nat → Nat) (size : Int)
    (pre post : List ShtOp) (K : List Nat) (V : Nat)
    (hK : ¬ K = [])
    (hpre : ∀ op ∈ pre, mentionsKey K op = false)
    (hpost : ∀ op ∈ post, mentionsKey K op = false) :
    (sht_lookup hashfn
      (runShtOps hashfn (sht_create size) (pre ++ ShtOp.opInsert K V :: post))
      K).2 = V := by
  obtain ⟨cinv, cnil⟩ := sht_create_inv hashfn size
  obtain ⟨p1, p2⟩ := runShtOps_keeps hashfn K pre (sht_create size) cinv hpre
  have hpk : keyNodes (runShtOps hashfn (sht_create size) pre) K = [] := by
    have h0 : keyNodes (sht_create size) K = [] := by
      unfold keyNodes
      rw [cnil]
      rfl
    have hlen := p2.length_eq
    rw [h0] at hlen
    exact List.eq_nil_of_length_eq_zero hlen
  obtain ⟨i1, i2⟩ := sht_insert_all hashfn
    (runShtOps hashfn (sht_create size) pre) K V p1 hK
  have hik : List.Perm
      (keyNodes (sht_insert hashfn (runShtOps hashfn (sht_create size) pre)
        K V).1 K)
      [⟨hashfn K % 2 ^ 32, K, V⟩] := by
    unfold keyNodes
    refine (i2.filter _).trans ?_
    rw [List.filter_cons]
    have ht : ((⟨hashfn K % 2 ^ 32, K, V⟩ : ShtNode).key == K) = true := by
      simp
    rw [ht, if_pos rfl]
    unfold keyNodes at hpk
    rw [hpk]
  obtain ⟨q1, q2⟩ := runShtOps_keeps hashfn K post
    (sht_insert hashfn (runShtOps hashfn (sht_create size) pre) K V).1 i1 hpost
  have hfinal : keyNodes (runShtOps hashfn
      (sht_insert hashfn (runShtOps hashfn (sht_create size) pre) K V).1
      post) K = [⟨hashfn K % 2 ^ 32, K, V⟩] :=
    List.perm_singleton.mp (q2.trans hik)
  have hsplit : runShtOps hashfn (sht_create size)
      (pre ++ ShtOp.opInsert K V :: post)
      = runShtOps hashfn
        (sht_insert hashfn (runShtOps hashfn (sht_create size) pre) K V).1
        post := by
    rw [runShtOps_append]
    rfl
  rw [hsplit]
  apply sht_lookup_val hashfn _ K V q1 hK
  · rw [hfinal]
    simp
  · intro n hn
    rw [hfinal] at hn
    rw [List.mem_singleton.mp hn]

/-- Witness for C2 (amended): key `[5]` inserted once with value 9,
surrounded by operations on other keys (including a gc call and a
remove); the final lookup returns 9. -/
theorem sht_lookup_unique_insert_witness :
    (sht_lookup (fun _ => 0)
      (runShtOps (fun _ => 0) (sht_create 4)
        ([ShtOp.opInsert [1] 7] ++ ShtOp.opInsert [5] 9 ::
          [ShtOp.opGc 3, ShtOp.opRemove [1]])) [5]).2 = 9 :=
  sht_lookup_unique_insert (fun _ => 0) 4 [ShtOp.opInsert [1] 7]
    [ShtOp.opGc 3, ShtOp.opRemove [1]] [5] 9 (by decide) (by decide)
    (by decide)

end Ix
